import Mathlib

/-! Multipath entropy selection (htsim/sim/uec_mp.cpp)

A shallow embedding of the path selectors of `uec_mp.cpp` and a verification
of their documented behaviour.

Conventions of the embedding:

* `uint16_t` / `uint8_t` fields are natural numbers; every place where the C++
  arithmetic can wrap carries an explicit `% 65536` / `% 256`.
* The process-wide `rand()` is a stream `Rand = Nat → Nat` of the draws that are
  still to come: `g 0` is the value the next `rand()` call returns and
  `Rand.next g` is the stream after that call.
* Behaviour that ends the call abnormally (an out-of-range `vector` index, a
  failed `assert`, `exit(EXIT_FAILURE)`) is an `Except Err` error.
* `cout` tracing under `_debug` has no effect on the state and is left out.
-/

namespace UecMp

/-! ## Shared types -/

/-- The enum `UecMultipath::PathFeedback`. -/
inductive PathFeedback where
  | PATH_GOOD
  | PATH_ECN
  | PATH_NACK
  | PATH_TIMEOUT
  deriving DecidableEq, Repr

/-- Abnormal ends of a call. -/
inductive Err where
  | outOfBounds
  | assertFailed
  | fatalExit
  | outOfFuel
  deriving DecidableEq, Repr

/-- The stream of values that the coming `rand()` calls return. -/
abbrev Rand := Nat → Nat

/-- The stream left after one `rand()` call. -/
def Rand.next (g : Rand) : Rand := fun i => g (i + 1)

/-- Truncation to `uint16_t`. -/
def u16 (x : Nat) : Nat := x % 65536

/-- Truncation to `uint8_t`. -/
def u8 (x : Nat) : Nat := x % 256

/-- The C++ expression `uint16_t mask = _no_of_paths - 1` (the subtraction is
done in `int` and converted back, so `0` gives `65535`). -/
def maskOf (no_of_paths : Nat) : Nat := u16 (no_of_paths + 65535)

/-- The salt part `_path_random ^ (_path_random & mask)` of an entropy value. -/
def upperBits (path_random mask : Nat) : Nat := path_random ^^^ (path_random &&& mask)

/-- A call made on a selector through the `UecMultipath` interface. -/
inductive Op where
  | processEv (path_id : Nat) (feedback : PathFeedback)
  | nextEntropy (seq_sent cur_cwnd_in_pkts : Nat)
  deriving DecidableEq, Repr

/-- Whether a call is a `nextEntropy` call. -/
def Op.isNext : Op → Bool
  | .nextEntropy _ _ => true
  | .processEv _ _ => false

/-- Whether a call leaves path `p` unpenalized on a Bitmap selector of the
given mask: every `nextEntropy` call, and a `processEv` call whose feedback is
GOOD or whose (masked) path id is another path. -/
def Op.spares (p mask : Nat) : Op → Bool
  | .processEv path_id feedback => feedback == .PATH_GOOD || (path_id &&& mask) != p
  | .nextEntropy _ _ => true

/-- The candidate at round-robin position `i` under xor value `x` : the C++
expression `(i ^ x) & mask`. -/
def cand (i x mask : Nat) : Nat := (i ^^^ x) &&& mask

/-! ## Oblivious -/

/-- The fields of `UecMpOblivious`. -/
structure UecMpOblivious where
  no_of_paths : Nat
  path_random : Nat
  path_xor : Nat
  current_ev_index : Nat
  deriving DecidableEq, Repr

namespace UecMpOblivious

/-- The constructor `UecMpOblivious::UecMpOblivious`; it draws twice. -/
def create (no_of_paths : Nat) (g : Rand) : UecMpOblivious × Rand :=
  ({ no_of_paths := no_of_paths
     path_random := u16 (g 0 % 65535)
     path_xor := u16 (g 1 % no_of_paths)
     current_ev_index := 0 }, g.next.next)

/-- The method `UecMpOblivious::processEv`: a no-op. -/
def processEv (s : UecMpOblivious) (_path_id : Nat) (_feedback : PathFeedback) :
    UecMpOblivious := s

/-- The method `UecMpOblivious::nextEntropy`. Returns the entropy value, the
new state and the remaining random stream. -/
def nextEntropy (s : UecMpOblivious) (g : Rand) (_seq_sent _cur_cwnd_in_pkts : Nat) :
    Nat × UecMpOblivious × Rand :=
  let mask := maskOf s.no_of_paths
  let entropy := cand s.current_ev_index s.path_xor mask
  let idx := u16 (s.current_ev_index + 1)
  let next : UecMpOblivious × Rand :=
    if idx = s.no_of_paths then
      ({ s with current_ev_index := 0, path_xor := u16 (g 0 &&& mask) }, g.next)
    else
      ({ s with current_ev_index := idx }, g)
  (entropy ||| upperBits s.path_random mask, next.1, next.2)

/-- Runs a sequence of interface calls; collects the values that the
`nextEntropy` calls return, in order. -/
def run : UecMpOblivious → Rand → List Op → List Nat × UecMpOblivious × Rand
  | s, g, [] => ([], s, g)
  | s, g, .processEv p f :: ops => run (s.processEv p f) g ops
  | s, g, .nextEntropy a b :: ops =>
    let r := s.nextEntropy g a b
    let rest := run r.2.1 r.2.2 ops
    (r.1 :: rest.1, rest.2)

end UecMpOblivious

/-! ## Bitmap -/

/-- The fields of `UecMpBitmap`. -/
structure UecMpBitmap where
  no_of_paths : Nat
  path_random : Nat
  path_xor : Nat
  current_ev_index : Nat
  ev_skip_bitmap : List Nat
  ev_skip_count : Nat
  max_penalty : Nat
  deriving DecidableEq, Repr

namespace UecMpBitmap

/-- The constructor `UecMpBitmap::UecMpBitmap`; it draws twice. -/
def create (no_of_paths : Nat) (g : Rand) : UecMpBitmap × Rand :=
  ({ no_of_paths := no_of_paths
     path_random := u16 (g 0 % 65535)
     path_xor := u16 (g 1 % no_of_paths)
     current_ev_index := 0
     ev_skip_bitmap := List.replicate no_of_paths 0
     ev_skip_count := 0
     max_penalty := 15 }, g.next.next)

/-- The penalty that `processEv` adds for a feedback kind. -/
def penaltyOf (max_penalty : Nat) : PathFeedback → Nat
  | .PATH_GOOD => 0
  | .PATH_ECN => 1
  | .PATH_NACK => 4
  | .PATH_TIMEOUT => max_penalty

/-- The method `UecMpBitmap::processEv`. -/
def processEv (s : UecMpBitmap) (path_id : Nat) (feedback : PathFeedback) :
    Except Err UecMpBitmap :=
  let mask := maskOf s.no_of_paths
  let path_id := path_id &&& mask
  match s.ev_skip_bitmap[path_id]? with
  | none => .error .outOfBounds
  | some old =>
    let count :=
      if feedback ≠ .PATH_GOOD ∧ old = 0 then u16 (s.ev_skip_count + 1) else s.ev_skip_count
    let added := u8 (old + penaltyOf s.max_penalty feedback)
    let clamped := if added > s.max_penalty then s.max_penalty else added
    .ok { s with ev_skip_count := count
                 ev_skip_bitmap := s.ev_skip_bitmap.set path_id clamped }

/-- The statement group that occurs three times in the source:
`_current_ev_index++; if (_current_ev_index == _no_of_paths) { _current_ev_index = 0;
_path_xor = rand() & mask; }`. -/
def advanceIndex (s : UecMpBitmap) (g : Rand) : UecMpBitmap × Rand :=
  let idx := u16 (s.current_ev_index + 1)
  if idx = s.no_of_paths then
    ({ s with current_ev_index := 0, path_xor := u16 (g 0 &&& maskOf s.no_of_paths) }, g.next)
  else
    ({ s with current_ev_index := idx }, g)

/-- The body of `if (flag == false)` in the skip loop: the penalty of the
candidate goes down by one, and when it reaches zero the skip count goes down
by one under `assert(_ev_skip_count > 0)`. -/
def payDown (s : UecMpBitmap) (entropy penalty : Nat) : Except Err UecMpBitmap :=
  let lowered := u8 (penalty + 255)
  let s1 := { s with ev_skip_bitmap := s.ev_skip_bitmap.set entropy lowered }
  if lowered = 0 then
    if s1.ev_skip_count > 0 then .ok { s1 with ev_skip_count := s1.ev_skip_count - 1 }
    else .error .assertFailed
  else .ok s1

/-- The local variables of the `while` loop of `nextEntropy`, with the
selector and the random stream. `advances` is a ghost counter of the
executions of `_current_ev_index++` inside the loop. -/
structure Walk where
  sel : UecMpBitmap
  g : Rand
  entropy : Nat
  flag : Bool
  counter : Nat
  advances : Nat

/-- The `while (_ev_skip_bitmap[entropy] > 0)` loop of `nextEntropy`; one unit
of fuel per evaluation of the loop condition. -/
def skipWalk : Nat → Walk → Except Err Walk
  | 0, _ => .error .outOfFuel
  | fuel + 1, w =>
    match w.sel.ev_skip_bitmap[w.entropy]? with
    | none => .error .outOfBounds
    | some penalty =>
      if penalty > 0 then
        match (if w.flag = false then payDown w.sel w.entropy penalty else .ok w.sel) with
        | .error e => .error e
        | .ok s1 =>
          let counter := w.counter + 1
          if counter > s1.no_of_paths then
            .ok { w with sel := s1, flag := true, counter := counter }
          else
            let adv := advanceIndex s1 w.g
            skipWalk fuel
              { sel := adv.1
                g := adv.2
                entropy := cand adv.1.current_ev_index adv.1.path_xor (maskOf s1.no_of_paths)
                flag := true
                counter := counter
                advances := w.advances + 1 }
      else .ok w

/-- The state of the loop variables on entry to the loop. -/
def startWalk (s : UecMpBitmap) (g : Rand) : Walk :=
  { sel := s
    g := g
    entropy := cand s.current_ev_index s.path_xor (maskOf s.no_of_paths)
    flag := false
    counter := 0
    advances := 0 }

/-- The part of `nextEntropy` after the loop. -/
def finish (w : Walk) : Nat × UecMpBitmap × Rand :=
  let adv := advanceIndex w.sel w.g
  (w.entropy ||| upperBits w.sel.path_random (maskOf w.sel.no_of_paths), adv.1, adv.2)

/-- The method `UecMpBitmap::nextEntropy`, with the loop given `fuel`
evaluations of its condition. -/
def nextEntropyFuel (fuel : Nat) (s : UecMpBitmap) (g : Rand) :
    Except Err (Nat × UecMpBitmap × Rand) :=
  match skipWalk fuel (startWalk s g) with
  | .error e => .error e
  | .ok w => .ok (finish w)

/-- The method `UecMpBitmap::nextEntropy`. The loop condition is evaluated at
most `_no_of_paths + 1` times (see `skipWalk_start_cases`). -/
def nextEntropy (s : UecMpBitmap) (g : Rand) (_seq_sent _cur_cwnd_in_pkts : Nat) :
    Except Err (Nat × UecMpBitmap × Rand) :=
  nextEntropyFuel (s.no_of_paths + 1) s g

/-- Runs a sequence of interface calls; collects the values that the
`nextEntropy` calls return, in order. -/
def run : UecMpBitmap → Rand → List Op → Except Err (List Nat × UecMpBitmap × Rand)
  | s, g, [] => .ok ([], s, g)
  | s, g, .processEv p f :: ops =>
    match s.processEv p f with
    | .error e => .error e
    | .ok s1 => run s1 g ops
  | s, g, .nextEntropy a b :: ops =>
    match s.nextEntropy g a b with
    | .error e => .error e
    | .ok r =>
      match run r.2.1 r.2.2 ops with
      | .error e => .error e
      | .ok rest => .ok (r.1 :: rest.1, rest.2)

/-- The states that a selector can be in: constructed with a `uint16_t` path
count of at least one, then any calls. -/
inductive Reachable : UecMpBitmap → Prop where
  | create (n : Nat) (g : Rand) : 1 ≤ n → n < 65536 → Reachable (create n g).1
  | processEv (s s1 : UecMpBitmap) (p : Nat) (f : PathFeedback) :
      Reachable s → s.processEv p f = .ok s1 → Reachable s1
  | nextEntropy (s : UecMpBitmap) (g : Rand) (a b : Nat) (r : Nat × UecMpBitmap × Rand) :
      Reachable s → s.nextEntropy g a b = .ok r → Reachable r.2.1

/-- Whether a penalty score is non-zero. -/
def nonZero (x : Nat) : Bool := decide (x ≠ 0)

/-- The number of paths whose penalty is non-zero. -/
def penalized (s : UecMpBitmap) : Nat := s.ev_skip_bitmap.countP nonZero

/-- The representation invariant of a selector. -/
structure Inv (s : UecMpBitmap) : Prop where
  paths_pos : 1 ≤ s.no_of_paths
  paths_u16 : s.no_of_paths < 65536
  size : s.ev_skip_bitmap.length = s.no_of_paths
  max15 : s.max_penalty = 15
  bounded : ∀ x ∈ s.ev_skip_bitmap, x ≤ 15
  count : s.ev_skip_count = s.penalized
  index_lt : s.current_ev_index < s.no_of_paths

/-- The Oblivious selector that has the path count, the salt, the xor value
and the round-robin index of a Bitmap selector. -/
def toOblivious (s : UecMpBitmap) : UecMpOblivious :=
  { no_of_paths := s.no_of_paths
    path_random := s.path_random
    path_xor := s.path_xor
    current_ev_index := s.current_ev_index }

end UecMpBitmap

/-! ## Reps

`UecMpReps` works on a `CircularBufferREPS` (`buffer_reps.h`) and reads the
simulated clock (`eventlist.h`); neither file is among the sources, so both are
modelled from the specification of the interface that the selector consumes. -/

/-- Truncation to `uint64_t`. -/
def u64 (x : Nat) : Nat := x % 18446744073709551616

/-- Lookup in a `std::map` with integer keys, kept as a list of bindings in
increasing key order. -/
def mapGet? {α : Type} (m : List (Nat × α)) (key : Nat) : Option α :=
  (m.find? (fun e => e.1 == key)).map (fun e => e.2)

/-- Assignment `m[key] = v` on a `std::map`: replaces the binding or inserts it
at its place in the key order. -/
def mapSet {α : Type} : List (Nat × α) → Nat → α → List (Nat × α)
  | [], key, v => [(key, v)]
  | (k1, v1) :: rest, key, v =>
    if key < k1 then (key, v) :: (k1, v1) :: rest
    else if key = k1 then (key, v) :: rest
    else (k1, v1) :: mapSet rest key v

/-- The statement `m[key]++` on a `std::map` of `uint64_t` counters. -/
def mapIncr (m : List (Nat × Nat)) (key : Nat) : List (Nat × Nat) :=
  mapSet m key (u64 ((mapGet? m key).getD 0 + 1))

/-- Modelled from the spec: the fresh-entry buffer `CircularBufferREPS` of the
missing `buffer_reps.h`. `entries` holds the fresh path ids, oldest first; the
other fields are the mode flag and the public fields that the selector reads
and writes. -/
structure CircularBufferREPS where
  entries : List Nat
  frozen_mode : Bool
  explore_counter : Nat
  can_exit_frozen_mode : Nat
  exit_freeze_after : Nat
  deriving DecidableEq, Repr

namespace CircularBufferREPS

/-- Modelled from the spec: `add(path_id)` enqueues a path id as a fresh
candidate and never drops an entry. -/
def add (b : CircularBufferREPS) (path_id : Nat) : CircularBufferREPS :=
  { b with entries := b.entries ++ [path_id] }

/-- Modelled from the spec: the occupancy query `isEmpty()`. -/
def isEmpty (b : CircularBufferREPS) : Bool := b.entries.isEmpty

/-- Modelled from the spec: the occupancy query `getNumberFreshEntropies()`. -/
def getNumberFreshEntropies (b : CircularBufferREPS) : Nat := b.entries.length

/-- Modelled from the spec: `remove_earliest_fresh()` is the FIFO pop of the
oldest fresh entry (the selector calls it on a non-empty buffer only). -/
def remove_earliest_fresh (b : CircularBufferREPS) : Nat × CircularBufferREPS :=
  match b.entries with
  | [] => (0, b)
  | x :: rest => (x, { b with entries := rest })

/-- Modelled from the spec: `remove_frozen()` pops an entry under the
frozen-mode policy. The spec leaves the choice of the entry to the buffer, so
it is a parameter: `policy entries` is the position of the entry to pop. -/
def remove_frozen (policy : List Nat → Nat) (b : CircularBufferREPS) :
    Nat × CircularBufferREPS :=
  let i := policy b.entries % b.entries.length
  (b.entries.getD i 0, { b with entries := b.entries.eraseIdx i })

/-- Modelled from the spec: the mode flag query `isFrozenMode()`. -/
def isFrozenMode (b : CircularBufferREPS) : Bool := b.frozen_mode

/-- Modelled from the spec: `setFrozenMode(bool)` sets the mode flag. -/
def setFrozenMode (b : CircularBufferREPS) (frozen : Bool) : CircularBufferREPS :=
  { b with frozen_mode := frozen }

/-- Modelled from the spec: `resetBuffer()` clears all entries. -/
def resetBuffer (b : CircularBufferREPS) : CircularBufferREPS := { b with entries := [] }

/-- Modelled from the spec: `containsEntropy(path_id)` is the membership test. -/
def containsEntropy (b : CircularBufferREPS) (path_id : Nat) : Bool :=
  b.entries.contains path_id

end CircularBufferREPS

/-- The struct `UecMpReps::MqlStats`. -/
structure MqlStats where
  total_selections : Nat
  mql_based_selections : Nat
  mql_updates : Nat
  path_selection_count : List (Nat × Nat)
  mql_level_distribution : List (Nat × Nat)
  deriving DecidableEq, Repr

/-- The fields of `UecMpReps` that its methods use. -/
structure UecMpReps where
  no_of_paths : Nat
  circular_buffer_reps : CircularBufferREPS
  crt_path : Nat
  is_trimming_enabled : Bool
  path_mql_map : List (Nat × Nat)
  use_mql : Bool
  paths_by_mql_level : List (Nat × List Nat)
  stats : MqlStats
  deriving DecidableEq, Repr

/-- A call made on a Reps selector; `now` is the simulated time at which a
`processEv` call is made. -/
inductive RepsOp where
  | processEv (now path_id : Nat) (feedback : PathFeedback)
  | processMql (path_id mql_level : Nat)
  | nextEntropy (seq_sent cur_cwnd_in_pkts : Nat)
  deriving DecidableEq, Repr

namespace UecMpReps

/-- The constructor `UecMpReps::UecMpReps`, given the buffer that
`new CircularBufferREPS` builds. -/
def create (no_of_paths : Nat) (is_trimming_enabled : Bool) (buffer : CircularBufferREPS) :
    UecMpReps :=
  { no_of_paths := no_of_paths
    circular_buffer_reps := buffer
    crt_path := 0
    is_trimming_enabled := is_trimming_enabled
    path_mql_map := []
    use_mql := false
    paths_by_mql_level := []
    stats := ⟨0, 0, 0, [], []⟩ }

/-- The method `UecMpReps::setUseMql`. -/
def setUseMql (s : UecMpReps) (use_mql : Bool) : UecMpReps := { s with use_mql := use_mql }

/-- The method `UecMpReps::removePathFromGrouping`, on the grouping map: the
first level (in key order) that lists the path loses its first occurrence, and
is erased when it becomes empty. -/
def removeFromLevels : List (Nat × List Nat) → Nat → List (Nat × List Nat)
  | [], _ => []
  | (level, paths) :: rest, path_id =>
    if path_id ∈ paths then
      if (paths.erase path_id).isEmpty then rest else (level, paths.erase path_id) :: rest
    else (level, paths) :: removeFromLevels rest path_id

/-- The method `UecMpReps::removePathFromGrouping`. -/
def removePathFromGrouping (s : UecMpReps) (path_id : Nat) : UecMpReps :=
  { s with paths_by_mql_level := removeFromLevels s.paths_by_mql_level path_id }

/-- The method `UecMpReps::addPathToGrouping`. -/
def addPathToGrouping (s : UecMpReps) (path_id mql_level : Nat) : UecMpReps :=
  if s.circular_buffer_reps.containsEntropy path_id then
    let s1 := s.removePathFromGrouping path_id
    let paths := (mapGet? s1.paths_by_mql_level mql_level).getD []
    { s1 with paths_by_mql_level := mapSet s1.paths_by_mql_level mql_level (paths ++ [path_id]) }
  else s

/-- The method `UecMpReps::updateMqlGrouping`. -/
def updateMqlGrouping (s : UecMpReps) (path_id _old_mql new_mql : Nat) : UecMpReps :=
  if s.circular_buffer_reps.containsEntropy path_id then
    (s.removePathFromGrouping path_id).addPathToGrouping path_id new_mql
  else s

/-- The method `UecMpReps::processMql`. -/
def processMql (s : UecMpReps) (path_id mql_level : Nat) : UecMpReps :=
  let old_mql := (mapGet? s.path_mql_map path_id).getD 7
  let s1 := { s with path_mql_map := mapSet s.path_mql_map path_id mql_level }
  let s2 := if s1.use_mql then s1.updateMqlGrouping path_id old_mql mql_level else s1
  { s2 with stats :=
      { s2.stats with
        mql_updates := u64 (s2.stats.mql_updates + 1)
        mql_level_distribution := mapIncr s2.stats.mql_level_distribution mql_level } }

/-- The first statement of `processEv`: the entry into frozen mode, or the
fatal exit when trimming is disabled. `now` is the simulated time, modelled
from the spec as a natural number. -/
def enterFrozen (s : UecMpReps) (now : Nat) (feedback : PathFeedback) : Except Err UecMpReps :=
  if feedback = .PATH_TIMEOUT ∧ s.circular_buffer_reps.isFrozenMode = false ∧
      s.circular_buffer_reps.explore_counter = 0 then
    if s.is_trimming_enabled then
      .ok { s with circular_buffer_reps :=
              { s.circular_buffer_reps.setFrozenMode true with
                can_exit_frozen_mode := now + s.circular_buffer_reps.exit_freeze_after } }
    else .error .fatalExit
  else .ok s

/-- The second statement of `processEv`: the exit from frozen mode once the
deadline has passed. -/
def exitFrozen (s : UecMpReps) (now : Nat) : UecMpReps :=
  if s.circular_buffer_reps.isFrozenMode = true ∧
      now > s.circular_buffer_reps.can_exit_frozen_mode then
    { s with
      circular_buffer_reps :=
        { (s.circular_buffer_reps.setFrozenMode false).resetBuffer with explore_counter := 16 }
      paths_by_mql_level := if s.use_mql then [] else s.paths_by_mql_level }
  else s

/-- The body shared by the two branches of the last statement of `processEv`:
the path joins the buffer, and its level group when its level is known. -/
def recordGood (s : UecMpReps) (path_id : Nat) : UecMpReps :=
  let s1 := { s with circular_buffer_reps := s.circular_buffer_reps.add path_id }
  match (if s1.use_mql then mapGet? s1.path_mql_map path_id else none) with
  | some level => s1.addPathToGrouping path_id level
  | none => s1

/-- The method `UecMpReps::processEv`, called at simulated time `now`. -/
def processEv (s : UecMpReps) (now path_id : Nat) (feedback : PathFeedback) :
    Except Err UecMpReps :=
  match s.enterFrozen now feedback with
  | .error e => .error e
  | .ok s1 =>
    let s2 := s1.exitFrozen now
    if feedback = .PATH_GOOD ∧ s2.circular_buffer_reps.isFrozenMode = false then
      .ok (s2.recordGood path_id)
    else if s2.circular_buffer_reps.isFrozenMode = true ∧ feedback = .PATH_GOOD then
      .ok (s2.recordGood path_id)
    else .ok s2

/-- The `while` loop of `nextEntropy` that empties the buffer and keeps the
entries other than the selected one; one unit of fuel per evaluation of the
loop condition. -/
def drain (policy : List Nat → Nat) :
    Nat → CircularBufferREPS → Nat → List Nat → Except Err (CircularBufferREPS × List Nat)
  | 0, _, _, _ => .error .outOfFuel
  | fuel + 1, b, selected_path, temp_paths =>
    if b.isEmpty = false ∧ b.getNumberFreshEntropies > 0 then
      let r := if b.isFrozenMode then b.remove_frozen policy else b.remove_earliest_fresh
      drain policy fuel r.2 selected_path
        (if r.1 ≠ selected_path then temp_paths ++ [r.1] else temp_paths)
    else .ok (b, temp_paths)

/-- The statement `_stats.path_selection_count[selected]++`. -/
def countSelection (s : UecMpReps) (selected : Nat) : UecMpReps :=
  { s with stats :=
      { s.stats with path_selection_count := mapIncr s.stats.path_selection_count selected } }

/-- The body of the `for (level = 0; level <= 7; level++)` loop of
`nextEntropy`, over the levels still to visit. The result is the selected path
when a level yields one, or nothing when the loop runs to its end. -/
def scanLevels (policy : List Nat → Nat) :
    List Nat → UecMpReps → Rand → Except Err (Option Nat × UecMpReps × Rand)
  | [], s, g => .ok (none, s, g)
  | level :: rest, s, g =>
    match mapGet? s.paths_by_mql_level level with
    | none => scanLevels policy rest s g
    | some paths_at_level =>
      if paths_at_level.isEmpty then scanLevels policy rest s g
      else
        let valid_paths := paths_at_level.filter s.circular_buffer_reps.containsEntropy
        if valid_paths.isEmpty then
          scanLevels policy rest
            { s with paths_by_mql_level := mapSet s.paths_by_mql_level level [] } g
        else
          let selected_path := valid_paths.getD (g 0 % valid_paths.length) 0
          match drain policy (s.circular_buffer_reps.entries.length + 1)
              s.circular_buffer_reps selected_path [] with
          | .error e => .error e
          | .ok (b, temp_paths) =>
            let s1 := { s with circular_buffer_reps := temp_paths.foldl CircularBufferREPS.add b }
            let s2 := s1.removePathFromGrouping selected_path
            let s3 := { s2 with stats :=
                          { s2.stats with
                            mql_based_selections := u64 (s2.stats.mql_based_selections + 1) } }
            .ok (some selected_path, s3.countSelection selected_path, g.next)

/-- The last part of `nextEntropy`: the selection driven by the buffer. -/
def fallback (policy : List Nat → Nat) (s : UecMpReps) (g : Rand) : Nat × UecMpReps × Rand :=
  if s.circular_buffer_reps.isFrozenMode then
    if s.circular_buffer_reps.isEmpty then
      (u16 (g 0 % s.no_of_paths), s, g.next)
    else
      let r := s.circular_buffer_reps.remove_frozen policy
      (r.1, { s with circular_buffer_reps := r.2 }, g)
  else
    if s.circular_buffer_reps.isEmpty ∨ s.circular_buffer_reps.getNumberFreshEntropies = 0 then
      (u16 (g 0 % s.no_of_paths), { s with crt_path := u16 (g 0 % s.no_of_paths) }, g.next)
    else
      let r := s.circular_buffer_reps.remove_earliest_fresh
      (r.1, { s with circular_buffer_reps := r.2 }, g)

/-- The method `UecMpReps::nextEntropy`. `policy` is the frozen-mode removal
policy of the buffer. -/
def nextEntropy (policy : List Nat → Nat) (s : UecMpReps) (g : Rand)
    (_seq_sent _cur_cwnd_in_pkts : Nat) : Except Err (Nat × UecMpReps × Rand) :=
  let s0 := { s with stats :=
                { s.stats with total_selections := u64 (s.stats.total_selections + 1) } }
  if s0.circular_buffer_reps.explore_counter > 0 then
    let s1 := { s0 with circular_buffer_reps :=
                  { s0.circular_buffer_reps with
                    explore_counter := s0.circular_buffer_reps.explore_counter - 1 } }
    .ok (u16 (g 0 % s.no_of_paths), s1.countSelection (u16 (g 0 % s.no_of_paths)), g.next)
  else
    match (if s0.use_mql = true ∧ s0.paths_by_mql_level.isEmpty = false then
             scanLevels policy (List.range 8) s0 g
           else .ok (none, s0, g)) with
    | .error e => .error e
    | .ok (some selected_path, s1, g1) => .ok (selected_path, s1, g1)
    | .ok (none, s1, g1) =>
      let s2 := if s0.use_mql = true ∧ s0.paths_by_mql_level.isEmpty = false then
                  { s1 with paths_by_mql_level := [] } else s1
      let r := fallback policy s2 g1
      .ok (r.1, r.2.1.countSelection r.1, r.2.2)

/-- Runs a sequence of calls; collects the values that the `nextEntropy` calls
return, in order. -/
def run (policy : List Nat → Nat) :
    UecMpReps → Rand → List RepsOp → Except Err (List Nat × UecMpReps × Rand)
  | s, g, [] => .ok ([], s, g)
  | s, g, .processEv now p f :: ops =>
    match s.processEv now p f with
    | .error e => .error e
    | .ok s1 => run policy s1 g ops
  | s, g, .processMql p level :: ops => run policy (s.processMql p level) g ops
  | s, g, .nextEntropy a b :: ops =>
    match s.nextEntropy policy g a b with
    | .error e => .error e
    | .ok r =>
      match run policy r.2.1 r.2.2 ops with
      | .error e => .error e
      | .ok rest => .ok (r.1 :: rest.1, rest.2)

/-- The group of a level in the grouping map `_paths_by_mql_level`: the paths
bound to the level, none when the level has no binding. -/
def groupOf (m : List (Nat × List Nat)) (level : Nat) : List Nat := (mapGet? m level).getD []

/-- All the path ids listed in the grouping map, level after level. -/
def members (m : List (Nat × List Nat)) : List Nat := (m.map (fun e => e.2)).flatten

/-- The keys of the grouping map are strictly increasing, as in a `std::map`:
every level has at most one binding. -/
def keysSorted (m : List (Nat × List Nat)) : Prop := (m.map (fun e => e.1)).Pairwise (· < ·)

/-- The documented invariant of the grouping: no path id is listed twice, in
one group or in two, and every listed path id is in the buffer. -/
structure GroupingInv (s : UecMpReps) : Prop where
  sorted : keysSorted s.paths_by_mql_level
  nodup : (members s.paths_by_mql_level).Nodup
  fresh : ∀ p ∈ members s.paths_by_mql_level, p ∈ s.circular_buffer_reps.entries

/-- What the level scan of `nextEntropy` has done when it ends with `res` from
state `s` and draws `g`. Without a selection the buffer is untouched and no
scanned level lists a path of the buffer. With a selection `v`, the path is in
the buffer and in the group of the first scanned level that lists a path of
the buffer; the buffer has lost every entry equal to `v` (keeping the FIFO
order in Normal mode) and the grouping has lost a listing of `v`. -/
def ScanPost (levels : List Nat) (s : UecMpReps) (g : Rand)
    (res : Option Nat × UecMpReps × Rand) : Prop :=
  res.2.1.use_mql = s.use_mql ∧
  (keysSorted s.paths_by_mql_level → keysSorted res.2.1.paths_by_mql_level) ∧
  (res.1 = none →
    res.2.2 = g ∧ res.2.1.circular_buffer_reps = s.circular_buffer_reps ∧
    ∀ l ∈ levels, ∀ x ∈ groupOf s.paths_by_mql_level l, x ∉ s.circular_buffer_reps.entries) ∧
  (∀ v, res.1 = some v →
    res.2.2 = g.next ∧
    (∃ level ∈ levels, v ∈ groupOf s.paths_by_mql_level level ∧
      ∀ l ∈ levels, l < level →
        ∀ x ∈ groupOf s.paths_by_mql_level l, x ∉ s.circular_buffer_reps.entries) ∧
    v ∈ s.circular_buffer_reps.entries ∧
    res.2.1.circular_buffer_reps
      = { s.circular_buffer_reps with entries := res.2.1.circular_buffer_reps.entries } ∧
    res.2.1.circular_buffer_reps.entries.Perm
      (s.circular_buffer_reps.entries.filter (fun x => x != v)) ∧
    (s.circular_buffer_reps.frozen_mode = false →
      res.2.1.circular_buffer_reps.entries
        = s.circular_buffer_reps.entries.filter (fun x => x != v)) ∧
    (members res.2.1.paths_by_mql_level).Sublist ((members s.paths_by_mql_level).erase v))

/-- The states that a selector with MQL grouping enabled reaches from its
construction (on the empty buffer that `new CircularBufferREPS` builds) by
calls of `processEv`, `processMql` and `nextEntropy` that end normally. -/
inductive ReachableMql (policy : List Nat → Nat) : UecMpReps → Prop where
  | fresh (no_of_paths : Nat) (is_trimming_enabled : Bool) (buffer : CircularBufferREPS) :
      buffer.entries = [] →
      ReachableMql policy ((create no_of_paths is_trimming_enabled buffer).setUseMql true)
  | processEv (s s1 : UecMpReps) (now path_id : Nat) (feedback : PathFeedback) :
      ReachableMql policy s → s.processEv now path_id feedback = .ok s1 → ReachableMql policy s1
  | processMql (s : UecMpReps) (path_id mql_level : Nat) :
      ReachableMql policy s → ReachableMql policy (s.processMql path_id mql_level)
  | nextEntropy (s : UecMpReps) (g : Rand) (seq_sent cur_cwnd_in_pkts : Nat)
      (r : Nat × UecMpReps × Rand) :
      ReachableMql policy s → s.nextEntropy policy g seq_sent cur_cwnd_in_pkts = .ok r →
      ReachableMql policy r.2.1

end UecMpReps

/-! ## RepsLegacy -/

/-- The fields of `UecMpRepsLegacy`; `next_pathid` is the `std::list` of
recycled path ids, head first. -/
structure UecMpRepsLegacy where
  no_of_paths : Nat
  crt_path : Nat
  next_pathid : List Nat
  deriving DecidableEq, Repr

namespace UecMpRepsLegacy

/-- The constructor `UecMpRepsLegacy::UecMpRepsLegacy`. -/
def create (no_of_paths : Nat) : UecMpRepsLegacy :=
  { no_of_paths := no_of_paths, crt_path := 0, next_pathid := [] }

/-- The method `UecMpRepsLegacy::processEv`. -/
def processEv (s : UecMpRepsLegacy) (path_id : Nat) (feedback : PathFeedback) :
    UecMpRepsLegacy :=
  if feedback = .PATH_GOOD then { s with next_pathid := s.next_pathid ++ [path_id] } else s

/-- The method `UecMpRepsLegacy::nextEntropy`; the stream holds the values that
the coming `random()` calls return. -/
def nextEntropy (s : UecMpRepsLegacy) (g : Rand) (seq_sent cur_cwnd_in_pkts : Nat) :
    Except Err (Nat × UecMpRepsLegacy × Rand) :=
  if seq_sent < min cur_cwnd_in_pkts s.no_of_paths then
    let crt := u16 (s.crt_path + 1)
    let crt1 := if crt = s.no_of_paths then 0 else crt
    .ok (crt1, { s with crt_path := crt1 }, g)
  else
    match s.next_pathid with
    | [] =>
      if s.no_of_paths > 0 then
        .ok (u16 (g 0 % s.no_of_paths), { s with crt_path := u16 (g 0 % s.no_of_paths) }, g.next)
      else .error .assertFailed
    | front :: rest => .ok (front, { s with crt_path := front, next_pathid := rest }, g)

/-- The method `UecMpRepsLegacy::nextEntropyRecycle`. -/
def nextEntropyRecycle (s : UecMpRepsLegacy) : Option Nat × UecMpRepsLegacy :=
  match s.next_pathid with
  | [] => (none, s)
  | front :: rest => (some front, { s with crt_path := front, next_pathid := rest })

/-- Runs a sequence of interface calls; collects the values that the
`nextEntropy` calls return, in order. -/
def run : UecMpRepsLegacy → Rand → List Op → Except Err (List Nat × UecMpRepsLegacy × Rand)
  | s, g, [] => .ok ([], s, g)
  | s, g, .processEv p f :: ops => run (s.processEv p f) g ops
  | s, g, .nextEntropy a b :: ops =>
    match s.nextEntropy g a b with
    | .error e => .error e
    | .ok r =>
      match run r.2.1 r.2.2 ops with
      | .error e => .error e
      | .ok rest => .ok (r.1 :: rest.1, rest.2)

end UecMpRepsLegacy

/-- Whether a call is a `nextEntropy` call in the first window of a selector of
`n` paths (`seq_sent < min(cur_cwnd_in_pkts, n)`), or a `processEv` call. -/
def Op.inWindow (n : Nat) : Op → Bool
  | .nextEntropy seq_sent cur_cwnd_in_pkts => decide (seq_sent < min cur_cwnd_in_pkts n)
  | .processEv _ _ => true

/-- Whether a call is a `nextEntropy` call past the first window of a selector
of `n` paths. -/
def Op.steady (n : Nat) : Op → Bool
  | .nextEntropy seq_sent cur_cwnd_in_pkts => decide (¬ seq_sent < min cur_cwnd_in_pkts n)
  | .processEv _ _ => false

/-! ## Mixed -/

/-- The fields of `UecMpMixed`. -/
structure UecMpMixed where
  bitmap : UecMpBitmap
  reps_legacy : UecMpRepsLegacy
  deriving DecidableEq, Repr

namespace UecMpMixed

/-- The constructor `UecMpMixed::UecMpMixed`. -/
def create (no_of_paths : Nat) (g : Rand) : UecMpMixed × Rand :=
  ({ bitmap := (UecMpBitmap.create no_of_paths g).1
     reps_legacy := UecMpRepsLegacy.create no_of_paths }, (UecMpBitmap.create no_of_paths g).2)

/-- The method `UecMpMixed::processEv`. -/
def processEv (s : UecMpMixed) (path_id : Nat) (feedback : PathFeedback) :
    Except Err UecMpMixed :=
  match s.bitmap.processEv path_id feedback with
  | .error e => .error e
  | .ok b => .ok { bitmap := b, reps_legacy := s.reps_legacy.processEv path_id feedback }

/-- The method `UecMpMixed::nextEntropy`. -/
def nextEntropy (s : UecMpMixed) (g : Rand) (seq_sent cur_cwnd_in_pkts : Nat) :
    Except Err (Nat × UecMpMixed × Rand) :=
  match s.reps_legacy.nextEntropyRecycle with
  | (some reps_val, r) => .ok (reps_val, { s with reps_legacy := r }, g)
  | (none, r) =>
    match s.bitmap.nextEntropy g seq_sent cur_cwnd_in_pkts with
    | .error e => .error e
    | .ok res => .ok (res.1, { bitmap := res.2.1, reps_legacy := r }, res.2.2)

end UecMpMixed

/-! ## Ecmp -/

/-- The field of `UecMpEcmp`. -/
structure UecMpEcmp where
  crt_path : Nat
  deriving DecidableEq, Repr

namespace UecMpEcmp

/-- The constructor `UecMpEcmp::UecMpEcmp`; it draws once. -/
def create (no_of_paths : Nat) (g : Rand) : UecMpEcmp × Rand :=
  ({ crt_path := u16 (g 0 % no_of_paths) }, g.next)

/-- The method `UecMpEcmp::processEv`: a no-op. -/
def processEv (s : UecMpEcmp) (_path_id : Nat) (_feedback : PathFeedback) : UecMpEcmp := s

/-- The method `UecMpEcmp::nextEntropy`. -/
def nextEntropy (s : UecMpEcmp) (_seq_sent _cur_cwnd_in_pkts : Nat) : Nat × UecMpEcmp :=
  (s.crt_path, s)

/-- Runs a sequence of interface calls; collects the values that the
`nextEntropy` calls return, in order. -/
def run : UecMpEcmp → List Op → List Nat × UecMpEcmp
  | s, [] => ([], s)
  | s, .processEv p f :: ops => run (s.processEv p f) ops
  | s, .nextEntropy a b :: ops =>
    ((s.nextEntropy a b).1 :: (run (s.nextEntropy a b).2 ops).1,
      (run (s.nextEntropy a b).2 ops).2)

end UecMpEcmp

/-- The selection of Mixed in the words of its description: the head of the
recycle queue when there is one, which leaves the queue; otherwise whatever
Bitmap alone returns from the same Bitmap state and draws. -/
def UecMpMixed.nextEntropySpec (s : UecMpMixed) (g : Rand) (seq_sent cur_cwnd_in_pkts : Nat) :
    Except Err (Nat × UecMpMixed × Rand) :=
  match s.reps_legacy.next_pathid with
  | front :: rest =>
    .ok (front, { s with reps_legacy :=
                    { s.reps_legacy with crt_path := front, next_pathid := rest } }, g)
  | [] =>
    match s.bitmap.nextEntropy g seq_sent cur_cwnd_in_pkts with
    | .error e => .error e
    | .ok res => .ok (res.1, { s with bitmap := res.2.1 }, res.2.2)

/-! ## Bit-level facts shared by the selectors -/

theorem maskOf_two_pow (k : Nat) (hk : k ≤ 15) : maskOf (2 ^ k) = 2 ^ k - 1 := by
  have h1 : 0 < 2 ^ k := Nat.two_pow_pos k
  have h2 : 2 ^ k ≤ 2 ^ 15 := Nat.pow_le_pow_right (by decide) hk
  have h3 : (2:Nat) ^ 15 = 32768 := by norm_num
  unfold maskOf u16
  omega

/-- The salt never touches the bits under the mask. -/
theorem low_bits_or_upperBits (e r m : Nat) :
    ((e &&& m) ||| upperBits r m) &&& m = e &&& m := by
  apply Nat.eq_of_testBit_eq
  intro i
  simp only [upperBits, Nat.testBit_and, Nat.testBit_or, Nat.testBit_xor]
  cases e.testBit i <;> cases r.testBit i <;> cases m.testBit i <;> rfl

theorem cand_lt (i x k : Nat) : cand i x (2 ^ k - 1) < 2 ^ k := by
  unfold cand
  rw [Nat.and_pow_two_sub_one_eq_mod]
  exact Nat.mod_lt _ (Nat.two_pow_pos k)

theorem cand_cand (i x k : Nat) (hi : i < 2 ^ k) :
    cand (cand i x (2 ^ k - 1)) x (2 ^ k - 1) = i := by
  unfold cand
  rw [Nat.and_pow_two_sub_one_eq_mod, Nat.and_pow_two_sub_one_eq_mod]
  apply Nat.eq_of_testBit_eq
  intro j
  have hi2 : i.testBit j = (i % 2 ^ k).testBit j := by rw [Nat.mod_eq_of_lt hi]
  rw [hi2]
  simp only [Nat.testBit_mod_two_pow, Nat.testBit_xor]
  cases decide (j < k) <;> cases i.testBit j <;> cases x.testBit j <;> rfl

theorem cand_inj (i j x k : Nat) (hi : i < 2 ^ k) (hj : j < 2 ^ k)
    (h : cand i x (2 ^ k - 1) = cand j x (2 ^ k - 1)) : i = j := by
  rw [← cand_cand i x k hi, ← cand_cand j x k hj, h]

theorem cand_perm_range (x k : Nat) :
    ((List.range (2 ^ k)).map (fun i => cand i x (2 ^ k - 1))).Perm (List.range (2 ^ k)) := by
  have hnd : ((List.range (2 ^ k)).map (fun i => cand i x (2 ^ k - 1))).Nodup := by
    apply List.Nodup.map_on _ (List.nodup_range _)
    intro a ha b hb hab
    exact cand_inj a b x k (List.mem_range.1 ha) (List.mem_range.1 hb) hab
  rw [List.perm_ext_iff_of_nodup hnd (List.nodup_range _)]
  intro a
  simp only [List.mem_map, List.mem_range]
  constructor
  · rintro ⟨i, _, rfl⟩
    exact cand_lt i x k
  · intro ha
    exact ⟨cand a x (2 ^ k - 1), cand_lt a x k, cand_cand a x k ha⟩

/-! ## Oblivious: round-robin completeness -/

namespace UecMpOblivious

theorem obl_run_no_next (ops : List Op) (s : UecMpOblivious) (g : Rand)
    (h : (ops.filter Op.isNext).length = 0) : (s.run g ops).1 = [] := by
  induction ops generalizing s g with
  | nil => rfl
  | cons o ops ih =>
    cases o with
    | processEv p f =>
      simp only [List.filter, Op.isNext] at h
      simp only [run]
      exact ih _ _ h
    | nextEntropy a b =>
      simp [List.filter, Op.isNext] at h

theorem obl_nextEntropy_low (k : Nat) (hk : k ≤ 15) (s : UecMpOblivious) (g : Rand) (a b : Nat)
    (hn : s.no_of_paths = 2 ^ k) :
    (s.nextEntropy g a b).1 &&& (2 ^ k - 1)
      = cand s.current_ev_index s.path_xor (2 ^ k - 1) := by
  simp only [nextEntropy, hn, maskOf_two_pow k hk, cand]
  exact low_bits_or_upperBits _ _ _

theorem obl_nextEntropy_state (k : Nat) (hk : k ≤ 15) (s : UecMpOblivious) (g : Rand) (a b : Nat)
    (hn : s.no_of_paths = 2 ^ k) (h : s.current_ev_index + 1 < 2 ^ k) :
    (s.nextEntropy g a b).2.1 = { s with current_ev_index := s.current_ev_index + 1 } := by
  have h2 : 2 ^ k ≤ 2 ^ 15 := Nat.pow_le_pow_right (by decide) hk
  have h3 : (2:Nat) ^ 15 = 32768 := by norm_num
  have h4 : u16 (s.current_ev_index + 1) = s.current_ev_index + 1 := by
    unfold u16; omega
  have h5 : s.current_ev_index + 1 ≠ s.no_of_paths := by omega
  simp only [nextEntropy, h4, if_neg h5]

/-- Starting at index `i`, the next `j` values (while the index does not pass
the end of the cycle) are the candidates at positions `i, i+1, ..` under the
current xor value. -/
theorem obl_run_low_bits (k : Nat) (hk : k ≤ 15) (ops : List Op) :
    ∀ (s : UecMpOblivious) (g : Rand) (j : Nat), s.no_of_paths = 2 ^ k →
      (ops.filter Op.isNext).length = j → s.current_ev_index + j ≤ 2 ^ k →
      (s.run g ops).1.map (fun v => v &&& (2 ^ k - 1))
        = (List.range' s.current_ev_index j).map (fun t => cand t s.path_xor (2 ^ k - 1)) := by
  induction ops with
  | nil =>
    intro s g j _ hj _
    simp at hj
    subst hj
    rfl
  | cons o ops ih =>
    intro s g j hn hj hle
    cases o with
    | processEv p f =>
      simp only [List.filter, Op.isNext] at hj
      simp only [run]
      exact ih (s.processEv p f) g j hn hj hle
    | nextEntropy a b =>
      simp only [List.filter, Op.isNext, List.length_cons] at hj
      subst hj
      simp only [run, List.map_cons, List.range'_succ, obl_nextEntropy_low k hk s g a b hn]
      congr 1
      by_cases hlast : s.current_ev_index + 1 < 2 ^ k
      · have hs := obl_nextEntropy_state k hk s g a b hn hlast
        have := ih (s.nextEntropy g a b).2.1 (s.nextEntropy g a b).2.2
          (List.filter Op.isNext ops).length (by rw [hs]; exact hn) rfl
          (by rw [hs]; simp only; omega)
        rw [this, hs]
      · have h0 : (List.filter Op.isNext ops).length = 0 := by omega
        rw [obl_run_no_next ops _ _ h0, h0]
        rfl

end UecMpOblivious

/-- C1: for a power-of-two path count `2^k` (a `uint16_t`, so `k ≤ 15`) and an
Oblivious selector whose round-robin index is 0, whatever the random draws and
whatever `processEv` calls are interleaved, the low bits `v & (n-1)` of the
values returned by the next `n` `nextEntropy` calls are pairwise distinct and
form a permutation of `[0, n)`. -/
theorem oblivious_round_robin_permutation (k : Nat) (hk : k ≤ 15) (s : UecMpOblivious)
    (g : Rand) (ops : List Op) (hn : s.no_of_paths = 2 ^ k)
    (hidx : s.current_ev_index = 0)
    (hcalls : (ops.filter Op.isNext).length = s.no_of_paths) :
    ((s.run g ops).1.map (fun v => v &&& (s.no_of_paths - 1))).Nodup ∧
    ((s.run g ops).1.map (fun v => v &&& (s.no_of_paths - 1))).Perm
      (List.range s.no_of_paths) := by
  have hrun := UecMpOblivious.obl_run_low_bits k hk ops s g (2 ^ k) hn (by rw [hcalls, hn])
    (by rw [hidx]; omega)
  rw [hidx, ← List.range_eq_range'] at hrun
  rw [hn, hrun]
  have hperm := cand_perm_range s.path_xor k
  exact ⟨hperm.nodup_iff.2 (List.nodup_range _), hperm⟩

/-- C1 at a concrete selector: four paths, xor value 2, a feedback call in the
middle of the four selections. -/
theorem oblivious_round_robin_permutation_witness :
    ((UecMpOblivious.run ⟨4, 0xabcd, 2, 0⟩ (fun i => 7 * i + 3)
        [.nextEntropy 0 8, .nextEntropy 1 8, .processEv 9 .PATH_NACK,
         .nextEntropy 2 8, .nextEntropy 3 8]).1.map (fun v => v &&& (4 - 1))).Nodup ∧
    ((UecMpOblivious.run ⟨4, 0xabcd, 2, 0⟩ (fun i => 7 * i + 3)
        [.nextEntropy 0 8, .nextEntropy 1 8, .processEv 9 .PATH_NACK,
         .nextEntropy 2 8, .nextEntropy 3 8]).1.map (fun v => v &&& (4 - 1))).Perm
      (List.range 4) :=
  oblivious_round_robin_permutation 2 (by decide) ⟨4, 0xabcd, 2, 0⟩ (fun i => 7 * i + 3)
    [.nextEntropy 0 8, .nextEntropy 1 8, .processEv 9 .PATH_NACK,
     .nextEntropy 2 8, .nextEntropy 3 8] (by decide) rfl (by decide)

/-! ## Bitmap: basic facts -/

theorem maskOf_eq (n : Nat) (h1 : 1 ≤ n) (h2 : n < 65536) : maskOf n = n - 1 := by
  unfold maskOf u16
  omega

theorem and_maskOf_lt (n x : Nat) (h1 : 1 ≤ n) (h2 : n < 65536) : x &&& maskOf n < n := by
  have h := @Nat.and_le_right x (maskOf n)
  rw [maskOf_eq n h1 h2] at h ⊢
  omega

theorem cand_maskOf_lt (n i x : Nat) (h1 : 1 ≤ n) (h2 : n < 65536) :
    cand i x (maskOf n) < n :=
  and_maskOf_lt n _ h1 h2

/-- Writing `v` at a valid index changes the number of non-zero entries by the
difference between the old and the new entry. -/
theorem countP_set_nonZero (l : List Nat) (i v : Nat) (h : i < l.length) :
    (l.set i v).countP UecMpBitmap.nonZero + (if l[i] ≠ 0 then 1 else 0)
      = l.countP UecMpBitmap.nonZero + (if v ≠ 0 then 1 else 0) := by
  induction l generalizing i with
  | nil => simp at h
  | cons a l ih =>
    cases i with
    | zero =>
      simp only [List.set_cons_zero, List.countP_cons, List.getElem_cons_zero,
        UecMpBitmap.nonZero, decide_eq_true_eq]
      split <;> split <;> omega
    | succ i =>
      have h2 : i < l.length := by simpa using h
      have := ih i h2
      simp only [List.set_cons_succ, List.countP_cons, List.getElem_cons_succ]
      omega

theorem countP_nonZero_le (l : List Nat) :
    l.countP UecMpBitmap.nonZero ≤ l.length := List.countP_le_length _

namespace UecMpBitmap

theorem penaltyOf_le (f : PathFeedback) : penaltyOf 15 f ≤ 15 := by
  cases f <;> simp [penaltyOf]

theorem penaltyOf_pos (f : PathFeedback) (hf : f ≠ .PATH_GOOD) : 1 ≤ penaltyOf 15 f := by
  cases f <;> simp_all [penaltyOf]

/-- What `processEv` does on a state that satisfies the invariant, in closed
form. -/
theorem processEv_eq (s : UecMpBitmap) (hs : Inv s) (p : Nat) (f : PathFeedback) :
    ∃ old, s.ev_skip_bitmap[p &&& maskOf s.no_of_paths]? = some old ∧ old ≤ 15 ∧
      s.processEv p f = .ok
        { s with
          ev_skip_count :=
            if f ≠ .PATH_GOOD ∧ old = 0 then s.ev_skip_count + 1 else s.ev_skip_count
          ev_skip_bitmap :=
            s.ev_skip_bitmap.set (p &&& maskOf s.no_of_paths) (min (old + penaltyOf 15 f) 15) } := by
  have hlt : p &&& maskOf s.no_of_paths < s.ev_skip_bitmap.length := by
    rw [hs.size]; exact and_maskOf_lt _ _ hs.paths_pos hs.paths_u16
  refine ⟨s.ev_skip_bitmap[p &&& maskOf s.no_of_paths], List.getElem?_eq_getElem hlt,
    hs.bounded _ (List.getElem_mem hlt), ?_⟩
  generalize hx : s.ev_skip_bitmap[p &&& maskOf s.no_of_paths] = x
  have hold : x ≤ 15 := by rw [← hx]; exact hs.bounded _ (List.getElem_mem hlt)
  have hpen := penaltyOf_le f
  have hcnt2 : x = 0 → s.ev_skip_count < s.ev_skip_bitmap.length := by
    intro h0
    have := countP_set_nonZero s.ev_skip_bitmap _ 1 hlt
    have hle := countP_nonZero_le (s.ev_skip_bitmap.set (p &&& maskOf s.no_of_paths) 1)
    rw [List.length_set] at hle
    rw [hx, h0] at this
    simp only [ne_eq, not_true_eq_false, if_false, one_ne_zero, not_false_eq_true,
      if_true] at this
    rw [hs.count]
    unfold penalized
    omega
  have hsz := hs.size
  have h16 := hs.paths_u16
  have hclamp : (if u8 (x + penaltyOf 15 f) > 15 then 15 else u8 (x + penaltyOf 15 f))
      = min (x + penaltyOf 15 f) 15 := by
    unfold u8
    split <;> omega
  have hcount : (if f ≠ .PATH_GOOD ∧ x = 0 then u16 (s.ev_skip_count + 1) else s.ev_skip_count)
      = (if f ≠ .PATH_GOOD ∧ x = 0 then s.ev_skip_count + 1 else s.ev_skip_count) := by
    split
    · rename_i h
      have := hcnt2 h.2
      unfold u16; omega
    · rfl
  simp only [processEv, List.getElem?_eq_getElem hlt, hs.max15, hx, hclamp, hcount]

theorem processEv_inv (s s1 : UecMpBitmap) (hs : Inv s) (p : Nat) (f : PathFeedback)
    (h : s.processEv p f = .ok s1) : Inv s1 := by
  obtain ⟨old, hget, hold, heq⟩ := processEv_eq s hs p f
  rw [heq] at h
  injection h with h
  subst h
  have hlt : p &&& maskOf s.no_of_paths < s.ev_skip_bitmap.length := by
    rw [hs.size]; exact and_maskOf_lt _ _ hs.paths_pos hs.paths_u16
  have hold2 : s.ev_skip_bitmap[p &&& maskOf s.no_of_paths] = old := by
    rw [List.getElem?_eq_getElem hlt] at hget
    injection hget
  refine ⟨hs.paths_pos, hs.paths_u16, ?_, hs.max15, ?_, ?_, hs.index_lt⟩
  · simp only [List.length_set]; exact hs.size
  · intro x hx
    rcases List.mem_or_eq_of_mem_set hx with hx | hx
    · exact hs.bounded x hx
    · rw [hx]; exact Nat.min_le_right _ _
  · have hc := countP_set_nonZero s.ev_skip_bitmap _ (min (old + penaltyOf 15 f) 15) hlt
    rw [hold2] at hc
    have hcount := hs.count
    unfold penalized at hcount ⊢
    simp only
    by_cases hf : f = .PATH_GOOD
    · subst hf
      simp only [penaltyOf, Nat.add_zero, Nat.min_eq_left hold] at hc ⊢
      simp only [ne_eq, not_true_eq_false, false_and, if_false]
      omega
    · have hp := penaltyOf_pos f hf
      have hnz : min (old + penaltyOf 15 f) 15 ≠ 0 := by omega
      simp only [ne_eq, hnz, not_false_eq_true, if_true] at hc
      by_cases h0 : old = 0
      · simp only [h0, ne_eq, hf, not_false_eq_true, and_self, if_true] at hc ⊢
        simp only [not_true_eq_false, if_false] at hc
        omega
      · simp only [ne_eq, h0, not_false_eq_true, if_true, and_false, if_false] at hc ⊢
        omega

/-! ### One evaluation of the loop condition -/

theorem advanceIndex_frame (s : UecMpBitmap) (g : Rand) :
    (advanceIndex s g).1.no_of_paths = s.no_of_paths ∧
    (advanceIndex s g).1.path_random = s.path_random ∧
    (advanceIndex s g).1.ev_skip_bitmap = s.ev_skip_bitmap ∧
    (advanceIndex s g).1.ev_skip_count = s.ev_skip_count ∧
    (advanceIndex s g).1.max_penalty = s.max_penalty := by
  by_cases h : u16 (s.current_ev_index + 1) = s.no_of_paths <;> simp [advanceIndex, h]

theorem advanceIndex_index_lt (s : UecMpBitmap) (g : Rand) (h1 : 1 ≤ s.no_of_paths)
    (h16 : s.no_of_paths < 65536) (hidx : s.current_ev_index < s.no_of_paths) :
    (advanceIndex s g).1.current_ev_index < s.no_of_paths := by
  by_cases h : u16 (s.current_ev_index + 1) = s.no_of_paths
  · simp only [advanceIndex, h, if_true]
    exact h1
  · simp only [advanceIndex, h, if_false]
    unfold u16 at h ⊢
    omega

theorem skipWalk_exit (fuel : Nat) (w : Walk)
    (h : w.sel.ev_skip_bitmap[w.entropy]? = some 0) : skipWalk (fuel + 1) w = .ok w := by
  simp [skipWalk, h]

theorem skipWalk_break (fuel : Nat) (w : Walk) (pen : Nat)
    (h : w.sel.ev_skip_bitmap[w.entropy]? = some pen) (hpen : 0 < pen)
    (hflag : w.flag = true) (hc : w.sel.no_of_paths < w.counter + 1) :
    skipWalk (fuel + 1) w = .ok { w with flag := true, counter := w.counter + 1 } := by
  simp [skipWalk, h, hpen, hflag, hc]

theorem skipWalk_skip (fuel : Nat) (w : Walk) (pen : Nat)
    (h : w.sel.ev_skip_bitmap[w.entropy]? = some pen) (hpen : 0 < pen)
    (hflag : w.flag = true) (hc : w.counter + 1 ≤ w.sel.no_of_paths) :
    skipWalk (fuel + 1) w = skipWalk fuel
      { sel := (advanceIndex w.sel w.g).1
        g := (advanceIndex w.sel w.g).2
        entropy := cand (advanceIndex w.sel w.g).1.current_ev_index
          (advanceIndex w.sel w.g).1.path_xor (maskOf w.sel.no_of_paths)
        flag := true
        counter := w.counter + 1
        advances := w.advances + 1 } := by
  have hc2 : ¬ (w.sel.no_of_paths < w.counter + 1) := by omega
  simp [skipWalk, h, hpen, hflag, hc2]

theorem skipWalk_first (fuel : Nat) (w : Walk) (pen : Nat) (s1 : UecMpBitmap)
    (h : w.sel.ev_skip_bitmap[w.entropy]? = some pen) (hpen : 0 < pen)
    (hflag : w.flag = false) (hpay : payDown w.sel w.entropy pen = .ok s1)
    (hc : w.counter + 1 ≤ s1.no_of_paths) :
    skipWalk (fuel + 1) w = skipWalk fuel
      { sel := (advanceIndex s1 w.g).1
        g := (advanceIndex s1 w.g).2
        entropy := cand (advanceIndex s1 w.g).1.current_ev_index
          (advanceIndex s1 w.g).1.path_xor (maskOf s1.no_of_paths)
        flag := true
        counter := w.counter + 1
        advances := w.advances + 1 } := by
  have hc2 : ¬ (s1.no_of_paths < w.counter + 1) := by omega
  simp [skipWalk, h, hpen, hflag, hpay, hc2]

/-- The loop once `flag` is set: the penalties and the skip count no longer
change, the loop ends within the fuel `_no_of_paths + 1 - counter`, and it ends
either on a candidate of penalty zero or by the cap on a penalized one. -/
theorem skipWalk_later (fuel : Nat) : ∀ (w : Walk), w.flag = true →
    1 ≤ w.sel.no_of_paths → w.sel.no_of_paths < 65536 →
    w.sel.ev_skip_bitmap.length = w.sel.no_of_paths → w.entropy < w.sel.no_of_paths →
    w.counter ≤ w.sel.no_of_paths → w.sel.no_of_paths + 1 ≤ fuel + w.counter →
    ∃ w1, skipWalk fuel w = .ok w1 ∧
      w1.sel.ev_skip_bitmap = w.sel.ev_skip_bitmap ∧
      w1.sel.ev_skip_count = w.sel.ev_skip_count ∧
      w1.sel.no_of_paths = w.sel.no_of_paths ∧
      w1.sel.path_random = w.sel.path_random ∧
      w1.sel.max_penalty = w.sel.max_penalty ∧
      w1.entropy < w.sel.no_of_paths ∧
      (w.sel.current_ev_index < w.sel.no_of_paths →
        w1.sel.current_ev_index < w.sel.no_of_paths) ∧
      w1.advances + w.counter ≤ w.advances + w.sel.no_of_paths ∧
      (w1.counter ≤ w.sel.no_of_paths → w.sel.ev_skip_bitmap[w1.entropy]? = some 0) ∧
      (w.sel.no_of_paths < w1.counter →
        ∃ pen, w.sel.ev_skip_bitmap[w1.entropy]? = some pen ∧ 0 < pen) ∧
      (w.entropy = cand w.sel.current_ev_index w.sel.path_xor (maskOf w.sel.no_of_paths) →
        w1.entropy
          = cand w1.sel.current_ev_index w1.sel.path_xor (maskOf w.sel.no_of_paths)) := by
  induction fuel with
  | zero =>
    intro w _ _ _ _ _ hc hfuel
    omega
  | succ fuel ih =>
    intro w hflag h1 h16 hlen hent hc hfuel
    have hlt : w.entropy < w.sel.ev_skip_bitmap.length := by rw [hlen]; exact hent
    have hget := List.getElem?_eq_getElem hlt
    generalize hx : w.sel.ev_skip_bitmap[w.entropy] = pen at hget
    rcases Nat.eq_zero_or_pos pen with h0 | hpos
    · subst h0
      refine ⟨w, skipWalk_exit fuel w hget, rfl, rfl, rfl, rfl, rfl, hent, fun h => h, by omega,
        fun _ => hget, fun h => by omega, fun h => h⟩
    · by_cases hcap : w.sel.no_of_paths < w.counter + 1
      · refine ⟨_, skipWalk_break fuel w pen hget hpos hflag hcap, rfl, rfl, rfl, rfl, rfl,
          hent, fun h => h, by simp only; omega, fun h => ?_, fun _ => ⟨pen, hget, hpos⟩,
          fun h => h⟩
        simp only at h
        omega
      · have hcap2 : w.counter + 1 ≤ w.sel.no_of_paths := by omega
        rw [skipWalk_skip fuel w pen hget hpos hflag hcap2]
        obtain ⟨fn, fr, fb, fc, fm⟩ := advanceIndex_frame w.sel w.g
        obtain ⟨w1, hw1, e1, e2, e3, e4, e5, e6, e7, e8, e9, e10, e11⟩ :=
          ih { sel := (advanceIndex w.sel w.g).1
               g := (advanceIndex w.sel w.g).2
               entropy := cand (advanceIndex w.sel w.g).1.current_ev_index
                 (advanceIndex w.sel w.g).1.path_xor (maskOf w.sel.no_of_paths)
               flag := true
               counter := w.counter + 1
               advances := w.advances + 1 } rfl
            (by simp only [fn]; exact h1) (by simp only [fn]; exact h16)
            (by simp only [fn, fb]; exact hlen)
            (by simp only [fn]; exact cand_maskOf_lt _ _ _ h1 h16)
            (by simp only [fn]; exact hcap2) (by simp only [fn]; omega)
        simp only [fn, fr, fb, fc, fm] at e1 e2 e3 e4 e5 e6 e7 e8 e9 e10 e11
        refine ⟨w1, hw1, e1, e2, e3, e4, e5, e6, fun h => e7 ?_, by omega, e9, e10,
          fun _ => e11 trivial⟩
        exact advanceIndex_index_lt w.sel w.g h1 h16 h

/-- The pay-down of the first candidate: either the assertion fails, which
needs a skip count that disagrees with the penalties, or the penalty is lowered
and a consistent skip count stays consistent. -/
theorem payDown_cases (s : UecMpBitmap) (e pen : Nat) (hlt : e < s.ev_skip_bitmap.length)
    (hget : s.ev_skip_bitmap[e]? = some pen) (hpen : 0 < pen) :
    (payDown s e pen = .error .assertFailed ∧ s.ev_skip_count ≠ s.penalized) ∨
    ∃ s1, payDown s e pen = .ok s1 ∧
      s1.ev_skip_bitmap = s.ev_skip_bitmap.set e (u8 (pen + 255)) ∧
      (s.ev_skip_count = s.penalized → s1.ev_skip_count = s1.penalized) ∧
      s1.no_of_paths = s.no_of_paths ∧ s1.path_random = s.path_random ∧
      s1.max_penalty = s.max_penalty ∧ s1.current_ev_index = s.current_ev_index ∧
      s1.path_xor = s.path_xor := by
  have hc := countP_set_nonZero s.ev_skip_bitmap e (u8 (pen + 255)) hlt
  have hx : s.ev_skip_bitmap[e] = pen := by
    rw [List.getElem?_eq_getElem hlt] at hget
    injection hget
  rw [hx] at hc
  have hne : pen ≠ 0 := by omega
  simp only [ne_eq, hne, not_false_eq_true, if_true] at hc
  by_cases h0 : u8 (pen + 255) = 0
  · simp only [h0, not_true_eq_false, if_false] at hc
    by_cases hpos : s.ev_skip_count > 0
    · refine Or.inr ⟨{ s with ev_skip_bitmap := s.ev_skip_bitmap.set e (u8 (pen + 255))
                              ev_skip_count := s.ev_skip_count - 1 },
        by simp only [payDown, h0, if_true, hpos], rfl, ?_, rfl, rfl, rfl, rfl, rfl⟩
      intro hcount
      simp only [penalized, h0] at hcount ⊢
      omega
    · refine Or.inl ⟨by simp only [payDown, h0, if_true, hpos, if_false], ?_⟩
      simp only [penalized]
      omega
  · refine Or.inr ⟨{ s with ev_skip_bitmap := s.ev_skip_bitmap.set e (u8 (pen + 255)) },
      by simp only [payDown, h0, if_false], rfl, ?_, rfl, rfl, rfl, rfl, rfl⟩
    intro hcount
    simp only [penalized] at hcount ⊢
    simp only [h0, not_false_eq_true, if_true] at hc
    omega

theorem skipWalk_first_fail (fuel : Nat) (w : Walk) (pen : Nat) (err : Err)
    (h : w.sel.ev_skip_bitmap[w.entropy]? = some pen) (hpen : 0 < pen)
    (hflag : w.flag = false) (hpay : payDown w.sel w.entropy pen = .error err) :
    skipWalk (fuel + 1) w = .error err := by
  simp [skipWalk, h, hpen, hflag, hpay]

/-- The whole loop of `nextEntropy` from its entry state, on a selector of at
least one path. Unless the assertion fails on the first candidate (which needs
an inconsistent skip count), the loop ends within `_no_of_paths + 1`
evaluations of its condition, after at most `_no_of_paths` advances of the
index, and changes at most the penalty of the first candidate. -/
theorem skipWalk_start_cases (fuel : Nat) (s : UecMpBitmap) (g : Rand)
    (h1 : 1 ≤ s.no_of_paths) (h16 : s.no_of_paths < 65536)
    (hlen : s.ev_skip_bitmap.length = s.no_of_paths) (hfuel : s.no_of_paths + 1 ≤ fuel) :
    (skipWalk fuel (startWalk s g) = .error .assertFailed ∧ s.ev_skip_count ≠ s.penalized) ∨
    ∃ w, skipWalk fuel (startWalk s g) = .ok w ∧
      w.sel.no_of_paths = s.no_of_paths ∧ w.sel.path_random = s.path_random ∧
      w.sel.max_penalty = s.max_penalty ∧
      w.sel.ev_skip_bitmap.length = s.no_of_paths ∧
      (s.ev_skip_count = s.penalized → w.sel.ev_skip_count = w.sel.penalized) ∧
      w.entropy < s.no_of_paths ∧
      (s.current_ev_index < s.no_of_paths → w.sel.current_ev_index < s.no_of_paths) ∧
      w.advances ≤ s.no_of_paths ∧
      (w.counter ≤ s.no_of_paths → w.sel.ev_skip_bitmap[w.entropy]? = some 0) ∧
      (s.no_of_paths < w.counter →
        ∃ pen, w.sel.ev_skip_bitmap[w.entropy]? = some pen ∧ 0 < pen) ∧
      (w.sel.ev_skip_bitmap = s.ev_skip_bitmap ∨
        ∃ pen, s.ev_skip_bitmap[cand s.current_ev_index s.path_xor (maskOf s.no_of_paths)]?
            = some pen ∧ 0 < pen ∧
          w.sel.ev_skip_bitmap = s.ev_skip_bitmap.set
            (cand s.current_ev_index s.path_xor (maskOf s.no_of_paths)) (u8 (pen + 255))) ∧
      w.entropy = cand w.sel.current_ev_index w.sel.path_xor (maskOf s.no_of_paths) := by
  obtain ⟨fuel, rfl⟩ : ∃ f, fuel = f + 1 := ⟨fuel - 1, by omega⟩
  have hent : cand s.current_ev_index s.path_xor (maskOf s.no_of_paths) < s.no_of_paths :=
    cand_maskOf_lt _ _ _ h1 h16
  have hlt : cand s.current_ev_index s.path_xor (maskOf s.no_of_paths)
      < s.ev_skip_bitmap.length := by rw [hlen]; exact hent
  have hget := List.getElem?_eq_getElem hlt
  generalize s.ev_skip_bitmap[cand s.current_ev_index s.path_xor (maskOf s.no_of_paths)]
    = pen at hget
  rcases Nat.eq_zero_or_pos pen with h0 | hpos
  · subst h0
    refine Or.inr ⟨startWalk s g, skipWalk_exit fuel (startWalk s g) hget, rfl, rfl, rfl, hlen,
      fun h => h, hent, fun h => h, Nat.zero_le _, fun _ => hget, fun h => ?_, Or.inl rfl,
      rfl⟩
    simp only [startWalk] at h
    omega
  · rcases payDown_cases s _ pen hlt hget hpos with ⟨hfail, hbad⟩ |
      ⟨s1, hpay, b1, c1, n1, r1, m1, i1, x1⟩
    · exact Or.inl ⟨skipWalk_first_fail fuel (startWalk s g) pen _ hget hpos rfl hfail, hbad⟩
    have hstep : skipWalk (fuel + 1) (startWalk s g) = skipWalk fuel
        { sel := (advanceIndex s1 g).1
          g := (advanceIndex s1 g).2
          entropy := cand (advanceIndex s1 g).1.current_ev_index
            (advanceIndex s1 g).1.path_xor (maskOf s1.no_of_paths)
          flag := true
          counter := 1
          advances := 1 } :=
      skipWalk_first fuel (startWalk s g) pen s1 hget hpos rfl hpay
        (by simp only [startWalk, n1]; omega)
    rw [hstep]
    obtain ⟨fn, fr, fb, fc, fm⟩ := advanceIndex_frame s1 g
    have hlen1 : s1.ev_skip_bitmap.length = s.no_of_paths := by
      rw [b1, List.length_set]; exact hlen
    obtain ⟨w1, hw1, e1, e2, e3, e4, e5, e6, e7, e8, e9, e10, e11⟩ :=
      skipWalk_later fuel
        { sel := (advanceIndex s1 g).1
          g := (advanceIndex s1 g).2
          entropy := cand (advanceIndex s1 g).1.current_ev_index
            (advanceIndex s1 g).1.path_xor (maskOf s1.no_of_paths)
          flag := true
          counter := 1
          advances := 1 } rfl
        (by simp only [fn, n1]; exact h1) (by simp only [fn, n1]; exact h16)
        (by simp only [fn, fb, n1]; exact hlen1)
        (by simp only [fn, n1]; exact cand_maskOf_lt _ _ _ h1 h16)
        (by simp only [fn, n1]; omega) (by simp only [fn, n1]; omega)
    simp only [fn, fr, fb, fc, fm, n1, r1, m1] at e1 e2 e3 e4 e5 e6 e7 e8 e9 e10 e11
    refine Or.inr ⟨w1, hw1, e3, e4, e5, by rw [e1]; exact hlen1, fun hcount => ?_, e6,
      fun h => e7 ?_, by omega,
      fun h => by rw [e1]; exact e9 h, fun h => by rw [e1]; exact e10 h,
      Or.inr ⟨pen, hget, hpos, by rw [e1, b1]⟩, e11 trivial⟩
    · rw [e2, c1 hcount]; simp only [penalized, e1]
    · have := advanceIndex_index_lt s1 g (by rw [n1]; exact h1)
        (by rw [n1]; exact h16) (by rw [n1, i1]; exact h)
      rw [n1] at this
      exact this

/-- The loop from its entry state on a selector whose skip count is
consistent: it always ends normally. -/
theorem skipWalk_start (fuel : Nat) (s : UecMpBitmap) (g : Rand)
    (h1 : 1 ≤ s.no_of_paths) (h16 : s.no_of_paths < 65536)
    (hlen : s.ev_skip_bitmap.length = s.no_of_paths)
    (hcount : s.ev_skip_count = s.penalized) (hfuel : s.no_of_paths + 1 ≤ fuel) :
    ∃ w, skipWalk fuel (startWalk s g) = .ok w ∧
      w.sel.no_of_paths = s.no_of_paths ∧ w.sel.path_random = s.path_random ∧
      w.sel.max_penalty = s.max_penalty ∧
      w.sel.ev_skip_bitmap.length = s.no_of_paths ∧
      w.sel.ev_skip_count = w.sel.penalized ∧
      w.entropy < s.no_of_paths ∧
      (s.current_ev_index < s.no_of_paths → w.sel.current_ev_index < s.no_of_paths) ∧
      w.advances ≤ s.no_of_paths ∧
      (w.counter ≤ s.no_of_paths → w.sel.ev_skip_bitmap[w.entropy]? = some 0) ∧
      (s.no_of_paths < w.counter →
        ∃ pen, w.sel.ev_skip_bitmap[w.entropy]? = some pen ∧ 0 < pen) ∧
      (w.sel.ev_skip_bitmap = s.ev_skip_bitmap ∨
        ∃ pen, s.ev_skip_bitmap[cand s.current_ev_index s.path_xor (maskOf s.no_of_paths)]?
            = some pen ∧ 0 < pen ∧
          w.sel.ev_skip_bitmap = s.ev_skip_bitmap.set
            (cand s.current_ev_index s.path_xor (maskOf s.no_of_paths)) (u8 (pen + 255))) ∧
      w.entropy = cand w.sel.current_ev_index w.sel.path_xor (maskOf s.no_of_paths) := by
  rcases skipWalk_start_cases fuel s g h1 h16 hlen hfuel with ⟨_, hbad⟩ |
    ⟨w, hw, e1, e2, e3, e4, e5, e6, e7, e8, e9, e10, e11, e12⟩
  · exact absurd hcount hbad
  · exact ⟨w, hw, e1, e2, e3, e4, e5 hcount, e6, e7, e8, e9, e10, e11, e12⟩

theorem lowered_le (pen : Nat) (hpen : 0 < pen) : u8 (pen + 255) ≤ pen := by
  unfold u8
  omega

/-- The call `nextEntropy` succeeds on every state that satisfies the invariant
and re-establishes the invariant. -/
theorem nextEntropy_inv (s : UecMpBitmap) (hs : Inv s) (g : Rand) (a b : Nat) :
    ∃ r, s.nextEntropy g a b = .ok r ∧ Inv r.2.1 := by
  obtain ⟨w, hw, e1, e2, e3, e4, e5, e6, e7, e8, e9, e10, e11, _⟩ :=
    skipWalk_start (s.no_of_paths + 1) s g hs.paths_pos hs.paths_u16 hs.size hs.count
      (Nat.le_refl _)
  refine ⟨finish w, by simp only [nextEntropy, nextEntropyFuel, hw], ?_⟩
  obtain ⟨fn, fr, fb, fc, fm⟩ := advanceIndex_frame w.sel w.g
  have hidx := advanceIndex_index_lt w.sel w.g (by rw [e1]; exact hs.paths_pos)
    (by rw [e1]; exact hs.paths_u16) (by rw [e1]; exact e7 hs.index_lt)
  refine ⟨by simp only [finish, fn, e1]; exact hs.paths_pos,
    by simp only [finish, fn, e1]; exact hs.paths_u16,
    by simp only [finish, fn, fb, e1]; exact e4,
    by simp only [finish, fm, e3]; exact hs.max15, ?_,
    by simp only [finish, penalized, fb, fc]; exact e5,
    by simp only [finish, fn]; exact hidx⟩
  simp only [finish, fb]
  intro x hx
  rcases e11 with h | ⟨pen, hget, hpos, h⟩
  · rw [h] at hx; exact hs.bounded x hx
  · rw [h] at hx
    rcases List.mem_or_eq_of_mem_set hx with hx | hx
    · exact hs.bounded x hx
    · have hpen : pen ≤ 15 := hs.bounded pen (List.getElem?_mem hget)
      have := lowered_le pen hpos
      omega

theorem create_inv (n : Nat) (g : Rand) (h1 : 1 ≤ n) (h16 : n < 65536) : Inv (create n g).1 := by
  refine ⟨h1, h16, by simp [create], rfl, ?_, ?_, h1⟩
  · intro x hx
    simp only [create] at hx
    rw [List.eq_of_mem_replicate hx]
    exact Nat.zero_le _
  · simp only [create, penalized]
    rw [List.countP_eq_zero.2]
    intro x hx
    rw [List.eq_of_mem_replicate hx]
    simp [nonZero]

/-- Every reachable state satisfies the representation invariant. -/
theorem reachable_inv (s : UecMpBitmap) (h : Reachable s) : Inv s := by
  induction h with
  | create n g h1 h16 => exact create_inv n g h1 h16
  | processEv s s1 p f _ hstep ih => exact processEv_inv s s1 ih p f hstep
  | nextEntropy s g a b r _ hstep ih =>
    obtain ⟨r1, hr1, hinv⟩ := nextEntropy_inv s ih g a b
    rw [hstep] at hr1
    injection hr1 with hr1
    rw [hr1]
    exact hinv

/-- More fuel never changes a result of the loop other than running out. -/
theorem skipWalk_mono (fuel : Nat) : ∀ (w : Walk) (r : Except Err Walk),
    skipWalk fuel w = r → r ≠ .error .outOfFuel → skipWalk (fuel + 1) w = r := by
  induction fuel with
  | zero =>
    intro w r h hne
    simp only [skipWalk] at h
    exact absurd h.symm hne
  | succ fuel ih =>
    intro w r h hne
    rw [skipWalk] at h ⊢
    cases hg : w.sel.ev_skip_bitmap[w.entropy]? with
    | none => simpa only [hg] using h
    | some pen =>
      simp only [hg] at h ⊢
      by_cases hpen : pen > 0
      · simp only [hpen, if_true] at h ⊢
        cases hp : (if w.flag = false then payDown w.sel w.entropy pen else .ok w.sel) with
        | error e => simpa only [hp] using h
        | ok s1 =>
          simp only [hp] at h ⊢
          by_cases hc : w.counter + 1 > s1.no_of_paths
          · simpa only [hc, if_true] using h
          · simp only [hc, if_false] at h ⊢
            exact ih _ _ h hne
      · simpa only [hpen, if_false] using h

theorem skipWalk_mono_le (fuel fuel1 : Nat) (hle : fuel ≤ fuel1) (w : Walk)
    (r : Except Err Walk) (h : skipWalk fuel w = r) (hne : r ≠ .error .outOfFuel) :
    skipWalk fuel1 w = r := by
  induction fuel1 with
  | zero =>
    have : fuel = 0 := by omega
    subst this
    exact h
  | succ m ih =>
    rcases Nat.lt_or_ge m fuel with hlt | hge
    · have : fuel = m + 1 := by omega
      subst this
      exact h
    · exact skipWalk_mono m w r (ih hge) hne

end UecMpBitmap

/-! ### Reaching an unpenalized path -/

namespace UecMpBitmap

theorem advanceIndex_no_wrap (s : UecMpBitmap) (g : Rand) (h16 : s.no_of_paths < 65536)
    (h : s.current_ev_index + 1 < s.no_of_paths) :
    advanceIndex s g = ({ s with current_ev_index := s.current_ev_index + 1 }, g) := by
  have h4 : u16 (s.current_ev_index + 1) = s.current_ev_index + 1 := by
    unfold u16; omega
  have h5 : s.current_ev_index + 1 ≠ s.no_of_paths := by omega
  simp only [advanceIndex, h4, if_neg h5]

theorem advanceIndex_wrap (s : UecMpBitmap) (g : Rand) (h16 : s.no_of_paths < 65536)
    (h : s.current_ev_index + 1 = s.no_of_paths) :
    advanceIndex s g = ({ s with current_ev_index := 0
                                 path_xor := u16 (g 0 &&& maskOf s.no_of_paths) }, g.next) := by
  have h4 : u16 (s.current_ev_index + 1) = s.no_of_paths := by
    unfold u16; omega
  simp only [advanceIndex, h4, if_true]

/-- The loop while the index has not passed the position `q` of an unpenalized
path `p` in the current cycle: it ends on `p`, or before `q` under the same xor
value. -/
theorem skipWalk_seek (k : Nat) (hk : k ≤ 15) (p : Nat) (hp : p < 2 ^ k) (fuel : Nat) :
    ∀ (w w1 : Walk), w.sel.no_of_paths = 2 ^ k →
      w.sel.ev_skip_bitmap.length = 2 ^ k →
      w.entropy = cand w.sel.current_ev_index w.sel.path_xor (2 ^ k - 1) →
      w.sel.current_ev_index ≤ cand p w.sel.path_xor (2 ^ k - 1) →
      w.sel.ev_skip_bitmap[p]? = some 0 →
      skipWalk fuel w = .ok w1 →
      w1.sel.ev_skip_bitmap[p]? = some 0 ∧
      (w1.entropy = p ∨
        (w1.sel.path_xor = w.sel.path_xor ∧
          w.sel.current_ev_index ≤ w1.sel.current_ev_index ∧
          w1.sel.current_ev_index < cand p w.sel.path_xor (2 ^ k - 1))) := by
  have h2k : 2 ^ k < 65536 := by
    have h2 : 2 ^ k ≤ 2 ^ 15 := Nat.pow_le_pow_right (by decide) hk
    have h3 : (2:Nat) ^ 15 = 32768 := by norm_num
    omega
  induction fuel with
  | zero =>
    intro w w1 _ _ _ _ _ h
    simp [skipWalk] at h
  | succ fuel ih =>
    intro w w1 hn hlen hent hidx hzero h
    have hq : cand p w.sel.path_xor (2 ^ k - 1) < 2 ^ k := cand_lt _ _ _
    have hentlt : w.entropy < w.sel.ev_skip_bitmap.length := by
      rw [hlen, hent]; exact cand_lt _ _ _
    have hget := List.getElem?_eq_getElem hentlt
    generalize w.sel.ev_skip_bitmap[w.entropy] = pen at hget
    have hstay : w.entropy ≠ p → w.sel.current_ev_index < cand p w.sel.path_xor (2 ^ k - 1) := by
      intro hne
      rcases Nat.lt_or_ge w.sel.current_ev_index (cand p w.sel.path_xor (2 ^ k - 1)) with hl | hg
      · exact hl
      · have : w.sel.current_ev_index = cand p w.sel.path_xor (2 ^ k - 1) := by omega
        rw [hent, this, cand_cand p _ k hp] at hne
        exact absurd rfl hne
    rcases Nat.eq_zero_or_pos pen with h0 | hpos
    · subst h0
      rw [skipWalk_exit fuel w hget] at h
      injection h with h
      subst h
      refine ⟨hzero, ?_⟩
      by_cases he : w.entropy = p
      · exact Or.inl he
      · exact Or.inr ⟨rfl, Nat.le_refl _, hstay he⟩
    · have hne : w.entropy ≠ p := by
        intro he
        rw [he, hzero] at hget
        injection hget with hget
        omega
      have hlt := hstay hne
      rw [skipWalk, hget] at h
      simp only [hpos, if_true] at h
      cases hp1 : (if w.flag = false then payDown w.sel w.entropy pen else .ok w.sel) with
      | error e => simp [hp1] at h
      | ok s1 =>
        simp only [hp1] at h
        have hs1 : s1.no_of_paths = w.sel.no_of_paths ∧
            s1.current_ev_index = w.sel.current_ev_index ∧
            s1.path_xor = w.sel.path_xor ∧ s1.ev_skip_bitmap[p]? = some 0 ∧
            s1.ev_skip_bitmap.length = w.sel.ev_skip_bitmap.length := by
          by_cases hf : w.flag = false
          · simp only [hf, if_true] at hp1
            rcases payDown_cases w.sel w.entropy pen hentlt hget hpos with ⟨hfail, _⟩ |
              ⟨s2, hpay, b1, _, n1, _, _, i1, x1⟩
            · rw [hfail] at hp1; exact absurd hp1 (by simp)
            · rw [hpay] at hp1
              injection hp1 with hp1
              subst hp1
              refine ⟨n1, i1, x1, ?_, by rw [b1, List.length_set]⟩
              rw [b1, List.getElem?_set_ne hne]
              exact hzero
          · simp only [hf, if_false] at hp1
            injection hp1 with hp1
            subst hp1
            exact ⟨rfl, rfl, rfl, hzero, rfl⟩
        obtain ⟨n1, i1, x1, z1, l1⟩ := hs1
        by_cases hc : w.counter + 1 > s1.no_of_paths
        · simp only [hc, if_true] at h
          injection h with h
          subst h
          exact ⟨z1, Or.inr ⟨x1, by simp only [i1]; exact Nat.le_refl _, by simp only [i1]; exact hlt⟩⟩
        · simp only [hc, if_false] at h
          have hadv := advanceIndex_no_wrap s1 w.g (by rw [n1, hn]; exact h2k)
            (by rw [n1, hn, i1]; omega)
          rw [hadv] at h
          simp only at h
          have hmask : maskOf s1.no_of_paths = 2 ^ k - 1 := by
            rw [n1, hn]; exact maskOf_two_pow k hk
          rw [hmask] at h
          obtain ⟨r1, r2⟩ := ih _ w1 (by simp only [n1, hn]) (by simp only [l1, hlen]) rfl
            (by simp only [x1, i1]; omega) z1 h
          refine ⟨r1, ?_⟩
          rcases r2 with r2 | ⟨r2, r3, r4⟩
          · exact Or.inl r2
          · simp only [x1, i1] at r2 r3 r4
            exact Or.inr ⟨r2, by omega, r4⟩

theorem two_pow_u16 (k : Nat) (hk : k ≤ 15) : 2 ^ k < 65536 := by
  have h2 : 2 ^ k ≤ 2 ^ 15 := Nat.pow_le_pow_right (by decide) hk
  have h3 : (2:Nat) ^ 15 = 32768 := by norm_num
  omega

/-- One `nextEntropy` call while the index has not passed the position of an
unpenalized path `p` in the current cycle: the call returns `p`, or it leaves
the index further on but still not past that position, under the same xor
value. -/
theorem nextEntropy_seek (k : Nat) (hk : k ≤ 15) (s : UecMpBitmap) (hs : Inv s)
    (hn : s.no_of_paths = 2 ^ k) (p : Nat) (hp : p < 2 ^ k)
    (hzero : s.ev_skip_bitmap[p]? = some 0)
    (hidx : s.current_ev_index ≤ cand p s.path_xor (2 ^ k - 1)) (g : Rand) (a b : Nat) :
    ∃ r, s.nextEntropy g a b = .ok r ∧ Inv r.2.1 ∧ r.2.1.no_of_paths = 2 ^ k ∧
      (r.1 &&& (2 ^ k - 1) = p ∨
        (r.2.1.path_xor = s.path_xor ∧ s.current_ev_index < r.2.1.current_ev_index ∧
          r.2.1.current_ev_index ≤ cand p s.path_xor (2 ^ k - 1) ∧
          r.2.1.ev_skip_bitmap[p]? = some 0)) := by
  obtain ⟨r, hr, hinv⟩ := nextEntropy_inv s hs g a b
  obtain ⟨w, hw, e1, e2, e3, e4, e5, e6, e7, e8, e9, e10, e11, e12⟩ :=
    skipWalk_start (s.no_of_paths + 1) s g hs.paths_pos hs.paths_u16 hs.size hs.count
      (Nat.le_refl _)
  have hmask : maskOf s.no_of_paths = 2 ^ k - 1 := by rw [hn]; exact maskOf_two_pow k hk
  have hrw : r = finish w := by
    simp only [nextEntropy, nextEntropyFuel, hw] at hr
    exact (Except.ok.inj hr).symm
  subst hrw
  have hstart : (startWalk s g).entropy
      = cand (startWalk s g).sel.current_ev_index (startWalk s g).sel.path_xor (2 ^ k - 1) := by
    simp only [startWalk, hmask]
  obtain ⟨z, hdisj⟩ := skipWalk_seek k hk p hp (s.no_of_paths + 1) (startWalk s g) w hn
    (by rw [← hn]; exact hs.size) hstart hidx hzero hw
  refine ⟨finish w, hr, hinv, ?_, ?_⟩
  · show (advanceIndex w.sel w.g).1.no_of_paths = 2 ^ k
    rw [(advanceIndex_frame w.sel w.g).1, e1, hn]
  · rcases hdisj with h | ⟨h1, h2, h3⟩
    · left
      simp only [finish, e1, hmask]
      rw [e12, hmask] at h ⊢
      rw [← h]
      exact low_bits_or_upperBits _ _ _
    · right
      simp only [startWalk] at h1 h2 h3
      have hq : cand p s.path_xor (2 ^ k - 1) < 2 ^ k := cand_lt _ _ _
      have hadv := advanceIndex_no_wrap w.sel w.g (by rw [e1]; exact hs.paths_u16)
        (by rw [e1, hn]; omega)
      simp only [finish, hadv]
      exact ⟨h1, by omega, by omega, z⟩

theorem run_ok (ops : List Op) : ∀ (s : UecMpBitmap) (g : Rand), Inv s →
    ∃ res, run s g ops = .ok res := by
  induction ops with
  | nil => intro s g _; exact ⟨_, rfl⟩
  | cons o ops ih =>
    intro s g hs
    cases o with
    | processEv pid f =>
      obtain ⟨old, _, _, hr⟩ := processEv_eq s hs pid f
      obtain ⟨res, hres⟩ := ih _ g (processEv_inv s _ hs pid f hr)
      exact ⟨res, by simp only [run, hr, hres]⟩
    | nextEntropy a b =>
      obtain ⟨r, hr, hinv⟩ := nextEntropy_inv s hs g a b
      obtain ⟨res, hres⟩ := ih r.2.1 r.2.2 hinv
      exact ⟨(r.1 :: res.1, res.2), by simp only [run, hr, hres]⟩

/-- A run of calls that spare `p`, started while the index has not passed the
position of the unpenalized path `p`, with enough `nextEntropy` calls to pass
it: one of them returns `p`. -/
theorem run_seek (k : Nat) (hk : k ≤ 15) (p : Nat) (hp : p < 2 ^ k) (ops : List Op) :
    ∀ (s : UecMpBitmap) (g : Rand), Inv s → s.no_of_paths = 2 ^ k →
      s.ev_skip_bitmap[p]? = some 0 →
      s.current_ev_index ≤ cand p s.path_xor (2 ^ k - 1) →
      (∀ o ∈ ops, o.spares p (2 ^ k - 1) = true) →
      cand p s.path_xor (2 ^ k - 1) < (ops.filter Op.isNext).length + s.current_ev_index →
      ∃ res, run s g ops = .ok res ∧ ∃ v ∈ res.1, v &&& (2 ^ k - 1) = p := by
  induction ops with
  | nil =>
    intro s g _ _ _ hidx _ hcalls
    simp only [List.filter_nil, List.length_nil] at hcalls
    omega
  | cons o ops ih =>
    intro s g hs hn hzero hidx hspare hcalls
    have hmask : maskOf s.no_of_paths = 2 ^ k - 1 := by rw [hn]; exact maskOf_two_pow k hk
    have hrest : ∀ o ∈ ops, o.spares p (2 ^ k - 1) = true :=
      fun o ho => hspare o (List.mem_cons_of_mem _ ho)
    cases o with
    | processEv pid f =>
      simp only [List.filter, Op.isNext] at hcalls
      obtain ⟨old, hget, _, hr⟩ := processEv_eq s hs pid f
      have hsp := hspare _ (List.mem_cons_self _ _)
      simp only [Op.spares, Bool.or_eq_true, beq_iff_eq, bne_iff_ne, ne_eq] at hsp
      have hlt : p < s.ev_skip_bitmap.length := by rw [hs.size, hn]; exact hp
      have hz1 : (s.ev_skip_bitmap.set (pid &&& maskOf s.no_of_paths)
          (min (old + penaltyOf 15 f) 15))[p]? = some 0 := by
        rw [hmask] at hget ⊢
        by_cases he : pid &&& (2 ^ k - 1) = p
        · rcases hsp with hf | hne
          · rw [he] at hget ⊢
            rw [hzero] at hget
            have hold0 : old = 0 := (Option.some.inj hget).symm
            subst hold0
            subst hf
            rw [List.getElem?_set_self hlt]
            rfl
          · exact absurd he hne
        · rw [List.getElem?_set_ne he]
          exact hzero
      obtain ⟨res, hres, hv⟩ := ih _ g (processEv_inv s _ hs pid f hr) hn hz1 hidx hrest hcalls
      exact ⟨res, by simp only [run, hr, hres], hv⟩
    | nextEntropy a b =>
      simp only [List.filter, Op.isNext, List.length_cons] at hcalls
      obtain ⟨r, hr, hinv, hn1, hdisj⟩ := nextEntropy_seek k hk s hs hn p hp hzero hidx g a b
      rcases hdisj with h | ⟨h1, h2, h3, h4⟩
      · obtain ⟨res, hres⟩ := run_ok ops r.2.1 r.2.2 hinv
        exact ⟨(r.1 :: res.1, res.2), by simp only [run, hr, hres], r.1,
          List.mem_cons_self _ _, h⟩
      · obtain ⟨res, hres, v, hv, hvp⟩ := ih r.2.1 r.2.2 hinv hn1 h4 (by rw [h1]; exact h3)
          hrest (by rw [h1]; omega)
        exact ⟨(r.1 :: res.1, res.2), by simp only [run, hr, hres], v,
          List.mem_cons_of_mem _ hv, hvp⟩

/-! ### Avoiding a timed-out path

The only penalized path is `p`, with penalty `c`. `t` counts the values
returned so far, `wv` the wraps of the index so far. The position of `p` in the
current cycle is `cand p path_xor mask`; it has been passed when it is below
the index. The two inequalities say that every wrap costs `n - 1` returned
values, and that the penalty has gone down at most once per cycle. -/

theorem only_get_self (N p c : Nat) (hp : p < N) :
    ((List.replicate N 0).set p c)[p]? = some c := by
  rw [List.getElem?_set_self (by rw [List.length_replicate]; exact hp)]

theorem only_get_other (N p c e : Nat) (he : e ≠ p) (hlt : e < N) :
    ((List.replicate N 0).set p c)[e]? = some 0 := by
  rw [List.getElem?_set_ne (Ne.symm he), List.getElem?_replicate_of_lt hlt]

theorem skipWalk_avoid (k : Nat) (hk1 : 1 ≤ k) (hk : k ≤ 15) (p : Nat) (hp : p < 2 ^ k)
    (t : Nat) (ht : t ≤ 2 ^ k - 1) (fuel : Nat) :
    ∀ (w w1 : Walk) (c wv : Nat), w.sel.no_of_paths = 2 ^ k →
      w.sel.ev_skip_bitmap = (List.replicate (2 ^ k) 0).set p c → c ≤ 15 →
      w.entropy = cand w.sel.current_ev_index w.sel.path_xor (2 ^ k - 1) →
      w.sel.current_ev_index < 2 ^ k →
      (w.counter = 0 ∨
        (w.counter = 1 ∧ (cand p w.sel.path_xor (2 ^ k - 1) < w.sel.current_ev_index ∨
          w.sel.current_ev_index = 0)) ∨
        (w.counter = 2 ∧ cand p w.sel.path_xor (2 ^ k - 1) < w.sel.current_ev_index)) →
      wv ≤ 3 →
      wv * (2 ^ k - 1) + w.sel.current_ev_index ≤ 2 ^ k - 1 + t +
        (if cand p w.sel.path_xor (2 ^ k - 1) < w.sel.current_ev_index then 1 else 0) →
      15 ≤ c + wv +
        (if cand p w.sel.path_xor (2 ^ k - 1) < w.sel.current_ev_index then 1 else 0) →
      skipWalk fuel w = .ok w1 →
      w1.entropy ≠ p ∧
      w1.entropy = cand w1.sel.current_ev_index w1.sel.path_xor (2 ^ k - 1) ∧
      w1.sel.no_of_paths = 2 ^ k ∧ w1.sel.current_ev_index < 2 ^ k ∧
      ∃ c1 wv1, w1.sel.ev_skip_bitmap = (List.replicate (2 ^ k) 0).set p c1 ∧ c1 ≤ 15 ∧
        wv1 ≤ 3 ∧
        wv1 * (2 ^ k - 1) + w1.sel.current_ev_index ≤ 2 ^ k - 1 + t +
          (if cand p w1.sel.path_xor (2 ^ k - 1) < w1.sel.current_ev_index then 1 else 0) ∧
        15 ≤ c1 + wv1 +
          (if cand p w1.sel.path_xor (2 ^ k - 1) < w1.sel.current_ev_index then 1 else 0) := by
  have h2k := two_pow_u16 k hk
  have h2 : 2 ≤ 2 ^ k := by
    calc 2 = 2 ^ 1 := rfl
      _ ≤ 2 ^ k := Nat.pow_le_pow_right (by decide) hk1
  induction fuel with
  | zero =>
    intro w w1 c wv _ _ _ _ _ _ _ _ _ h
    simp [skipWalk] at h
  | succ fuel ih =>
    intro w w1 c wv hn hbm hc hent hidx hI hwv hJ1 hJ2 h
    have hq : cand p w.sel.path_xor (2 ^ k - 1) < 2 ^ k := cand_lt _ _ _
    have hlen : w.sel.ev_skip_bitmap.length = 2 ^ k := by
      rw [hbm, List.length_set, List.length_replicate]
    have hentlt : w.entropy < 2 ^ k := by rw [hent]; exact cand_lt _ _ _
    by_cases he : w.entropy = p
    · have hidxq : w.sel.current_ev_index = cand p w.sel.path_xor (2 ^ k - 1) := by
        rw [← he, hent, cand_cand _ _ k hidx]
      have hnp : ¬ (cand p w.sel.path_xor (2 ^ k - 1) < w.sel.current_ev_index) := by omega
      simp only [hnp, if_false] at hJ1 hJ2
      have hget : w.sel.ev_skip_bitmap[w.entropy]? = some c := by
        rw [he, hbm]; exact only_get_self _ _ _ hp
      have hpos : c > 0 := by omega
      rw [skipWalk, hget] at h
      simp only [hpos, if_true] at h
      cases hp1 : (if w.flag = false then payDown w.sel w.entropy c else .ok w.sel) with
      | error e => simp [hp1] at h
      | ok s1 =>
        simp only [hp1] at h
        have hs1 : s1.no_of_paths = w.sel.no_of_paths ∧
            s1.current_ev_index = w.sel.current_ev_index ∧
            s1.path_xor = w.sel.path_xor ∧
            ∃ c1, s1.ev_skip_bitmap = (List.replicate (2 ^ k) 0).set p c1 ∧ c1 ≤ 15 ∧
              c ≤ c1 + 1 := by
          by_cases hf : w.flag = false
          · simp only [hf, if_true] at hp1
            rcases payDown_cases w.sel w.entropy c (by rw [hlen]; exact hentlt) hget hpos
              with ⟨hfail, _⟩ | ⟨s2, hpay, b1, _, n1, _, _, i1, x1⟩
            · rw [hfail] at hp1; exact absurd hp1 (by simp)
            · rw [hpay] at hp1
              have hp2 := Except.ok.inj hp1
              subst hp2
              refine ⟨n1, i1, x1, u8 (c + 255), ?_, ?_, ?_⟩
              · rw [b1, hbm, he, List.set_set]
              · unfold u8; omega
              · unfold u8; omega
          · simp only [hf, if_false] at hp1
            have hp2 := Except.ok.inj hp1
            subst hp2
            exact ⟨rfl, rfl, rfl, c, hbm, hc, by omega⟩
        obtain ⟨n1, i1, x1, c1, b1, hc1, hcc⟩ := hs1
        have hcnt : w.counter ≤ 1 := by
          rcases hI with h0 | ⟨h1, _⟩ | ⟨_, h3⟩
          · omega
          · omega
          · exact absurd h3 hnp
        have hc2 : ¬ (w.counter + 1 > s1.no_of_paths) := by rw [n1, hn]; omega
        simp only [hc2, if_false] at h
        have hmask : maskOf s1.no_of_paths = 2 ^ k - 1 := by
          rw [n1, hn]; exact maskOf_two_pow k hk
        rw [hmask] at h
        by_cases hwrap : w.sel.current_ev_index + 1 < 2 ^ k
        · have hadv := advanceIndex_no_wrap s1 w.g (by rw [n1, hn]; exact h2k)
            (by rw [n1, hn, i1]; exact hwrap)
          rw [hadv] at h
          simp only at h
          have hpass : cand p w.sel.path_xor (2 ^ k - 1) < w.sel.current_ev_index + 1 := by
            omega
          refine ih _ w1 c1 wv (by simp only [n1, hn]) (by simp only [b1]) hc1 rfl
            (by simp only [i1]; exact hwrap) ?_ hwv ?_ ?_ h
          · simp only [x1, i1]
            rcases Nat.eq_zero_or_pos w.counter with h0 | h1
            · exact Or.inr (Or.inl ⟨by omega, Or.inl hpass⟩)
            · exact Or.inr (Or.inr ⟨by omega, hpass⟩)
          · simp only [x1, i1, hpass, if_true]
            omega
          · simp only [x1, i1, hpass, if_true]
            omega
        · have hlast : w.sel.current_ev_index + 1 = 2 ^ k := by omega
          have hadv := advanceIndex_wrap s1 w.g (by rw [n1, hn]; exact h2k)
            (by rw [n1, hn, i1]; exact hlast)
          rw [hadv] at h
          simp only at h
          have hcnt0 : w.counter = 0 := by
            rcases hI with h0 | ⟨_, h3 | h3⟩ | ⟨_, h3⟩
            · exact h0
            · exact absurd h3 hnp
            · omega
            · exact absurd h3 hnp
          have hwv1 : wv + 1 ≤ 3 ∧ (wv + 1) * (2 ^ k - 1) ≤ 2 ^ k - 1 + t := by
            interval_cases wv <;> omega
          refine ih _ w1 c1 (wv + 1) (by simp only [n1, hn]) (by simp only [b1]) hc1 rfl
            (by simp only; omega) ?_ hwv1.1 ?_ ?_ h
          · exact Or.inr (Or.inl ⟨by simp only [hcnt0], Or.inr rfl⟩)
          · simp only [Nat.not_lt_zero, if_false]
            omega
          · simp only [Nat.not_lt_zero, if_false]
            omega
    · have hget : w.sel.ev_skip_bitmap[w.entropy]? = some 0 := by
        rw [hbm]; exact only_get_other _ _ _ _ he hentlt
      rw [skipWalk_exit fuel w hget] at h
      have h3 := Except.ok.inj h
      subst h3
      exact ⟨he, hent, hn, hidx, c, wv, hbm, hc, hwv, hJ1, hJ2⟩

theorem wrap_budget (wv m t : Nat) (hwv : wv ≤ 3) (hm : 1 ≤ m) (ht : t ≤ m)
    (h : wv * m + m ≤ m + t + 1) : wv + 1 ≤ 3 ∧ (wv + 1) * m ≤ m + (t + 1) := by
  interval_cases wv <;> omega

/-- One `nextEntropy` call while `p` is the only penalized path and its
penalty outlasts the cycles that `n` returned values can span: the call
returns another path and keeps the accounting one returned value further. -/
theorem nextEntropy_avoid (k : Nat) (hk1 : 1 ≤ k) (hk : k ≤ 15) (p : Nat) (hp : p < 2 ^ k)
    (t : Nat) (ht : t ≤ 2 ^ k - 1) (s : UecMpBitmap) (hs : Inv s)
    (hn : s.no_of_paths = 2 ^ k) (c wv : Nat)
    (hbm : s.ev_skip_bitmap = (List.replicate (2 ^ k) 0).set p c) (hc : c ≤ 15)
    (hwv : wv ≤ 3)
    (hJ1 : wv * (2 ^ k - 1) + s.current_ev_index ≤ 2 ^ k - 1 + t +
      (if cand p s.path_xor (2 ^ k - 1) < s.current_ev_index then 1 else 0))
    (hJ2 : 15 ≤ c + wv +
      (if cand p s.path_xor (2 ^ k - 1) < s.current_ev_index then 1 else 0))
    (g : Rand) (a b : Nat) :
    ∃ r, s.nextEntropy g a b = .ok r ∧ Inv r.2.1 ∧ r.2.1.no_of_paths = 2 ^ k ∧
      r.1 &&& (2 ^ k - 1) ≠ p ∧
      ∃ c1 wv1, r.2.1.ev_skip_bitmap = (List.replicate (2 ^ k) 0).set p c1 ∧ c1 ≤ 15 ∧
        wv1 ≤ 3 ∧
        wv1 * (2 ^ k - 1) + r.2.1.current_ev_index ≤ 2 ^ k - 1 + (t + 1) +
          (if cand p r.2.1.path_xor (2 ^ k - 1) < r.2.1.current_ev_index then 1 else 0) ∧
        15 ≤ c1 + wv1 +
          (if cand p r.2.1.path_xor (2 ^ k - 1) < r.2.1.current_ev_index then 1 else 0) := by
  have h2k := two_pow_u16 k hk
  have h2 : 2 ≤ 2 ^ k := by
    calc 2 = 2 ^ 1 := rfl
      _ ≤ 2 ^ k := Nat.pow_le_pow_right (by decide) hk1
  obtain ⟨r, hr, hinv⟩ := nextEntropy_inv s hs g a b
  obtain ⟨w, hw, e1, e2, e3, e4, e5, e6, e7, e8, e9, e10, e11, e12⟩ :=
    skipWalk_start (s.no_of_paths + 1) s g hs.paths_pos hs.paths_u16 hs.size hs.count
      (Nat.le_refl _)
  have hmask : maskOf s.no_of_paths = 2 ^ k - 1 := by rw [hn]; exact maskOf_two_pow k hk
  have hrw : r = finish w := by
    simp only [nextEntropy, nextEntropyFuel, hw] at hr
    exact (Except.ok.inj hr).symm
  subst hrw
  have hstart : (startWalk s g).entropy
      = cand (startWalk s g).sel.current_ev_index (startWalk s g).sel.path_xor (2 ^ k - 1) := by
    simp only [startWalk, hmask]
  obtain ⟨a1, a2, a3, a4, c1, wv1, a5, a6, a7, a8, a9⟩ :=
    skipWalk_avoid k hk1 hk p hp t ht (s.no_of_paths + 1) (startWalk s g) w c wv hn hbm hc
      hstart (by rw [← hn]; exact hs.index_lt) (Or.inl rfl) hwv hJ1 hJ2 hw
  clear e7 e9 e10 e11
  have hq : cand p w.sel.path_xor (2 ^ k - 1) < 2 ^ k := cand_lt _ _ _
  have hne : w.sel.current_ev_index ≠ cand p w.sel.path_xor (2 ^ k - 1) := by
    intro heq
    rw [a2, heq, cand_cand _ _ k hp] at a1
    exact a1 rfl
  refine ⟨finish w, hr, hinv, ?_, ?_, ?_⟩
  · show (advanceIndex w.sel w.g).1.no_of_paths = 2 ^ k
    rw [(advanceIndex_frame w.sel w.g).1, a3]
  · simp only [finish, a3, maskOf_two_pow k hk]
    rw [a2]
    rw [a2] at a1
    have hlow := low_bits_or_upperBits (w.sel.current_ev_index ^^^ w.sel.path_xor)
      w.sel.path_random (2 ^ k - 1)
    unfold cand at a1 ⊢
    rw [hlow]
    exact a1
  · by_cases hwrap : w.sel.current_ev_index + 1 < 2 ^ k
    · have hadv := advanceIndex_no_wrap w.sel w.g (by rw [a3]; exact h2k)
        (by rw [a3]; exact hwrap)
      simp only [finish, hadv]
      refine ⟨c1, wv1, a5, a6, a7, ?_, ?_⟩
      · by_cases hpass : cand p w.sel.path_xor (2 ^ k - 1) < w.sel.current_ev_index
        · have hpass2 : cand p w.sel.path_xor (2 ^ k - 1) < w.sel.current_ev_index + 1 := by
            omega
          simp only [hpass, if_true] at a8
          simp only [hpass2, if_true]
          omega
        · have hpass2 : ¬ (cand p w.sel.path_xor (2 ^ k - 1) < w.sel.current_ev_index + 1) := by
            omega
          simp only [hpass, if_false] at a8
          simp only [hpass2, if_false]
          omega
      · by_cases hpass : cand p w.sel.path_xor (2 ^ k - 1) < w.sel.current_ev_index
        · have hpass2 : cand p w.sel.path_xor (2 ^ k - 1) < w.sel.current_ev_index + 1 := by
            omega
          simp only [hpass, if_true] at a9
          simp only [hpass2, if_true]
          omega
        · have hpass2 : ¬ (cand p w.sel.path_xor (2 ^ k - 1) < w.sel.current_ev_index + 1) := by
            omega
          simp only [hpass, if_false] at a9
          simp only [hpass2, if_false]
          omega
    · have hlast : w.sel.current_ev_index + 1 = 2 ^ k := by omega
      have hadv := advanceIndex_wrap w.sel w.g (by rw [a3]; exact h2k)
        (by rw [a3]; exact hlast)
      have hpass : cand p w.sel.path_xor (2 ^ k - 1) < w.sel.current_ev_index := by omega
      simp only [hpass, if_true] at a8 a9
      simp only [finish, hadv, Nat.not_lt_zero, if_false]
      have hwv1 : wv1 + 1 ≤ 3 ∧ (wv1 + 1) * (2 ^ k - 1) ≤ 2 ^ k - 1 + (t + 1) :=
        wrap_budget wv1 (2 ^ k - 1) t a7 (by omega) ht (by omega)
      exact ⟨c1, wv1 + 1, a5, a6, hwv1.1, by omega, by omega⟩

/-- At most `n - t` further `nextEntropy` calls, with no feedback in between:
none of them returns `p`. -/
theorem run_avoid (k : Nat) (hk1 : 1 ≤ k) (hk : k ≤ 15) (p : Nat) (hp : p < 2 ^ k)
    (ops : List Op) :
    ∀ (s : UecMpBitmap) (g : Rand) (t c wv : Nat), Inv s → s.no_of_paths = 2 ^ k →
      s.ev_skip_bitmap = (List.replicate (2 ^ k) 0).set p c → c ≤ 15 → wv ≤ 3 →
      wv * (2 ^ k - 1) + s.current_ev_index ≤ 2 ^ k - 1 + t +
        (if cand p s.path_xor (2 ^ k - 1) < s.current_ev_index then 1 else 0) →
      15 ≤ c + wv +
        (if cand p s.path_xor (2 ^ k - 1) < s.current_ev_index then 1 else 0) →
      (∀ o ∈ ops, o.isNext = true) → t + ops.length ≤ 2 ^ k →
      ∃ res, run s g ops = .ok res ∧ res.1.length = ops.length ∧
        ∀ v ∈ res.1, v &&& (2 ^ k - 1) ≠ p := by
  induction ops with
  | nil =>
    intro s g t c wv _ _ _ _ _ _ _ _ _
    exact ⟨([], s, g), rfl, rfl, fun v hv => by simp at hv⟩
  | cons o ops ih =>
    intro s g t c wv hs hn hbm hc hwv hJ1 hJ2 hops hlen
    cases o with
    | processEv pid f =>
      have := hops _ (List.mem_cons_self _ _)
      simp [Op.isNext] at this
    | nextEntropy a b =>
      simp only [List.length_cons] at hlen
      obtain ⟨r, hr, hinv, hn1, hv, c1, wv1, b1, b2, b3, b4, b5⟩ :=
        nextEntropy_avoid k hk1 hk p hp t (by omega) s hs hn c wv hbm hc hwv hJ1 hJ2 g a b
      obtain ⟨res, hres, hl, hall⟩ := ih r.2.1 r.2.2 (t + 1) c1 wv1 hinv hn1 b1 b2 b3 b4 b5
        (fun o ho => hops o (List.mem_cons_of_mem _ ho)) (by omega)
      refine ⟨(r.1 :: res.1, res.2), by simp only [run, hr, hres], by simp only [List.length_cons, hl], ?_⟩
      intro v hvm
      rcases List.mem_cons.1 hvm with h | h
      · rw [h]; exact hv
      · exact hall v h

end UecMpBitmap

/-! ## Bitmap: the documented behaviour -/

/-- C2: on a Bitmap selector with a power-of-two path count whose penalties are
all at most 15, `processEv(p, f)` for a path `p < n` succeeds, sets the penalty
of `p` to `min(old + d, 15)` with `d = 0` for GOOD, `1` for ECN, `4` for NACK,
and to exactly 15 for TIMEOUT, and leaves the penalty of every other path, the
round-robin index, the xor value and the salt unchanged. -/
theorem bitmap_processEv_penalty (k : Nat) (hk : k ≤ 15) (s : UecMpBitmap)
    (hn : s.no_of_paths = 2 ^ k) (hlen : s.ev_skip_bitmap.length = s.no_of_paths)
    (hmax : s.max_penalty = 15) (hb : ∀ x ∈ s.ev_skip_bitmap, x ≤ 15)
    (p : Nat) (hp : p < s.no_of_paths) (f : PathFeedback) :
    ∃ s1 old, s.processEv p f = .ok s1 ∧ s.ev_skip_bitmap[p]? = some old ∧
      s1.ev_skip_bitmap[p]? = some
        (match f with
         | .PATH_GOOD => min (old + 0) 15
         | .PATH_ECN => min (old + 1) 15
         | .PATH_NACK => min (old + 4) 15
         | .PATH_TIMEOUT => 15) ∧
      (∀ q, q ≠ p → s1.ev_skip_bitmap[q]? = s.ev_skip_bitmap[q]?) ∧
      s1.current_ev_index = s.current_ev_index ∧ s1.path_xor = s.path_xor ∧
      s1.path_random = s.path_random := by
  have hmask : p &&& maskOf s.no_of_paths = p := by
    rw [hn, maskOf_two_pow k hk]
    exact Nat.and_pow_two_sub_one_of_lt_two_pow (hn ▸ hp)
  have hlt : p < s.ev_skip_bitmap.length := by rw [hlen]; exact hp
  have hget := List.getElem?_eq_getElem hlt
  have hold : s.ev_skip_bitmap[p] ≤ 15 := hb _ (List.getElem_mem hlt)
  generalize s.ev_skip_bitmap[p] = old at hget hold
  have hclamp : (if u8 (old + UecMpBitmap.penaltyOf 15 f) > 15 then 15
        else u8 (old + UecMpBitmap.penaltyOf 15 f))
      = (match f with
         | .PATH_GOOD => min (old + 0) 15
         | .PATH_ECN => min (old + 1) 15
         | .PATH_NACK => min (old + 4) 15
         | .PATH_TIMEOUT => 15) := by
    cases f <;> simp only [UecMpBitmap.penaltyOf] <;> unfold u8 <;> split <;> omega
  refine ⟨{ s with
      ev_skip_count :=
        if f ≠ .PATH_GOOD ∧ old = 0 then u16 (s.ev_skip_count + 1) else s.ev_skip_count
      ev_skip_bitmap := s.ev_skip_bitmap.set p
        (if u8 (old + UecMpBitmap.penaltyOf 15 f) > 15 then 15
          else u8 (old + UecMpBitmap.penaltyOf 15 f)) }, old,
    by simp only [UecMpBitmap.processEv, hmask, hget, hmax], hget, ?_, ?_, rfl, rfl, rfl⟩
  · simp only [List.getElem?_set_self hlt, hclamp]
  · intro q hq
    simp only
    exact List.getElem?_set_ne (Ne.symm hq)

/-- C2 at a concrete selector: four paths with penalties 0, 14, 3, 0; a NACK
for path 1 saturates its penalty at 15. -/
theorem bitmap_processEv_penalty_witness :
    ∃ s1 old,
      UecMpBitmap.processEv ⟨4, 0x1234, 1, 2, [0, 14, 3, 0], 2, 15⟩ 1 .PATH_NACK = .ok s1 ∧
      ([0, 14, 3, 0] : List Nat)[1]? = some old ∧
      s1.ev_skip_bitmap[1]? = some (min (old + 4) 15) ∧
      (∀ q, q ≠ 1 → s1.ev_skip_bitmap[q]? = ([0, 14, 3, 0] : List Nat)[q]?) ∧
      s1.current_ev_index = 2 ∧ s1.path_xor = 1 ∧ s1.path_random = 0x1234 :=
  bitmap_processEv_penalty 2 (by decide) ⟨4, 0x1234, 1, 2, [0, 14, 3, 0], 2, 15⟩ rfl rfl rfl
    (by decide) 1 (by decide) .PATH_NACK

/-- C3: in every state reachable from the construction of a Bitmap selector
with at least one path, by any `processEv` and `nextEntropy` calls with any
arguments and random draws, every penalty is at most 15 and the skip count is
the number of paths of non-zero penalty; in such a state neither call can fail:
the assertion `_ev_skip_count > 0` of `nextEntropy` holds and no index is out of
range. -/
theorem bitmap_reachable_invariant (s : UecMpBitmap) (h : UecMpBitmap.Reachable s) :
    (∀ x ∈ s.ev_skip_bitmap, x ≤ 15) ∧
    s.ev_skip_count = (s.ev_skip_bitmap.filter (fun x => decide (x ≠ 0))).length ∧
    (∀ g a b, ∃ r, s.nextEntropy g a b = .ok r) ∧
    (∀ p f, ∃ s1, s.processEv p f = .ok s1) := by
  have hs := UecMpBitmap.reachable_inv s h
  refine ⟨hs.bounded, ?_, fun g a b => ?_, fun p f => ?_⟩
  · rw [hs.count, UecMpBitmap.penalized, List.countP_eq_length_filter]
    rfl
  · obtain ⟨r, hr, _⟩ := UecMpBitmap.nextEntropy_inv s hs g a b
    exact ⟨r, hr⟩
  · obtain ⟨old, _, _, hr⟩ := UecMpBitmap.processEv_eq s hs p f
    exact ⟨_, hr⟩

/-- C3 at a concrete reachable state: two paths, constructed and then given a
TIMEOUT for path 1. -/
theorem bitmap_reachable_invariant_witness :
    (∀ x ∈ (⟨2, 0, 0, 0, [0, 15], 1, 15⟩ : UecMpBitmap).ev_skip_bitmap, x ≤ 15) ∧
    (⟨2, 0, 0, 0, [0, 15], 1, 15⟩ : UecMpBitmap).ev_skip_count
      = ((⟨2, 0, 0, 0, [0, 15], 1, 15⟩ : UecMpBitmap).ev_skip_bitmap.filter
          (fun x => decide (x ≠ 0))).length ∧
    (∀ g a b, ∃ r, UecMpBitmap.nextEntropy ⟨2, 0, 0, 0, [0, 15], 1, 15⟩ g a b = .ok r) ∧
    (∀ p f, ∃ s1, UecMpBitmap.processEv ⟨2, 0, 0, 0, [0, 15], 1, 15⟩ p f = .ok s1) :=
  bitmap_reachable_invariant ⟨2, 0, 0, 0, [0, 15], 1, 15⟩
    (UecMpBitmap.Reachable.processEv (UecMpBitmap.create 2 (fun _ => 0)).1 _ 1 .PATH_TIMEOUT
      (UecMpBitmap.Reachable.create 2 (fun _ => 0) (by decide) (by decide)) rfl)

/-- C4: on every Bitmap selector state with at least one path (penalty array of
that size; any penalties, index, xor value and random draws) `nextEntropy`
terminates: the loop needs at most `_no_of_paths + 1` evaluations of its
condition (more fuel changes nothing), and unless the assertion stops the call
(which needs a skip count that disagrees with the penalties) it returns after
at most `_no_of_paths` advances of the index inside the loop; when the loop ends
by the cap, every candidate examined having been penalized, the value returned
is the last candidate examined and its penalty is still non-zero. -/
theorem bitmap_nextEntropy_terminates (s : UecMpBitmap) (g : Rand) (a b : Nat)
    (h1 : 1 ≤ s.no_of_paths) (h16 : s.no_of_paths < 65536)
    (hlen : s.ev_skip_bitmap.length = s.no_of_paths) :
    (∀ fuel, s.no_of_paths + 1 ≤ fuel →
      UecMpBitmap.nextEntropyFuel fuel s g = s.nextEntropy g a b) ∧
    ((s.nextEntropy g a b = .error .assertFailed ∧ s.ev_skip_count ≠ s.penalized) ∨
      ∃ w, UecMpBitmap.skipWalk (s.no_of_paths + 1) (s.startWalk g) = .ok w ∧
        s.nextEntropy g a b = .ok (UecMpBitmap.finish w) ∧
        w.advances ≤ s.no_of_paths ∧
        (UecMpBitmap.finish w).1 &&& maskOf s.no_of_paths = w.entropy ∧
        (s.no_of_paths < w.counter →
          ∃ pen, (UecMpBitmap.finish w).2.1.ev_skip_bitmap[w.entropy]? = some pen ∧
            0 < pen)) ∧
    (s.ev_skip_count = s.penalized → ∃ r, s.nextEntropy g a b = .ok r) := by
  have hcases := UecMpBitmap.skipWalk_start_cases (s.no_of_paths + 1) s g h1 h16 hlen
    (Nat.le_refl _)
  have hsecond : (s.nextEntropy g a b = .error .assertFailed ∧
        s.ev_skip_count ≠ s.penalized) ∨
      ∃ w, UecMpBitmap.skipWalk (s.no_of_paths + 1) (s.startWalk g) = .ok w ∧
        s.nextEntropy g a b = .ok (UecMpBitmap.finish w) ∧
        w.advances ≤ s.no_of_paths ∧
        (UecMpBitmap.finish w).1 &&& maskOf s.no_of_paths = w.entropy ∧
        (s.no_of_paths < w.counter →
          ∃ pen, (UecMpBitmap.finish w).2.1.ev_skip_bitmap[w.entropy]? = some pen ∧
            0 < pen) := by
    rcases hcases with ⟨hfail, hbad⟩ | ⟨w, hw, e1, e2, e3, e4, e5, e6, e7, e8, e9, e10, e11, e12⟩
    · exact Or.inl ⟨by simp only [UecMpBitmap.nextEntropy, UecMpBitmap.nextEntropyFuel, hfail],
        hbad⟩
    · refine Or.inr ⟨w, hw,
        by simp only [UecMpBitmap.nextEntropy, UecMpBitmap.nextEntropyFuel, hw], e8, ?_, ?_⟩
      · simp only [UecMpBitmap.finish, e1]
        rw [e12]
        exact low_bits_or_upperBits _ _ _
      · intro hcap
        simp only [UecMpBitmap.finish, (UecMpBitmap.advanceIndex_frame w.sel w.g).2.2.1]
        exact e10 hcap
  refine ⟨fun fuel hfuel => ?_, hsecond, fun hcount => ?_⟩
  · have hmono : UecMpBitmap.skipWalk fuel (s.startWalk g)
        = UecMpBitmap.skipWalk (s.no_of_paths + 1) (s.startWalk g) := by
      apply UecMpBitmap.skipWalk_mono_le (s.no_of_paths + 1) fuel hfuel _ _ rfl
      rcases hcases with ⟨hfail, _⟩ | ⟨w, hw, _⟩
      · rw [hfail]; simp
      · rw [hw]; simp
    simp only [UecMpBitmap.nextEntropy, UecMpBitmap.nextEntropyFuel, hmono]
  · rcases hsecond with ⟨_, hbad⟩ | ⟨w, _, hw, _⟩
    · exact absurd hcount hbad
    · exact ⟨_, hw⟩

/-- C4 at a concrete selector: two paths, both penalized, so the loop ends by
the cap. -/
theorem bitmap_nextEntropy_terminates_witness :
    (∀ fuel, 2 + 1 ≤ fuel →
      UecMpBitmap.nextEntropyFuel fuel ⟨2, 0, 0, 0, [5, 5], 2, 15⟩ (fun _ => 0)
        = UecMpBitmap.nextEntropy ⟨2, 0, 0, 0, [5, 5], 2, 15⟩ (fun _ => 0) 0 0) ∧
    ((UecMpBitmap.nextEntropy ⟨2, 0, 0, 0, [5, 5], 2, 15⟩ (fun _ => 0) 0 0
          = .error .assertFailed ∧
        (2 : Nat) ≠ UecMpBitmap.penalized ⟨2, 0, 0, 0, [5, 5], 2, 15⟩) ∨
      ∃ w, UecMpBitmap.skipWalk (2 + 1)
            (UecMpBitmap.startWalk ⟨2, 0, 0, 0, [5, 5], 2, 15⟩ (fun _ => 0)) = .ok w ∧
        UecMpBitmap.nextEntropy ⟨2, 0, 0, 0, [5, 5], 2, 15⟩ (fun _ => 0) 0 0
          = .ok (UecMpBitmap.finish w) ∧
        w.advances ≤ 2 ∧
        (UecMpBitmap.finish w).1 &&& maskOf 2 = w.entropy ∧
        (2 < w.counter →
          ∃ pen, (UecMpBitmap.finish w).2.1.ev_skip_bitmap[w.entropy]? = some pen ∧
            0 < pen)) ∧
    ((2 : Nat) = UecMpBitmap.penalized ⟨2, 0, 0, 0, [5, 5], 2, 15⟩ →
      ∃ r, UecMpBitmap.nextEntropy ⟨2, 0, 0, 0, [5, 5], 2, 15⟩ (fun _ => 0) 0 0 = .ok r) :=
  bitmap_nextEntropy_terminates ⟨2, 0, 0, 0, [5, 5], 2, 15⟩ (fun _ => 0) 0 0
    (by decide) (by decide) rfl

/-- C6: for a power-of-two path count, a reachable Bitmap selector state whose
round-robin index is 0 and a path `p < n` whose penalty is zero: whatever the
penalties of the other paths and the random draws, and whatever `processEv`
calls that spare `p` (GOOD feedback, or another path) are interleaved, the run
succeeds and at least one of the next `n` `nextEntropy` calls returns a value
whose low bits are `p`. -/
theorem bitmap_unpenalized_path_selected (k : Nat) (s : UecMpBitmap)
    (hs : UecMpBitmap.Reachable s) (hn : s.no_of_paths = 2 ^ k)
    (hidx : s.current_ev_index = 0) (p : Nat) (hp : p < s.no_of_paths)
    (hzero : s.ev_skip_bitmap[p]? = some 0) (g : Rand) (ops : List Op)
    (hspare : ∀ o ∈ ops, o.spares p (s.no_of_paths - 1) = true)
    (hcalls : (ops.filter Op.isNext).length = s.no_of_paths) :
    ∃ res, s.run g ops = .ok res ∧ ∃ v ∈ res.1, v &&& (s.no_of_paths - 1) = p := by
  have hinv := UecMpBitmap.reachable_inv s hs
  have hk : k ≤ 15 := by
    have h16 := hinv.paths_u16
    rw [hn] at h16
    have : 2 ^ k < 2 ^ 16 := by norm_num at h16 ⊢; exact h16
    have := (Nat.pow_lt_pow_iff_right (by decide : 1 < 2)).1 this
    omega
  rw [hn] at hp hspare hcalls ⊢
  exact UecMpBitmap.run_seek k hk p hp ops s g hinv hn hzero (by rw [hidx]; exact Nat.zero_le _)
    hspare (by rw [hcalls, hidx]; exact cand_lt _ _ _)

/-- C6 at a concrete reachable state: two paths, path 1 timed out, path 0
unpenalized; a NACK for path 1 between the two selections. -/
theorem bitmap_unpenalized_path_selected_witness :
    ∃ res, UecMpBitmap.run ⟨2, 0, 0, 0, [0, 15], 1, 15⟩ (fun _ => 1)
        [.nextEntropy 0 0, .processEv 1 .PATH_NACK, .nextEntropy 1 0] = .ok res ∧
      ∃ v ∈ res.1, v &&& (2 - 1) = 0 :=
  bitmap_unpenalized_path_selected 1 ⟨2, 0, 0, 0, [0, 15], 1, 15⟩
    (UecMpBitmap.Reachable.processEv (UecMpBitmap.create 2 (fun _ => 0)).1 _ 1 .PATH_TIMEOUT
      (UecMpBitmap.Reachable.create 2 (fun _ => 0) (by decide) (by decide)) rfl)
    rfl rfl 0 (by decide) rfl (fun _ => 1)
    [.nextEntropy 0 0, .processEv 1 .PATH_NACK, .nextEntropy 1 0] (by decide) (by decide)

/-- C5: for a power-of-two path count `n >= 2` and a Bitmap selector in which
all penalties are zero (any round-robin index below `n`, any xor value), after
`processEv(p, TIMEOUT)` for a path `p < n`, up to `n` further `nextEntropy`
calls with no feedback in between all succeed, whatever the random draws, and
none of them returns a value whose low bits are `p`. -/
theorem bitmap_timeout_skipped (k : Nat) (hk1 : 1 ≤ k) (hk : k ≤ 15) (s : UecMpBitmap)
    (hs : UecMpBitmap.Inv s) (hn : s.no_of_paths = 2 ^ k)
    (hzero : ∀ x ∈ s.ev_skip_bitmap, x = 0) (p : Nat) (hp : p < s.no_of_paths)
    (g : Rand) (ops : List Op) (hops : ∀ o ∈ ops, o.isNext = true)
    (hlen : ops.length ≤ s.no_of_paths) :
    ∃ s1 res, s.processEv p .PATH_TIMEOUT = .ok s1 ∧ s1.run g ops = .ok res ∧
      res.1.length = ops.length ∧ ∀ v ∈ res.1, v &&& (s.no_of_paths - 1) ≠ p := by
  obtain ⟨old, hget, _, hr⟩ := UecMpBitmap.processEv_eq s hs p .PATH_TIMEOUT
  have hmask : p &&& maskOf s.no_of_paths = p := by
    rw [hn, maskOf_two_pow k hk]
    exact Nat.and_pow_two_sub_one_of_lt_two_pow (hn ▸ hp)
  rw [hmask] at hget hr
  have hold : old = 0 := hzero old (List.getElem?_mem hget)
  subst hold
  have hall : s.ev_skip_bitmap = List.replicate (2 ^ k) 0 := by
    rw [← hn, ← hs.size]
    exact List.eq_replicate_of_mem hzero
  have hinv1 := UecMpBitmap.processEv_inv s _ hs p .PATH_TIMEOUT hr
  rw [hn] at hp hlen ⊢
  obtain ⟨res, hres, hl, hv⟩ := UecMpBitmap.run_avoid k hk1 hk p hp ops _ g 0 15 0 hinv1 hn
    (by simp only [hall, UecMpBitmap.penaltyOf]; rfl) (Nat.le_refl _) (by decide)
    (by
      have := hs.index_lt
      simp only [Nat.zero_mul, Nat.zero_add, Nat.add_zero]
      split_ifs <;> omega)
    (by omega) hops (by omega)
  exact ⟨_, res, hr, hres, hl, hv⟩

/-- C5 at a concrete selector: two paths, index 1, and draws that put the
timed-out path first in every new cycle. -/
theorem bitmap_timeout_skipped_witness :
    ∃ s1 res,
      UecMpBitmap.processEv ⟨2, 0x4321, 0, 1, [0, 0], 0, 15⟩ 1 .PATH_TIMEOUT = .ok s1 ∧
      s1.run (fun _ => 1) [.nextEntropy 0 0, .nextEntropy 1 0] = .ok res ∧
      res.1.length = 2 ∧ ∀ v ∈ res.1, v &&& (2 - 1) ≠ 1 :=
  bitmap_timeout_skipped 1 (by decide) (by decide) ⟨2, 0x4321, 0, 1, [0, 0], 0, 15⟩
    ⟨by decide, by decide, rfl, rfl, by decide, rfl, by decide⟩ rfl (by decide) 1 (by decide)
    (fun _ => 1) [.nextEntropy 0 0, .nextEntropy 1 0] (by decide) (by decide)

/-! ## Reps -/

namespace UecMpReps

theorem mapGet?_nil {α : Type} (key : Nat) : mapGet? ([] : List (Nat × α)) key = none := rfl

/-- GOOD feedback in Normal mode without MQL grouping only appends the path id
to the buffer. -/
theorem processEv_good_normal (s : UecMpReps) (now p : Nat)
    (hnormal : s.circular_buffer_reps.frozen_mode = false) (hmql : s.use_mql = false) :
    s.processEv now p .PATH_GOOD
      = .ok { s with circular_buffer_reps := s.circular_buffer_reps.add p } := by
  simp [processEv, enterFrozen, exitFrozen, recordGood, CircularBufferREPS.isFrozenMode,
    hnormal, hmql]

/-- A selection in Normal mode with no exploration left and no MQL grouping,
on a non-empty buffer, pops the oldest entry. -/
theorem nextEntropy_pop (policy : List Nat → Nat) (s : UecMpReps) (g : Rand) (a b x : Nat)
    (rest : List Nat) (hnormal : s.circular_buffer_reps.frozen_mode = false)
    (hexp : s.circular_buffer_reps.explore_counter = 0) (hmql : s.use_mql = false)
    (hent : s.circular_buffer_reps.entries = x :: rest) :
    ∃ s1, s.nextEntropy policy g a b = .ok (x, s1, g) ∧
      s1.circular_buffer_reps = { s.circular_buffer_reps with entries := rest } ∧
      s1.use_mql = false := by
  refine ⟨countSelection
      { s with
        stats := { s.stats with total_selections := u64 (s.stats.total_selections + 1) }
        circular_buffer_reps := { s.circular_buffer_reps with entries := rest } } x,
    ?_, rfl, hmql⟩
  simp [nextEntropy, fallback, hexp, hmql, hnormal, CircularBufferREPS.isFrozenMode,
    CircularBufferREPS.isEmpty, CircularBufferREPS.getNumberFreshEntropies,
    CircularBufferREPS.remove_earliest_fresh, hent]

/-- A run that starts with GOOD feedbacks, in Normal mode without MQL
grouping: the reported path ids join the buffer in order. -/
theorem run_feed (policy : List Nat → Nat) (evs : List (Nat × Nat)) :
    ∀ (s : UecMpReps) (g : Rand) (ops : List RepsOp),
      s.circular_buffer_reps.frozen_mode = false → s.use_mql = false →
      run policy s g (evs.map (fun e => RepsOp.processEv e.1 e.2 .PATH_GOOD) ++ ops)
        = run policy
            { s with circular_buffer_reps :=
                { s.circular_buffer_reps with
                  entries := s.circular_buffer_reps.entries ++ evs.map (fun e => e.2) } }
            g ops := by
  induction evs with
  | nil =>
    intro s g ops _ _
    simp
  | cons e evs ih =>
    intro s g ops hnormal hmql
    have h1 := processEv_good_normal s e.1 e.2 hnormal hmql
    have h2 := ih { s with circular_buffer_reps := s.circular_buffer_reps.add e.2 } g ops
      hnormal hmql
    have h3 : run policy s g
        (RepsOp.processEv e.1 e.2 .PATH_GOOD ::
          (evs.map (fun e => RepsOp.processEv e.1 e.2 .PATH_GOOD) ++ ops))
        = run policy { s with circular_buffer_reps := s.circular_buffer_reps.add e.2 } g
          (evs.map (fun e => RepsOp.processEv e.1 e.2 .PATH_GOOD) ++ ops) := by
      rw [run, h1]
    show run policy s g
        (RepsOp.processEv e.1 e.2 .PATH_GOOD ::
          (evs.map (fun e => RepsOp.processEv e.1 e.2 .PATH_GOOD) ++ ops)) = _
    rw [h3, h2]
    simp [CircularBufferREPS.add]

/-- A run of selections in Normal mode with no exploration left and no MQL
grouping, on a buffer that holds at least as many entries: they pop the
buffer in order and draw nothing. -/
theorem run_pop (policy : List Nat → Nat) (xs : List Nat) :
    ∀ (s : UecMpReps) (g : Rand) (args : List (Nat × Nat)) (rest : List Nat),
      s.circular_buffer_reps.frozen_mode = false →
      s.circular_buffer_reps.explore_counter = 0 → s.use_mql = false →
      s.circular_buffer_reps.entries = xs ++ rest → args.length = xs.length →
      ∃ s1, run policy s g (args.map (fun a => RepsOp.nextEntropy a.1 a.2))
          = .ok (xs, s1, g) ∧
        s1.circular_buffer_reps = { s.circular_buffer_reps with entries := rest } := by
  induction xs with
  | nil =>
    intro s g args rest _ _ _ hent hlen
    have : args = [] := List.length_eq_zero.1 hlen
    subst this
    refine ⟨s, rfl, ?_⟩
    simp only [List.nil_append] at hent
    rw [← hent]
  | cons x xs ih =>
    intro s g args rest hnormal hexp hmql hent hlen
    cases args with
    | nil => simp at hlen
    | cons a args =>
      obtain ⟨s1, h1, hb, hm⟩ := nextEntropy_pop policy s g a.1 a.2 x (xs ++ rest) hnormal hexp
        hmql hent
      obtain ⟨s2, h2, hb2⟩ := ih s1 g args rest (by rw [hb]; exact hnormal)
        (by rw [hb]; exact hexp) hm (by rw [hb]) (by simpa using hlen)
      refine ⟨s2, ?_, ?_⟩
      · simp only [List.map_cons, run, h1, h2]
      · rw [hb2, hb]

/-- A selection while `explore_counter` is positive, in closed form. -/
theorem nextEntropy_explore (policy : List Nat → Nat) (s : UecMpReps) (g : Rand) (a b : Nat)
    (hk : 0 < s.circular_buffer_reps.explore_counter) :
    s.nextEntropy policy g a b = .ok (u16 (g 0 % s.no_of_paths),
      countSelection
        { s with
          stats := { s.stats with total_selections := u64 (s.stats.total_selections + 1) }
          circular_buffer_reps :=
            { s.circular_buffer_reps with
              explore_counter := s.circular_buffer_reps.explore_counter - 1 } }
        (u16 (g 0 % s.no_of_paths)), g.next) := by
  simp [nextEntropy, hk]

theorem u16_mod_lt (x n : Nat) (h1 : 1 ≤ n) (h16 : n ≤ 65536) : u16 (x % n) = x % n := by
  have := Nat.mod_lt x (show 0 < n by omega)
  unfold u16
  omega

/-- As many selections in a row as `explore_counter` allows: they return the
successive draws modulo the path count and touch neither the buffer contents
nor the mode nor the grouping. -/
theorem run_explore (policy : List Nat → Nat) (args : List (Nat × Nat)) :
    ∀ (s : UecMpReps) (g : Rand), 1 ≤ s.no_of_paths → s.no_of_paths ≤ 65536 →
      args.length ≤ s.circular_buffer_reps.explore_counter →
      ∃ s1, run policy s g (args.map (fun a => RepsOp.nextEntropy a.1 a.2))
          = .ok ((List.range args.length).map (fun i => g i % s.no_of_paths), s1,
              fun i => g (i + args.length)) ∧
        s1.circular_buffer_reps.explore_counter
          = s.circular_buffer_reps.explore_counter - args.length ∧
        s1.circular_buffer_reps.entries = s.circular_buffer_reps.entries ∧
        s1.circular_buffer_reps.frozen_mode = s.circular_buffer_reps.frozen_mode ∧
        s1.paths_by_mql_level = s.paths_by_mql_level := by
  induction args with
  | nil =>
    intro s g _ _ _
    exact ⟨s, rfl, rfl, rfl, rfl, rfl⟩
  | cons a args ih =>
    intro s g h1 h16 hlen
    simp only [List.length_cons] at hlen
    have hstep := nextEntropy_explore policy s g a.1 a.2 (by omega)
    rw [u16_mod_lt _ _ h1 h16] at hstep
    generalize hs0 : countSelection
        { s with
          stats := { s.stats with total_selections := u64 (s.stats.total_selections + 1) }
          circular_buffer_reps :=
            { s.circular_buffer_reps with
              explore_counter := s.circular_buffer_reps.explore_counter - 1 } }
        (g 0 % s.no_of_paths) = s0 at hstep
    have hn0 : s0.no_of_paths = s.no_of_paths := by rw [← hs0]; rfl
    have hx0 : s0.circular_buffer_reps.explore_counter
        = s.circular_buffer_reps.explore_counter - 1 := by rw [← hs0]; rfl
    have he0 : s0.circular_buffer_reps.entries = s.circular_buffer_reps.entries := by
      rw [← hs0]; rfl
    have hf0 : s0.circular_buffer_reps.frozen_mode = s.circular_buffer_reps.frozen_mode := by
      rw [← hs0]; rfl
    have hg0 : s0.paths_by_mql_level = s.paths_by_mql_level := by rw [← hs0]; rfl
    obtain ⟨s1, hrun, e1, e2, e3, e4⟩ := ih s0 g.next (by rw [hn0]; exact h1)
      (by rw [hn0]; exact h16) (by rw [hx0]; omega)
    have hlist : (List.range (args.length + 1)).map (fun i => g i % s.no_of_paths)
        = g 0 % s.no_of_paths ::
          (List.range args.length).map (fun i => g.next i % s0.no_of_paths) := by
      rw [List.range_succ_eq_map, List.map_cons, List.map_map, hn0]
      rfl
    have hg : (fun i => g (i + (args.length + 1))) = (fun i => g.next (i + args.length)) := by
      funext i
      simp only [Rand.next]
      congr 1
    refine ⟨s1, ?_, by rw [e1, hx0]; simp only [List.length_cons]; omega, by rw [e2, he0],
      by rw [e3, hf0], by rw [e4, hg0]⟩
    have hcall : run policy s g
        (RepsOp.nextEntropy a.1 a.2 :: args.map (fun a => RepsOp.nextEntropy a.1 a.2))
        = .ok (g 0 % s.no_of_paths ::
            (List.range args.length).map (fun i => g.next i % s0.no_of_paths), s1,
            fun i => g.next (i + args.length)) := by
      rw [run]
      simp only [hstep, hrun]
    rw [List.length_cons, hlist, hg]
    exact hcall

end UecMpReps

/-- C7 (on the buffer modelled from the spec as a FIFO): for a Reps selector in
Normal mode with `explore_counter = 0`, MQL grouping disabled and an empty
buffer, after `processEv(p1, GOOD)`, .., `processEv(pk, GOOD)` (at any
simulated times) the next `k` `nextEntropy` calls return `p1`, .., `pk` in
exactly that order. -/
theorem reps_good_feedback_fifo (policy : List Nat → Nat) (s : UecMpReps) (g : Rand)
    (hnormal : s.circular_buffer_reps.frozen_mode = false)
    (hexp : s.circular_buffer_reps.explore_counter = 0) (hmql : s.use_mql = false)
    (hempty : s.circular_buffer_reps.entries = [])
    (evs args : List (Nat × Nat)) (hlen : args.length = evs.length) :
    ∃ s1, UecMpReps.run policy s g
        (evs.map (fun e => RepsOp.processEv e.1 e.2 .PATH_GOOD) ++
          args.map (fun a => RepsOp.nextEntropy a.1 a.2))
      = .ok (evs.map (fun e => e.2), s1, g) := by
  rw [UecMpReps.run_feed policy evs s g _ hnormal hmql]
  obtain ⟨s1, h1, _⟩ := UecMpReps.run_pop policy (evs.map (fun e => e.2))
    { s with circular_buffer_reps :=
        { s.circular_buffer_reps with
          entries := s.circular_buffer_reps.entries ++ evs.map (fun e => e.2) } }
    g args [] hnormal hexp hmql (by simp [hempty]) (by simp [hlen])
  exact ⟨s1, h1⟩

/-- C7 at a concrete selector: path ids 7, 3, 7 reported at times 10, 11, 12
come back in that order. -/
theorem reps_good_feedback_fifo_witness :
    ∃ s1, UecMpReps.run (fun _ => 0) (UecMpReps.create 8 true ⟨[], false, 0, 0, 100⟩)
        (fun i => i)
        ([(10, 7), (11, 3), (12, 7)].map (fun e => RepsOp.processEv e.1 e.2 .PATH_GOOD) ++
          [(0, 8), (1, 8), (2, 8)].map (fun a => RepsOp.nextEntropy a.1 a.2))
      = .ok ([(10, 7), (11, 3), (12, 7)].map (fun e => e.2), s1, fun i => i) :=
  reps_good_feedback_fifo (fun _ => 0) (UecMpReps.create 8 true ⟨[], false, 0, 0, 100⟩)
    (fun i => i) rfl rfl rfl rfl [(10, 7), (11, 3), (12, 7)] [(0, 8), (1, 8), (2, 8)] rfl

/-- C8 (on the buffer modelled from the spec): with trimming enabled,
`processEv(p, TIMEOUT)` at simulated time `now` in Normal mode with
`explore_counter = 0` puts the selector in Frozen mode with exit deadline
`now + exit_freeze_after` and changes nothing else, the buffer contents
included; and `processEv(p, TIMEOUT)` on a selector that is already Frozen, at
a time not past its deadline, changes nothing at all. -/
theorem reps_timeout_freezes (s sf : UecMpReps) (now p now2 p2 : Nat)
    (htrim : s.is_trimming_enabled = true)
    (hnormal : s.circular_buffer_reps.frozen_mode = false)
    (hexp : s.circular_buffer_reps.explore_counter = 0)
    (hfrozen : sf.circular_buffer_reps.frozen_mode = true)
    (hnow2 : now2 ≤ sf.circular_buffer_reps.can_exit_frozen_mode) :
    s.processEv now p .PATH_TIMEOUT
      = .ok { s with circular_buffer_reps :=
                { s.circular_buffer_reps with
                  frozen_mode := true
                  can_exit_frozen_mode := now + s.circular_buffer_reps.exit_freeze_after } } ∧
    sf.processEv now2 p2 .PATH_TIMEOUT = .ok sf := by
  constructor
  · simp [UecMpReps.processEv, UecMpReps.enterFrozen, UecMpReps.exitFrozen,
      CircularBufferREPS.isFrozenMode, CircularBufferREPS.setFrozenMode, htrim, hnormal, hexp]
  · have hn : ¬ (sf.circular_buffer_reps.can_exit_frozen_mode < now2) := by omega
    simp [UecMpReps.processEv, UecMpReps.enterFrozen, UecMpReps.exitFrozen,
      CircularBufferREPS.isFrozenMode, hfrozen, hn]

/-- C8 at concrete selectors: a TIMEOUT at time 50 with freeze duration 100
sets the deadline 150; a second TIMEOUT at time 150 leaves the frozen selector
as it is. -/
theorem reps_timeout_freezes_witness :
    UecMpReps.processEv ⟨8, ⟨[4, 2], false, 0, 0, 100⟩, 0, true, [], false, [], ⟨0, 0, 0, [], []⟩⟩
        50 6 .PATH_TIMEOUT
      = .ok ⟨8, ⟨[4, 2], true, 0, 150, 100⟩, 0, true, [], false, [], ⟨0, 0, 0, [], []⟩⟩ ∧
    UecMpReps.processEv ⟨8, ⟨[4, 2], true, 0, 150, 100⟩, 0, true, [], false, [], ⟨0, 0, 0, [], []⟩⟩
        150 6 .PATH_TIMEOUT
      = .ok ⟨8, ⟨[4, 2], true, 0, 150, 100⟩, 0, true, [], false, [], ⟨0, 0, 0, [], []⟩⟩ :=
  reps_timeout_freezes
    ⟨8, ⟨[4, 2], false, 0, 0, 100⟩, 0, true, [], false, [], ⟨0, 0, 0, [], []⟩⟩
    ⟨8, ⟨[4, 2], true, 0, 150, 100⟩, 0, true, [], false, [], ⟨0, 0, 0, [], []⟩⟩
    50 6 150 6 rfl rfl rfl rfl (by decide)

/-- C9, the claim as stated fails: a Frozen selector whose deadline 150 has
passed receives GOOD feedback for path 5 at time 151; it returns to Normal mode
with `explore_counter = 16`, but its buffer then holds the reported path, so
the state is not the one the claim describes. -/
theorem reps_exit_frozen_buffer_counterexample :
    UecMpReps.processEv
        ⟨8, ⟨[4, 2], true, 0, 150, 100⟩, 0, true, [], false, [], ⟨0, 0, 0, [], []⟩⟩
        151 5 .PATH_GOOD
      = .ok ⟨8, ⟨[5], false, 16, 150, 100⟩, 0, true, [], false, [], ⟨0, 0, 0, [], []⟩⟩ ∧
    ¬ ((⟨8, ⟨[5], false, 16, 150, 100⟩, 0, true, [], false, [], ⟨0, 0, 0, [], []⟩⟩ :
          UecMpReps).circular_buffer_reps.frozen_mode = false ∧
        (⟨8, ⟨[5], false, 16, 150, 100⟩, 0, true, [], false, [], ⟨0, 0, 0, [], []⟩⟩ :
          UecMpReps).circular_buffer_reps.entries = [] ∧
        (⟨8, ⟨[5], false, 16, 150, 100⟩, 0, true, [], false, [], ⟨0, 0, 0, [], []⟩⟩ :
          UecMpReps).circular_buffer_reps.explore_counter = 16 ∧
        (⟨8, ⟨[5], false, 16, 150, 100⟩, 0, true, [], false, [], ⟨0, 0, 0, [], []⟩⟩ :
          UecMpReps).paths_by_mql_level = []) :=
  ⟨rfl, by decide⟩

/-- C9 as amended (on the buffer modelled from the spec): for a Reps selector
in Frozen mode, a `processEv` call (any path id, any feedback kind) made when
simulated time is strictly past the exit deadline succeeds and leaves the
selector in Normal mode with `explore_counter = 16`. For a feedback other than
GOOD the buffer is then empty; for GOOD it holds exactly the reported path id.
With MQL grouping enabled the grouping is then empty, except that after GOOD
for a path whose level is known it holds that path alone, at that level; with
MQL grouping disabled the grouping is left as it was. -/
theorem reps_exit_frozen (s : UecMpReps) (now p : Nat) (f : PathFeedback)
    (hfrozen : s.circular_buffer_reps.frozen_mode = true)
    (hnow : now > s.circular_buffer_reps.can_exit_frozen_mode) :
    ∃ s1, s.processEv now p f = .ok s1 ∧
      s1.circular_buffer_reps.frozen_mode = false ∧
      s1.circular_buffer_reps.explore_counter = 16 ∧
      s1.circular_buffer_reps.entries = (if f = .PATH_GOOD then [p] else []) ∧
      s1.paths_by_mql_level =
        (if s.use_mql = true then
          (if f = .PATH_GOOD then
            (match mapGet? s.path_mql_map p with
             | some level => [(level, [p])]
             | none => [])
           else [])
         else s.paths_by_mql_level) := by
  have henter : s.enterFrozen now f = .ok s := by
    simp [UecMpReps.enterFrozen, CircularBufferREPS.isFrozenMode, hfrozen]
  have hexit : s.exitFrozen now =
      { s with
        circular_buffer_reps :=
          { s.circular_buffer_reps with frozen_mode := false, entries := [], explore_counter := 16 }
        paths_by_mql_level := if s.use_mql then [] else s.paths_by_mql_level } := by
    simp [UecMpReps.exitFrozen, CircularBufferREPS.isFrozenMode, hfrozen, hnow,
      CircularBufferREPS.setFrozenMode, CircularBufferREPS.resetBuffer]
  by_cases hf : f = .PATH_GOOD
  · subst hf
    by_cases hm : s.use_mql = true
    · cases hl : mapGet? s.path_mql_map p with
      | none =>
        refine ⟨_, by simp only [UecMpReps.processEv, henter, hexit]; rfl, ?_, ?_, ?_, ?_⟩ <;>
          simp [UecMpReps.recordGood, CircularBufferREPS.isFrozenMode, CircularBufferREPS.add,
            hm, hl]
      | some level =>
        refine ⟨_, by simp only [UecMpReps.processEv, henter, hexit]; rfl, ?_, ?_, ?_, ?_⟩ <;>
          simp [UecMpReps.recordGood, CircularBufferREPS.isFrozenMode, CircularBufferREPS.add,
            UecMpReps.addPathToGrouping, UecMpReps.removePathFromGrouping,
            UecMpReps.removeFromLevels, CircularBufferREPS.containsEntropy, UecMpReps.mapGet?_nil, mapSet,
            hm, hl]
    · have hm2 : s.use_mql = false := by simpa using hm
      refine ⟨_, by simp only [UecMpReps.processEv, henter, hexit]; rfl, ?_, ?_, ?_, ?_⟩ <;>
        simp [UecMpReps.recordGood, CircularBufferREPS.isFrozenMode, CircularBufferREPS.add,
          hm2]
  · refine ⟨{ s with
        circular_buffer_reps :=
          { s.circular_buffer_reps with frozen_mode := false, entries := [], explore_counter := 16 }
        paths_by_mql_level := if s.use_mql then [] else s.paths_by_mql_level },
      by simp [UecMpReps.processEv, henter, hexit, hf], ?_, ?_, ?_, ?_⟩ <;>
      simp [hf]

/-- C9 as amended, at a concrete selector: ECN feedback past the deadline
empties the buffer. -/
theorem reps_exit_frozen_witness :
    ∃ s1, UecMpReps.processEv
          ⟨8, ⟨[4, 2], true, 0, 150, 100⟩, 0, true, [(4, 1)], true, [(1, [4])],
            ⟨0, 0, 0, [], []⟩⟩ 151 5 .PATH_ECN = .ok s1 ∧
      s1.circular_buffer_reps.frozen_mode = false ∧
      s1.circular_buffer_reps.explore_counter = 16 ∧
      s1.circular_buffer_reps.entries
        = (if PathFeedback.PATH_ECN = .PATH_GOOD then [5] else []) ∧
      s1.paths_by_mql_level =
        (if true = true then
          (if PathFeedback.PATH_ECN = .PATH_GOOD then
            (match mapGet? [(4, 1)] 5 with
             | some level => [(level, [5])]
             | none => [])
           else [])
         else [(1, [4])]) :=
  reps_exit_frozen
    ⟨8, ⟨[4, 2], true, 0, 150, 100⟩, 0, true, [(4, 1)], true, [(1, [4])], ⟨0, 0, 0, [], []⟩⟩
    151 5 .PATH_ECN rfl (by decide)

/-- C10: for every Reps selector state with `explore_counter = k > 0` (Normal or
Frozen, any buffer and grouping contents, MQL grouping enabled or not) and a
`uint16_t` path count of at least one, `nextEntropy` returns the random draw
modulo `no_of_paths`, sets `explore_counter` to `k - 1` and leaves the buffer
contents, the mode and the MQL grouping unchanged; hence any run of at most `k`
selections returns the successive draws modulo `no_of_paths` with the buffer
contents, the mode and the grouping untouched. -/
theorem reps_explore_selection (policy : List Nat → Nat) (s : UecMpReps) (g : Rand)
    (a b : Nat) (h1 : 1 ≤ s.no_of_paths) (h16 : s.no_of_paths ≤ 65536)
    (hk : 0 < s.circular_buffer_reps.explore_counter) :
    (∃ s1, s.nextEntropy policy g a b = .ok (g 0 % s.no_of_paths, s1, g.next) ∧
      s1.circular_buffer_reps.explore_counter = s.circular_buffer_reps.explore_counter - 1 ∧
      s1.circular_buffer_reps.entries = s.circular_buffer_reps.entries ∧
      s1.circular_buffer_reps.frozen_mode = s.circular_buffer_reps.frozen_mode ∧
      s1.paths_by_mql_level = s.paths_by_mql_level) ∧
    (∀ args : List (Nat × Nat), args.length ≤ s.circular_buffer_reps.explore_counter →
      ∃ s1, UecMpReps.run policy s g (args.map (fun a => RepsOp.nextEntropy a.1 a.2))
          = .ok ((List.range args.length).map (fun i => g i % s.no_of_paths), s1,
              fun i => g (i + args.length)) ∧
        s1.circular_buffer_reps.explore_counter
          = s.circular_buffer_reps.explore_counter - args.length ∧
        s1.circular_buffer_reps.entries = s.circular_buffer_reps.entries ∧
        s1.circular_buffer_reps.frozen_mode = s.circular_buffer_reps.frozen_mode ∧
        s1.paths_by_mql_level = s.paths_by_mql_level) := by
  refine ⟨⟨UecMpReps.countSelection
        { s with
          stats := { s.stats with total_selections := u64 (s.stats.total_selections + 1) }
          circular_buffer_reps :=
            { s.circular_buffer_reps with
              explore_counter := s.circular_buffer_reps.explore_counter - 1 } }
        (g 0 % s.no_of_paths), ?_, rfl, rfl, rfl, rfl⟩, fun args hlen =>
    UecMpReps.run_explore policy args s g h1 h16 hlen⟩
  rw [UecMpReps.nextEntropy_explore policy s g a b hk, UecMpReps.u16_mod_lt _ _ h1 h16]

/-- C10 at a concrete selector: Frozen, MQL grouping enabled and non-empty,
`explore_counter = 16`. -/
theorem reps_explore_selection_witness :
    (∃ s1, UecMpReps.nextEntropy (fun _ => 0)
          ⟨8, ⟨[4, 2], true, 16, 150, 100⟩, 0, true, [(4, 1)], true, [(1, [4])],
            ⟨0, 0, 0, [], []⟩⟩ (fun i => 13 + i) 0 8
        = .ok ((fun i => 13 + i) 0 % 8, s1, Rand.next (fun i => 13 + i)) ∧
      s1.circular_buffer_reps.explore_counter = 16 - 1 ∧
      s1.circular_buffer_reps.entries = [4, 2] ∧
      s1.circular_buffer_reps.frozen_mode = true ∧
      s1.paths_by_mql_level = [(1, [4])]) ∧
    (∀ args : List (Nat × Nat), args.length ≤ 16 →
      ∃ s1, UecMpReps.run (fun _ => 0)
            ⟨8, ⟨[4, 2], true, 16, 150, 100⟩, 0, true, [(4, 1)], true, [(1, [4])],
              ⟨0, 0, 0, [], []⟩⟩ (fun i => 13 + i)
            (args.map (fun a => RepsOp.nextEntropy a.1 a.2))
          = .ok ((List.range args.length).map (fun i => (fun i => 13 + i) i % 8), s1,
              fun i => (fun i => 13 + i) (i + args.length)) ∧
        s1.circular_buffer_reps.explore_counter = 16 - args.length ∧
        s1.circular_buffer_reps.entries = [4, 2] ∧
        s1.circular_buffer_reps.frozen_mode = true ∧
        s1.paths_by_mql_level = [(1, [4])]) :=
  reps_explore_selection (fun _ => 0)
    ⟨8, ⟨[4, 2], true, 16, 150, 100⟩, 0, true, [(4, 1)], true, [(1, [4])], ⟨0, 0, 0, [], []⟩⟩
    (fun i => 13 + i) 0 8 (by decide) (by decide) (by decide)

/-! ## RepsLegacy -/

namespace UecMpRepsLegacy

theorem succ_mod_step (c n : Nat) (h1 : 1 ≤ n) :
    (if c % n + 1 = n then 0 else c % n + 1) = (c + 1) % n := by
  have hlt := Nat.mod_lt c (show 0 < n by omega)
  rcases Nat.lt_or_ge 1 n with hn | hn
  · have h : (c + 1) % n = (c % n + 1) % n := by
      conv_lhs => rw [Nat.add_mod, Nat.mod_eq_of_lt hn]
    rw [h]
    split
    · rename_i h2
      rw [h2, Nat.mod_self]
    · exact (Nat.mod_eq_of_lt (by omega : c % n + 1 < n)).symm
  · have : n = 1 := by omega
    subst this
    simp [Nat.mod_one]

/-- A call in the first window moves `_crt_path` one step round the paths and
returns it, whatever the queue holds. -/
theorem nextEntropy_window (s : UecMpRepsLegacy) (g : Rand) (a b c : Nat)
    (h1 : 1 ≤ s.no_of_paths) (h16 : s.no_of_paths < 65536)
    (hc : s.crt_path = c % s.no_of_paths) (hw : a < min b s.no_of_paths) :
    s.nextEntropy g a b = .ok ((c + 1) % s.no_of_paths,
      { s with crt_path := (c + 1) % s.no_of_paths }, g) := by
  have hlt := Nat.mod_lt c (show 0 < s.no_of_paths by omega)
  have hu : u16 (c % s.no_of_paths + 1) = c % s.no_of_paths + 1 := by
    unfold u16; omega
  simp only [nextEntropy, hw, if_true, hc, hu, succ_mod_step c s.no_of_paths h1]

/-- A run of calls in the first window: the `nextEntropy` calls return the
successive values of a counter modulo the path count. -/
theorem run_window (n : Nat) (h1 : 1 ≤ n) (h16 : n < 65536) (ops : List Op) :
    ∀ (s : UecMpRepsLegacy) (g : Rand) (c : Nat), s.no_of_paths = n → s.crt_path = c % n →
      (∀ o ∈ ops, o.inWindow n = true) →
      ∃ s1, s.run g ops
        = .ok ((List.range' (c + 1) (ops.filter Op.isNext).length).map (fun i => i % n), s1, g) := by
  induction ops with
  | nil =>
    intro s g c _ _ _
    exact ⟨s, rfl⟩
  | cons o ops ih =>
    intro s g c hn hc hwin
    have hrest : ∀ o ∈ ops, o.inWindow n = true :=
      fun o ho => hwin o (List.mem_cons_of_mem _ ho)
    cases o with
    | processEv p f =>
      obtain ⟨s1, hs1⟩ := ih (s.processEv p f) g c
        (by unfold processEv; split <;> exact hn)
        (by unfold processEv; split <;> exact hc) hrest
      exact ⟨s1, by simp only [run, List.filter, Op.isNext]; exact hs1⟩
    | nextEntropy a b =>
      have hw : a < min b s.no_of_paths := by
        have := hwin _ (List.mem_cons_self _ _)
        simp only [Op.inWindow, decide_eq_true_eq] at this
        rw [hn]; exact this
      have hstep := nextEntropy_window s g a b c (by rw [hn]; exact h1) (by rw [hn]; exact h16)
        (by rw [hn]; exact hc) hw
      rw [hn] at hstep
      obtain ⟨s1, hs1⟩ := ih ⟨n, (c + 1) % n, s.next_pathid⟩ g (c + 1) rfl rfl hrest
      refine ⟨s1, ?_⟩
      rw [run]
      simp only [hstep, hs1, List.filter, Op.isNext, List.length_cons, List.range'_succ,
        List.map_cons]

theorem window_order_perm (n : Nat) (h1 : 1 ≤ n) :
    ((List.range' 1 n).map (fun i => i % n)).Perm (List.range n) := by
  obtain ⟨m, rfl⟩ : ∃ m, n = m + 1 := ⟨n - 1, by omega⟩
  have hmap : (List.range' 1 m).map (fun i => i % (m + 1)) = List.range' 1 m := by
    conv_rhs => rw [← List.map_id (List.range' 1 m)]
    apply List.map_congr_left
    intro i hi
    rw [List.mem_range'_1] at hi
    simp only [id]
    exact Nat.mod_eq_of_lt (by omega)
  rw [List.range'_1_concat, List.map_append, hmap, List.map_singleton,
    show (1 + m) % (m + 1) = 0 by rw [Nat.add_comm]; exact Nat.mod_self _,
    List.range_eq_range', List.range'_succ]
  exact List.perm_append_comm

end UecMpRepsLegacy

/-- C16: for a RepsLegacy selector with `n >= 1` paths whose `_crt_path` is 0
(in particular a freshly constructed one), whatever its recycle queue holds and
whatever `processEv` calls are interleaved: if each of the next `n`
`nextEntropy` calls has `seq_sent < min(cur_cwnd_in_pkts, n)`, the `k`-th of them
(`k = 1..n`) returns `k mod n`, and the `n` values are a permutation of
`[0, n)`. -/
theorem repsLegacy_first_window (s : UecMpRepsLegacy) (g : Rand) (ops : List Op)
    (h1 : 1 ≤ s.no_of_paths) (h16 : s.no_of_paths < 65536) (hcrt : s.crt_path = 0)
    (hwin : ∀ o ∈ ops, o.inWindow s.no_of_paths = true)
    (hcalls : (ops.filter Op.isNext).length = s.no_of_paths) :
    (∃ s1, s.run g ops
      = .ok ((List.range' 1 s.no_of_paths).map (fun k => k % s.no_of_paths), s1, g)) ∧
    ((List.range' 1 s.no_of_paths).map (fun k => k % s.no_of_paths)).Perm
      (List.range s.no_of_paths) := by
  refine ⟨?_, UecMpRepsLegacy.window_order_perm _ h1⟩
  obtain ⟨s1, hs1⟩ := UecMpRepsLegacy.run_window s.no_of_paths h1 h16 ops s g 0 rfl
    (by rw [hcrt, Nat.zero_mod]) hwin
  rw [hcalls] at hs1
  exact ⟨s1, hs1⟩

/-- C16 at a concrete selector: four paths, a fresh selector, GOOD and NACK
feedback between the four calls of the first window. -/
theorem repsLegacy_first_window_witness :
    (∃ s1, UecMpRepsLegacy.run (UecMpRepsLegacy.create 4) (fun i => i)
        [.nextEntropy 0 10, .processEv 3 .PATH_GOOD, .nextEntropy 1 10, .nextEntropy 2 10,
         .processEv 1 .PATH_NACK, .nextEntropy 3 10]
      = .ok ((List.range' 1 4).map (fun k => k % 4), s1, fun i => i)) ∧
    ((List.range' 1 4).map (fun k => k % 4)).Perm (List.range 4) :=
  repsLegacy_first_window (UecMpRepsLegacy.create 4) (fun i => i)
    [.nextEntropy 0 10, .processEv 3 .PATH_GOOD, .nextEntropy 1 10, .nextEntropy 2 10,
     .processEv 1 .PATH_NACK, .nextEntropy 3 10]
    (by decide) (by decide) rfl (by decide) (by decide)

namespace UecMpRepsLegacy

/-- GOOD feedbacks at the head of a run append their path ids to the queue, in
order and with no deduplication. -/
theorem run_good (ps : List Nat) :
    ∀ (s : UecMpRepsLegacy) (g : Rand) (ops : List Op),
      s.run g (ps.map (fun p => Op.processEv p .PATH_GOOD) ++ ops)
        = run { s with next_pathid := s.next_pathid ++ ps } g ops := by
  induction ps with
  | nil =>
    intro s g ops
    simp
  | cons p ps ih =>
    intro s g ops
    have h : s.run g (Op.processEv p .PATH_GOOD ::
          (ps.map (fun p => Op.processEv p .PATH_GOOD) ++ ops))
        = run { s with next_pathid := s.next_pathid ++ [p] } g
          (ps.map (fun p => Op.processEv p .PATH_GOOD) ++ ops) := by
      rw [run]
      simp [processEv]
    show s.run g (Op.processEv p .PATH_GOOD ::
          (ps.map (fun p => Op.processEv p .PATH_GOOD) ++ ops)) = _
    rw [h, ih]
    simp

/-- A steady-state call on a non-empty queue pops its head. -/
theorem nextEntropy_steady (s : UecMpRepsLegacy) (g : Rand) (a b front : Nat)
    (rest : List Nat) (hq : s.next_pathid = front :: rest)
    (hs : ¬ a < min b s.no_of_paths) :
    s.nextEntropy g a b = .ok (front, { s with crt_path := front, next_pathid := rest }, g) := by
  simp only [nextEntropy, hs, if_false, hq]

/-- Steady-state calls on a queue that holds at least as many entries pop it in
order. -/
theorem run_steady (ps : List Nat) :
    ∀ (s : UecMpRepsLegacy) (g : Rand) (args : List (Nat × Nat)) (rest : List Nat),
      s.next_pathid = ps ++ rest → args.length = ps.length →
      (∀ a ∈ args, ¬ a.1 < min a.2 s.no_of_paths) →
      ∃ s1, s.run g (args.map (fun a => Op.nextEntropy a.1 a.2)) = .ok (ps, s1, g) ∧
        s1.next_pathid = rest := by
  induction ps with
  | nil =>
    intro s g args rest hq hlen _
    have : args = [] := List.length_eq_zero.1 hlen
    subst this
    exact ⟨s, rfl, by simpa using hq⟩
  | cons p ps ih =>
    intro s g args rest hq hlen hs
    cases args with
    | nil => simp at hlen
    | cons a args =>
      have hstep := nextEntropy_steady s g a.1 a.2 p (ps ++ rest) hq
        (hs a (List.mem_cons_self _ _))
      obtain ⟨s1, hs1, hr⟩ := ih { s with crt_path := p, next_pathid := ps ++ rest } g args rest
        rfl (by simpa using hlen) (fun x hx => hs x (List.mem_cons_of_mem _ hx))
      refine ⟨s1, ?_, hr⟩
      show s.run g (Op.nextEntropy a.1 a.2 :: args.map (fun a => Op.nextEntropy a.1 a.2)) = _
      rw [run]
      simp only [hstep, hs1]

end UecMpRepsLegacy

/-- C17: on a RepsLegacy selector `processEv(p, f)` appends `p` to the tail of
the recycle queue exactly when `f` is GOOD (no deduplication, no bound) and
changes nothing for ECN, NACK and TIMEOUT; a steady-state `nextEntropy` call
(`seq_sent >= min(cur_cwnd_in_pkts, n)`) on a non-empty queue returns the queue
head and removes it; hence GOOD feedbacks for `p1..pk` on an empty queue
followed by `k` steady-state calls return `p1..pk` in order, duplicates
included. -/
theorem repsLegacy_recycle_fifo (s : UecMpRepsLegacy) (g : Rand) (ps : List Nat)
    (args : List (Nat × Nat)) (hempty : s.next_pathid = []) (hlen : args.length = ps.length)
    (hsteady : ∀ a ∈ args, ¬ a.1 < min a.2 s.no_of_paths) :
    (∀ (t : UecMpRepsLegacy) (p : Nat),
      t.processEv p .PATH_GOOD = { t with next_pathid := t.next_pathid ++ [p] } ∧
      t.processEv p .PATH_ECN = t ∧ t.processEv p .PATH_NACK = t ∧
      t.processEv p .PATH_TIMEOUT = t) ∧
    (∀ (t : UecMpRepsLegacy) (h : Rand) (a b front : Nat) (rest : List Nat),
      t.next_pathid = front :: rest → ¬ a < min b t.no_of_paths →
      t.nextEntropy h a b = .ok (front, { t with crt_path := front, next_pathid := rest }, h)) ∧
    (∃ s1, s.run g (ps.map (fun p => Op.processEv p .PATH_GOOD) ++
        args.map (fun a => Op.nextEntropy a.1 a.2)) = .ok (ps, s1, g)) := by
  refine ⟨fun t p => ⟨rfl, rfl, rfl, rfl⟩,
    fun t h a b front rest hq hs => UecMpRepsLegacy.nextEntropy_steady t h a b front rest hq hs,
    ?_⟩
  rw [UecMpRepsLegacy.run_good]
  obtain ⟨s1, hs1, _⟩ := UecMpRepsLegacy.run_steady ps
    { s with next_pathid := s.next_pathid ++ ps } g args [] (by simp [hempty]) hlen hsteady
  exact ⟨s1, hs1⟩

/-- C17 at a concrete selector: paths 6, 2, 6 reported GOOD come back in that
order from three calls past the first window. -/
theorem repsLegacy_recycle_fifo_witness :
    (∀ (t : UecMpRepsLegacy) (p : Nat),
      t.processEv p .PATH_GOOD = { t with next_pathid := t.next_pathid ++ [p] } ∧
      t.processEv p .PATH_ECN = t ∧ t.processEv p .PATH_NACK = t ∧
      t.processEv p .PATH_TIMEOUT = t) ∧
    (∀ (t : UecMpRepsLegacy) (h : Rand) (a b front : Nat) (rest : List Nat),
      t.next_pathid = front :: rest → ¬ a < min b t.no_of_paths →
      t.nextEntropy h a b = .ok (front, { t with crt_path := front, next_pathid := rest }, h)) ∧
    (∃ s1, UecMpRepsLegacy.run (UecMpRepsLegacy.create 8) (fun i => i)
        ([6, 2, 6].map (fun p => Op.processEv p .PATH_GOOD) ++
          [(8, 8), (9, 8), (10, 8)].map (fun a => Op.nextEntropy a.1 a.2))
      = .ok ([6, 2, 6], s1, fun i => i)) :=
  repsLegacy_recycle_fifo (UecMpRepsLegacy.create 8) (fun i => i) [6, 2, 6]
    [(8, 8), (9, 8), (10, 8)] rfl rfl (by decide)

/-! ## Mixed -/

/-- C18: for every Mixed selector state the source's `nextEntropy` is the
selection of its description. With a non-empty recycle queue it returns the
queue head, the queue afterwards is the old queue without that head, and the
Bitmap component and the random stream are untouched; with an empty queue its
result is the result of the Bitmap component's `nextEntropy` on the same Bitmap
state and draws: the same value, the same final Bitmap state, the same
remaining stream, or the same failure. -/
theorem mixed_nextEntropy_refines (s : UecMpMixed) (g : Rand) (a b : Nat) :
    s.nextEntropy g a b = s.nextEntropySpec g a b ∧
    (∀ front rest, s.reps_legacy.next_pathid = front :: rest →
      ∃ s1, s.nextEntropy g a b = .ok (front, s1, g) ∧ s1.reps_legacy.next_pathid = rest ∧
        s1.bitmap = s.bitmap) ∧
    (s.reps_legacy.next_pathid = [] →
      (∀ r, s.bitmap.nextEntropy g a b = .ok r →
        s.nextEntropy g a b
          = .ok (r.1, { bitmap := r.2.1, reps_legacy := s.reps_legacy }, r.2.2)) ∧
      (∀ e, s.bitmap.nextEntropy g a b = .error e → s.nextEntropy g a b = .error e)) := by
  refine ⟨?_, ?_, ?_⟩
  · cases hq : s.reps_legacy.next_pathid with
    | nil =>
      simp only [UecMpMixed.nextEntropy, UecMpMixed.nextEntropySpec,
        UecMpRepsLegacy.nextEntropyRecycle, hq]
    | cons front rest =>
      simp only [UecMpMixed.nextEntropy, UecMpMixed.nextEntropySpec,
        UecMpRepsLegacy.nextEntropyRecycle, hq]
  · intro front rest hq
    exact ⟨{ s with reps_legacy := { s.reps_legacy with crt_path := front, next_pathid := rest } },
      by simp only [UecMpMixed.nextEntropy, UecMpRepsLegacy.nextEntropyRecycle, hq], rfl, rfl⟩
  · intro hq
    constructor
    · intro r hr
      simp only [UecMpMixed.nextEntropy, UecMpRepsLegacy.nextEntropyRecycle, hq, hr]
    · intro e he
      simp only [UecMpMixed.nextEntropy, UecMpRepsLegacy.nextEntropyRecycle, hq, he]

/-! ## Ecmp -/

namespace UecMpEcmp

theorem run_constant (ops : List Op) : ∀ (s : UecMpEcmp),
    (s.run ops).1 = List.replicate (ops.filter Op.isNext).length s.crt_path ∧
    (s.run ops).2 = s := by
  induction ops with
  | nil => intro s; exact ⟨rfl, rfl⟩
  | cons o ops ih =>
    intro s
    cases o with
    | processEv p f =>
      simp only [run, processEv, List.filter, Op.isNext]
      exact ih s
    | nextEntropy a b =>
      simp only [run, nextEntropy, List.filter, Op.isNext, List.length_cons,
        List.replicate_succ, (ih s).1, (ih s).2, and_self]

end UecMpEcmp

/-- C19: for an Ecmp selector constructed with a `uint16_t` path count
`n >= 1`, every `nextEntropy` call of any run returns the same value, the path
chosen at construction, which is the first random draw modulo `n` and hence
below `n`; this holds whatever the arguments of the calls and whatever
`processEv` calls are interleaved, and the state never changes. -/
theorem ecmp_constant_path (n : Nat) (g : Rand) (ops : List Op) (h1 : 1 ≤ n)
    (h16 : n < 65536) :
    ((UecMpEcmp.create n g).1.run ops).1
      = List.replicate (ops.filter Op.isNext).length (g 0 % n) ∧
    ((UecMpEcmp.create n g).1.run ops).2 = (UecMpEcmp.create n g).1 ∧
    g 0 % n < n := by
  have hlt := Nat.mod_lt (g 0) (show 0 < n by omega)
  have hu : u16 (g 0 % n) = g 0 % n := by unfold u16; omega
  have h := UecMpEcmp.run_constant ops (UecMpEcmp.create n g).1
  refine ⟨?_, h.2, hlt⟩
  rw [h.1]
  simp only [UecMpEcmp.create, hu]

/-- C19 at a concrete selector: eight paths, first draw 29, so path 5 on every
call. -/
theorem ecmp_constant_path_witness :
    ((UecMpEcmp.create 8 (fun i => 29 + i)).1.run
        [.nextEntropy 0 1, .processEv 3 .PATH_TIMEOUT, .nextEntropy 7 2, .nextEntropy 9 9]).1
      = List.replicate
          ([Op.nextEntropy 0 1, .processEv 3 .PATH_TIMEOUT, .nextEntropy 7 2,
            .nextEntropy 9 9].filter Op.isNext).length ((fun i => 29 + i) 0 % 8) ∧
    ((UecMpEcmp.create 8 (fun i => 29 + i)).1.run
        [.nextEntropy 0 1, .processEv 3 .PATH_TIMEOUT, .nextEntropy 7 2, .nextEntropy 9 9]).2
      = (UecMpEcmp.create 8 (fun i => 29 + i)).1 ∧
    (fun i => 29 + i) 0 % 8 < 8 :=
  ecmp_constant_path 8 (fun i => 29 + i)
    [.nextEntropy 0 1, .processEv 3 .PATH_TIMEOUT, .nextEntropy 7 2, .nextEntropy 9 9]
    (by decide) (by decide)

/-! ## The salt of Oblivious and Bitmap entropy values -/

/-- The bits above the mask of an entropy value are those of the salt (the
complement is taken in 16 bits). -/
theorem high_bits_or_upperBits (e r k : Nat) (hk : k ≤ 16) :
    ((e &&& (2 ^ k - 1)) ||| upperBits r (2 ^ k - 1)) &&& (65535 ^^^ (2 ^ k - 1))
      = r &&& (65535 ^^^ (2 ^ k - 1)) := by
  have h16 : (65535 : Nat) = 2 ^ 16 - 1 := by norm_num
  rw [h16]
  apply Nat.eq_of_testBit_eq
  intro i
  simp only [upperBits, Nat.testBit_and, Nat.testBit_or, Nat.testBit_xor,
    Nat.testBit_two_pow_sub_one]
  by_cases hik : i < k
  · have hi16 : i < 16 := by omega
    simp [hik, hi16]
  · simp [hik]

/-- C20: for a power-of-two path count `n = 2^k` (a `uint16_t`), the value `v`
that `nextEntropy` returns on an Oblivious selector, and on a Bitmap selector
that satisfies its invariant, has `v & ~(n-1) = path_random & ~(n-1)` (the
complement taken in 16 bits) and `v & (n-1)` equal to the chosen path id, which
is below `n`: the candidate at the index for Oblivious, the candidate on which
the skip loop ends for Bitmap. Neither `nextEntropy` nor `processEv` changes
`path_random`. -/
theorem entropy_salt_fixed (k : Nat) (hk : k ≤ 15) (so : UecMpOblivious) (sb : UecMpBitmap)
    (hno : so.no_of_paths = 2 ^ k) (hnb : sb.no_of_paths = 2 ^ k) (hinv : UecMpBitmap.Inv sb)
    (g : Rand) (a b p : Nat) (f : PathFeedback) :
    ((so.nextEntropy g a b).1 &&& (65535 ^^^ (2 ^ k - 1))
        = so.path_random &&& (65535 ^^^ (2 ^ k - 1)) ∧
      (so.nextEntropy g a b).1 &&& (2 ^ k - 1)
        = cand so.current_ev_index so.path_xor (2 ^ k - 1) ∧
      cand so.current_ev_index so.path_xor (2 ^ k - 1) < 2 ^ k ∧
      (so.nextEntropy g a b).2.1.path_random = so.path_random ∧
      (so.processEv p f).path_random = so.path_random) ∧
    (∃ w, UecMpBitmap.skipWalk (sb.no_of_paths + 1) (sb.startWalk g) = .ok w ∧
      sb.nextEntropy g a b = .ok (UecMpBitmap.finish w) ∧
      (UecMpBitmap.finish w).1 &&& (65535 ^^^ (2 ^ k - 1))
        = sb.path_random &&& (65535 ^^^ (2 ^ k - 1)) ∧
      (UecMpBitmap.finish w).1 &&& (2 ^ k - 1) = w.entropy ∧ w.entropy < 2 ^ k ∧
      (UecMpBitmap.finish w).2.1.path_random = sb.path_random) ∧
    (∃ s1, sb.processEv p f = .ok s1 ∧ s1.path_random = sb.path_random) := by
  refine ⟨⟨?_, UecMpOblivious.obl_nextEntropy_low k hk so g a b hno, cand_lt _ _ _, ?_, rfl⟩,
    ?_, ?_⟩
  · simp only [UecMpOblivious.nextEntropy, hno, maskOf_two_pow k hk, cand]
    exact high_bits_or_upperBits _ _ k (by omega)
  · by_cases h : u16 (so.current_ev_index + 1) = so.no_of_paths <;>
      simp [UecMpOblivious.nextEntropy, h]
  · obtain ⟨w, hw, e1, e2, e3, e4, e5, e6, e7, e8, e9, e10, e11, e12⟩ :=
      UecMpBitmap.skipWalk_start (sb.no_of_paths + 1) sb g hinv.paths_pos hinv.paths_u16
        hinv.size hinv.count (Nat.le_refl _)
    have hmask : maskOf sb.no_of_paths = 2 ^ k - 1 := by rw [hnb]; exact maskOf_two_pow k hk
    rw [hmask] at e12
    refine ⟨w, hw, by simp only [UecMpBitmap.nextEntropy, UecMpBitmap.nextEntropyFuel, hw],
      ?_, ?_, by rw [← hnb]; exact e6, ?_⟩
    · simp only [UecMpBitmap.finish, e1, e2, hmask]
      rw [e12]
      exact high_bits_or_upperBits _ _ k (by omega)
    · simp only [UecMpBitmap.finish, e1, hmask]
      rw [e12]
      exact low_bits_or_upperBits _ _ _
    · simp only [UecMpBitmap.finish, (UecMpBitmap.advanceIndex_frame w.sel w.g).2.1, e2]
  · obtain ⟨old, _, _, hr⟩ := UecMpBitmap.processEv_eq sb hinv p f
    exact ⟨_, hr, rfl⟩

/-- C20 at concrete selectors: four paths and salt `0xabcd`; an Oblivious
selector at index 1 and a Bitmap selector whose first candidate is
penalized. -/
theorem entropy_salt_fixed_witness :
    (((⟨4, 0xabcd, 2, 1⟩ : UecMpOblivious).nextEntropy (fun i => i) 0 0).1 &&&
          (65535 ^^^ (2 ^ 2 - 1))
        = 0xabcd &&& (65535 ^^^ (2 ^ 2 - 1)) ∧
      ((⟨4, 0xabcd, 2, 1⟩ : UecMpOblivious).nextEntropy (fun i => i) 0 0).1 &&& (2 ^ 2 - 1)
        = cand 1 2 (2 ^ 2 - 1) ∧
      cand 1 2 (2 ^ 2 - 1) < 2 ^ 2 ∧
      ((⟨4, 0xabcd, 2, 1⟩ : UecMpOblivious).nextEntropy (fun i => i) 0 0).2.1.path_random
        = 0xabcd ∧
      ((⟨4, 0xabcd, 2, 1⟩ : UecMpOblivious).processEv 3 .PATH_ECN).path_random = 0xabcd) ∧
    (∃ w, UecMpBitmap.skipWalk (4 + 1)
          (UecMpBitmap.startWalk ⟨4, 0xabcd, 2, 1, [0, 0, 0, 3], 1, 15⟩ (fun i => i)) = .ok w ∧
      UecMpBitmap.nextEntropy ⟨4, 0xabcd, 2, 1, [0, 0, 0, 3], 1, 15⟩ (fun i => i) 0 0
        = .ok (UecMpBitmap.finish w) ∧
      (UecMpBitmap.finish w).1 &&& (65535 ^^^ (2 ^ 2 - 1))
        = 0xabcd &&& (65535 ^^^ (2 ^ 2 - 1)) ∧
      (UecMpBitmap.finish w).1 &&& (2 ^ 2 - 1) = w.entropy ∧ w.entropy < 2 ^ 2 ∧
      (UecMpBitmap.finish w).2.1.path_random = 0xabcd) ∧
    (∃ s1, UecMpBitmap.processEv ⟨4, 0xabcd, 2, 1, [0, 0, 0, 3], 1, 15⟩ 3 .PATH_ECN = .ok s1 ∧
      s1.path_random = 0xabcd) :=
  entropy_salt_fixed 2 (by decide) ⟨4, 0xabcd, 2, 1⟩ ⟨4, 0xabcd, 2, 1, [0, 0, 0, 3], 1, 15⟩
    rfl rfl ⟨by decide, by decide, rfl, rfl, by decide, rfl, by decide⟩ (fun i => i) 0 0 3
    .PATH_ECN

/-! ## Reps: the fatal exit -/

/-- C11: `processEv` on a Reps selector ends in the fatal exit if and only if
the feedback is TIMEOUT, the selector is not Frozen, `explore_counter` is 0 and
trimming is disabled; in every other case (TIMEOUT while exploring or while
already Frozen included) it returns normally, and it has no other way to
fail. -/
theorem reps_processEv_fatal_iff (s : UecMpReps) (now p : Nat) (f : PathFeedback) :
    (s.processEv now p f = .error .fatalExit ↔
      (f = .PATH_TIMEOUT ∧ s.circular_buffer_reps.frozen_mode = false ∧
        s.circular_buffer_reps.explore_counter = 0 ∧ s.is_trimming_enabled = false)) ∧
    (¬ (f = .PATH_TIMEOUT ∧ s.circular_buffer_reps.frozen_mode = false ∧
        s.circular_buffer_reps.explore_counter = 0 ∧ s.is_trimming_enabled = false) →
      ∃ s1, s.processEv now p f = .ok s1) := by
  have hok : ∀ s1, s.enterFrozen now f = .ok s1 → ∃ s2, s.processEv now p f = .ok s2 := by
    intro s1 h1
    simp only [UecMpReps.processEv, h1]
    split
    · exact ⟨_, rfl⟩
    · split
      · exact ⟨_, rfl⟩
      · exact ⟨_, rfl⟩
  by_cases hc : f = .PATH_TIMEOUT ∧ s.circular_buffer_reps.isFrozenMode = false ∧
      s.circular_buffer_reps.explore_counter = 0
  · by_cases ht : s.is_trimming_enabled = true
    · have h1 : s.enterFrozen now f = .ok
          { s with circular_buffer_reps :=
              { s.circular_buffer_reps.setFrozenMode true with
                can_exit_frozen_mode := now + s.circular_buffer_reps.exit_freeze_after } } := by
        simp only [UecMpReps.enterFrozen, hc, and_self, if_true, ht]
      obtain ⟨s2, h2⟩ := hok _ h1
      refine ⟨⟨fun h => ?_, fun h => ?_⟩, fun _ => ⟨s2, h2⟩⟩
      · rw [h2] at h; exact absurd h (by simp)
      · rw [ht] at h; exact absurd h.2.2.2 (by simp)
    · have ht2 : s.is_trimming_enabled = false := by simpa using ht
      have h1 : s.enterFrozen now f = .error .fatalExit := by
        simp only [UecMpReps.enterFrozen, hc, and_self, if_true, ht2]
        rfl
      have h2 : s.processEv now p f = .error .fatalExit := by
        simp only [UecMpReps.processEv, h1]
      refine ⟨⟨fun _ => ⟨hc.1, hc.2.1, hc.2.2, ht2⟩, fun _ => h2⟩, fun hn => ?_⟩
      exact absurd ⟨hc.1, hc.2.1, hc.2.2, ht2⟩ hn
  · have h1 : s.enterFrozen now f = .ok s := by
      simp only [UecMpReps.enterFrozen, hc, if_false]
    obtain ⟨s2, h2⟩ := hok _ h1
    refine ⟨⟨fun h => ?_, fun h => ?_⟩, fun _ => ⟨s2, h2⟩⟩
    · rw [h2] at h; exact absurd h (by simp)
    · exact absurd ⟨h.1, h.2.1, h.2.2.1⟩ hc

/-! ## Reps: the grouping map -/

theorem mapGet?_cons {α : Type} (k1 : Nat) (v1 : α) (rest : List (Nat × α)) (key : Nat) :
    mapGet? ((k1, v1) :: rest) key = if k1 = key then some v1 else mapGet? rest key := by
  by_cases h : k1 = key
  · simp [mapGet?, h]
  · simp [mapGet?, h]

/-- Reading back the key that was just assigned. -/
theorem mapGet?_mapSet_self {α : Type} (m : List (Nat × α)) (key : Nat) (v : α) :
    mapGet? (mapSet m key v) key = some v := by
  induction m with
  | nil => simp [mapSet, mapGet?_cons]
  | cons e rest ih =>
    obtain ⟨k1, v1⟩ := e
    by_cases h1 : key < k1
    · simp [mapSet, h1, mapGet?_cons]
    · by_cases h2 : key = k1
      · simp [mapSet, h2, mapGet?_cons]
      · have h3 : ¬ k1 = key := fun h => h2 h.symm
        simp [mapSet, h1, h2, h3, mapGet?_cons, ih]

/-- An assignment leaves the other keys alone. -/
theorem mapGet?_mapSet_ne {α : Type} (m : List (Nat × α)) (key key2 : Nat) (v : α)
    (h : key2 ≠ key) : mapGet? (mapSet m key v) key2 = mapGet? m key2 := by
  have h0 : ¬ key = key2 := fun e => h e.symm
  induction m with
  | nil => simp [mapSet, mapGet?_cons, h0, mapGet?]
  | cons e rest ih =>
    obtain ⟨k1, v1⟩ := e
    by_cases h1 : key < k1
    · simp [mapSet, h1, mapGet?_cons, h0]
    · by_cases h2 : key = k1
      · have h3 : ¬ k1 = key2 := fun e => h0 (h2.trans e)
        simp [mapSet, h2, mapGet?_cons, h3]
      · simp [mapSet, h1, h2, mapGet?_cons, ih]

namespace UecMpReps

theorem members_nil : members [] = [] := rfl

theorem members_cons (level : Nat) (paths : List Nat) (rest : List (Nat × List Nat)) :
    members ((level, paths) :: rest) = paths ++ members rest := rfl

/-- A path listed in the group of a level is a member of the grouping. -/
theorem mem_members_of_group (m : List (Nat × List Nat)) (level x : Nat)
    (h : x ∈ groupOf m level) : x ∈ members m := by
  induction m with
  | nil => simp [groupOf, mapGet?_nil] at h
  | cons e rest ih =>
    obtain ⟨k1, v1⟩ := e
    rw [members_cons, List.mem_append]
    by_cases h1 : k1 = level
    · left
      simpa [groupOf, mapGet?_cons, h1] using h
    · right
      apply ih
      simpa [groupOf, mapGet?_cons, h1] using h

/-- Below the first key of a sorted map there is no binding. -/
theorem mapGet?_none_of_lt {α : Type} (m : List (Nat × α)) (key : Nat)
    (h : ∀ k ∈ m.map (fun e => e.1), key < k) : mapGet? m key = none := by
  induction m with
  | nil => rfl
  | cons e rest ih =>
    obtain ⟨k1, v1⟩ := e
    have h1 : key < k1 := h k1 (by simp)
    have h2 : ¬ k1 = key := by omega
    rw [mapGet?_cons, if_neg h2]
    exact ih (fun k hk => h k (by simp at hk ⊢; exact Or.inr hk))

/-- Emptying the group of a level only removes members. -/
theorem members_mapSet_nil (m : List (Nat × List Nat)) (level : Nat) :
    (members (mapSet m level [])).Sublist (members m) := by
  induction m with
  | nil => simp [mapSet, members]
  | cons e rest ih =>
    obtain ⟨k1, v1⟩ := e
    by_cases h1 : level < k1
    · simp [mapSet, h1, members_cons]
    · by_cases h2 : level = k1
      · simp [mapSet, h2, members_cons]
      · simp only [mapSet, h1, h2, if_false, members_cons]
        exact List.Sublist.append (List.Sublist.refl _) ih

theorem keys_mapSet {α : Type} (m : List (Nat × α)) (key : Nat) (v : α) (k : Nat)
    (h : k ∈ (mapSet m key v).map (fun e => e.1)) : k = key ∨ k ∈ m.map (fun e => e.1) := by
  induction m with
  | nil => simp [mapSet] at h; exact Or.inl h
  | cons e rest ih =>
    obtain ⟨k1, v1⟩ := e
    by_cases h1 : key < k1
    · simp only [mapSet, h1, if_true, List.map_cons, List.mem_cons] at h
      rcases h with h | h
      · exact Or.inl h
      · exact Or.inr (by simpa using h)
    · by_cases h2 : key = k1
      · subst h2
        simp only [mapSet, Nat.lt_irrefl, if_false, if_true, List.map_cons, List.mem_cons] at h
        rcases h with h | h
        · exact Or.inl h
        · exact Or.inr (by simp only [List.map_cons, List.mem_cons]; exact Or.inr h)
      · simp only [mapSet, h1, h2, if_false, List.map_cons, List.mem_cons] at h
        rcases h with h | h
        · exact Or.inr (by simp [h])
        · rcases ih h with h | h
          · exact Or.inl h
          · exact Or.inr (by simp only [List.map_cons, List.mem_cons]; exact Or.inr h)

/-- An assignment keeps the keys of the map strictly increasing. -/
theorem keysSorted_mapSet (m : List (Nat × List Nat)) (key : Nat) (v : List Nat)
    (h : keysSorted m) : keysSorted (mapSet m key v) := by
  induction m with
  | nil => simp [mapSet, keysSorted]
  | cons e rest ih =>
    obtain ⟨k1, v1⟩ := e
    have hc : (∀ k ∈ rest.map (fun e => e.1), k1 < k) ∧ keysSorted rest := by
      simpa [keysSorted, List.pairwise_cons] using h
    by_cases h1 : key < k1
    · simp only [mapSet, h1, if_true, keysSorted, List.map_cons, List.pairwise_cons]
      refine ⟨fun k hk => ?_, ?_⟩
      · rcases List.mem_cons.1 hk with hk | hk
        · omega
        · have := hc.1 k hk; omega
      · simpa [keysSorted, List.pairwise_cons] using h
    · by_cases h2 : key = k1
      · subst h2
        simp only [mapSet, Nat.lt_irrefl, if_false, if_true, keysSorted, List.map_cons,
          List.pairwise_cons]
        exact ⟨hc.1, hc.2⟩
      · simp only [mapSet, h1, h2, if_false, keysSorted, List.map_cons, List.pairwise_cons]
        refine ⟨fun k hk => ?_, ih hc.2⟩
        rcases keys_mapSet rest key v k hk with hk | hk
        · omega
        · exact hc.1 k hk

/-- Removing a path from the grouping erases its first listing. -/
theorem members_removeFromLevels (m : List (Nat × List Nat)) (p : Nat) :
    members (removeFromLevels m p) = (members m).erase p := by
  induction m with
  | nil => rfl
  | cons e rest ih =>
    obtain ⟨k1, v1⟩ := e
    by_cases h1 : p ∈ v1
    · rw [members_cons, List.erase_append_left _ h1]
      by_cases h2 : (v1.erase p).isEmpty = true
      · have h3 : v1.erase p = [] := List.isEmpty_iff.1 h2
        simp [removeFromLevels, h1, h3]
      · simp [removeFromLevels, h1, h2, members_cons]
    · rw [members_cons, List.erase_append_right _ h1]
      simp [removeFromLevels, h1, members_cons, ih]

theorem keys_removeFromLevels (m : List (Nat × List Nat)) (p : Nat) :
    ((removeFromLevels m p).map (fun e => e.1)).Sublist (m.map (fun e => e.1)) := by
  induction m with
  | nil => exact List.Sublist.refl _
  | cons e rest ih =>
    obtain ⟨k1, v1⟩ := e
    by_cases h1 : p ∈ v1
    · by_cases h2 : (v1.erase p).isEmpty = true
      · simp [removeFromLevels, h1, h2]
      · simp [removeFromLevels, h1, h2]
    · simp only [removeFromLevels, h1, if_false, List.map_cons]
      exact List.Sublist.cons₂ _ ih

/-- Removing a path keeps the keys of the grouping strictly increasing. -/
theorem keysSorted_removeFromLevels (m : List (Nat × List Nat)) (p : Nat)
    (h : keysSorted m) : keysSorted (removeFromLevels m p) :=
  List.Pairwise.sublist (keys_removeFromLevels m p) h

/-- Appending a path to the group of a level of a sorted grouping adds one
listing of the path and changes nothing else. -/
theorem members_mapSet_append (m : List (Nat × List Nat)) (level p : Nat)
    (h : keysSorted m) :
    (members (mapSet m level (groupOf m level ++ [p]))).Perm (p :: members m) := by
  induction m with
  | nil => simp [mapSet, members, groupOf, mapGet?]
  | cons e rest ih =>
    obtain ⟨k1, v1⟩ := e
    have hc : (∀ k ∈ rest.map (fun e => e.1), k1 < k) ∧ keysSorted rest := by
      simpa [keysSorted, List.pairwise_cons] using h
    by_cases h1 : level < k1
    · have hnone : mapGet? ((k1, v1) :: rest) level = none := by
        apply mapGet?_none_of_lt
        intro k hk
        rcases List.mem_cons.1 hk with hk | hk
        · rw [hk]; exact h1
        · have := hc.1 k hk; omega
      simp [mapSet, h1, groupOf, hnone, members_cons]
    · by_cases h2 : level = k1
      · subst h2
        simp only [mapSet, Nat.lt_irrefl, if_false, if_true, groupOf, mapGet?_cons,
          Option.getD_some, members_cons, List.append_assoc, List.singleton_append]
        exact List.perm_middle
      · have h3 : ¬ k1 = level := fun e => h2 e.symm
        have h4 : groupOf ((k1, v1) :: rest) level = groupOf rest level := by
          simp [groupOf, mapGet?_cons, h3]
        rw [h4]
        simp only [mapSet, h1, h2, if_false, members_cons]
        exact (List.Perm.append_left v1 (ih hc.2)).trans List.perm_middle

theorem GroupingInv.of_eq {s s1 : UecMpReps} (h : GroupingInv s)
    (hg : s1.paths_by_mql_level = s.paths_by_mql_level)
    (he : s1.circular_buffer_reps.entries = s.circular_buffer_reps.entries) :
    GroupingInv s1 :=
  ⟨by rw [hg]; exact h.sorted, by rw [hg]; exact h.nodup, by rw [hg, he]; exact h.fresh⟩

/-- `removePathFromGrouping` keeps the grouping invariant. -/
theorem removePathFromGrouping_inv (s : UecMpReps) (p : Nat) (h : GroupingInv s) :
    GroupingInv (s.removePathFromGrouping p) := by
  refine ⟨keysSorted_removeFromLevels _ p h.sorted, ?_, ?_⟩
  · show (members (removeFromLevels s.paths_by_mql_level p)).Nodup
    rw [members_removeFromLevels]
    exact List.Nodup.sublist (List.erase_sublist _ _) h.nodup
  · intro x hx
    have hx2 : x ∈ members (removeFromLevels s.paths_by_mql_level p) := hx
    rw [members_removeFromLevels] at hx2
    exact h.fresh x (List.mem_of_mem_erase hx2)

/-- `addPathToGrouping` keeps the grouping invariant. -/
theorem addPathToGrouping_inv (s : UecMpReps) (p level : Nat) (h : GroupingInv s) :
    GroupingInv (s.addPathToGrouping p level) := by
  by_cases hc : s.circular_buffer_reps.containsEntropy p = true
  · have hp : p ∈ s.circular_buffer_reps.entries := by
      simpa [CircularBufferREPS.containsEntropy] using hc
    have hperm := members_mapSet_append (removeFromLevels s.paths_by_mql_level p) level p
      (keysSorted_removeFromLevels _ p h.sorted)
    rw [members_removeFromLevels] at hperm
    have hg : (s.addPathToGrouping p level).paths_by_mql_level
        = mapSet (removeFromLevels s.paths_by_mql_level p) level
            (groupOf (removeFromLevels s.paths_by_mql_level p) level ++ [p]) := by
      simp [addPathToGrouping, hc, removePathFromGrouping, groupOf]
    have he : (s.addPathToGrouping p level).circular_buffer_reps = s.circular_buffer_reps := by
      simp [addPathToGrouping, hc, removePathFromGrouping]
    refine ⟨?_, ?_, ?_⟩
    · rw [hg]
      exact keysSorted_mapSet _ _ _ (keysSorted_removeFromLevels _ p h.sorted)
    · rw [hg, hperm.nodup_iff, List.nodup_cons]
      exact ⟨h.nodup.not_mem_erase, List.Nodup.sublist (List.erase_sublist _ _) h.nodup⟩
    · intro x hx
      rw [hg, hperm.mem_iff] at hx
      rw [he]
      rcases List.mem_cons.1 hx with hx | hx
      · rw [hx]; exact hp
      · exact h.fresh x (List.mem_of_mem_erase hx)
  · have hs : s.addPathToGrouping p level = s := by simp [addPathToGrouping, hc]
    rw [hs]; exact h

/-- `processMql` keeps the grouping invariant. -/
theorem processMql_inv (s : UecMpReps) (p level : Nat) (h : GroupingInv s) :
    GroupingInv (s.processMql p level) := by
  have h1 : GroupingInv { s with path_mql_map := mapSet s.path_mql_map p level } :=
    h.of_eq rfl rfl
  by_cases hu : s.use_mql = true
  · by_cases hc : s.circular_buffer_reps.containsEntropy p = true
    · have h2 := addPathToGrouping_inv _ p level (removePathFromGrouping_inv _ p h1)
      refine h2.of_eq ?_ ?_ <;> simp [processMql, hu, updateMqlGrouping, hc]
    · refine h1.of_eq ?_ ?_ <;> simp [processMql, hu, updateMqlGrouping, hc]
  · refine h1.of_eq ?_ ?_ <;> simp [processMql, hu]

theorem addPathToGrouping_use_mql (s : UecMpReps) (p level : Nat) :
    (s.addPathToGrouping p level).use_mql = s.use_mql := by
  by_cases hc : s.circular_buffer_reps.containsEntropy p = true <;>
    simp [addPathToGrouping, hc, removePathFromGrouping]

theorem processMql_use_mql (s : UecMpReps) (p level : Nat) :
    (s.processMql p level).use_mql = s.use_mql := by
  by_cases hu : s.use_mql = true
  · by_cases hc : s.circular_buffer_reps.containsEntropy p = true
    · simp [processMql, hu, updateMqlGrouping, hc, addPathToGrouping_use_mql,
        removePathFromGrouping]
    · simp [processMql, hu, updateMqlGrouping, hc]
  · simp [processMql, hu]

theorem enterFrozen_frame (s s1 : UecMpReps) (now : Nat) (f : PathFeedback)
    (h : s.enterFrozen now f = .ok s1) :
    s1.paths_by_mql_level = s.paths_by_mql_level ∧
    s1.circular_buffer_reps.entries = s.circular_buffer_reps.entries ∧
    s1.use_mql = s.use_mql := by
  unfold enterFrozen at h
  split at h
  · split at h
    · have e := Except.ok.inj h
      rw [← e]
      exact ⟨rfl, rfl, rfl⟩
    · exact absurd h (by simp)
  · have e := Except.ok.inj h
    rw [← e]
    exact ⟨rfl, rfl, rfl⟩

/-- The exit from frozen mode keeps the grouping invariant when grouping is
enabled: the grouping is cleared together with the buffer. -/
theorem exitFrozen_inv (s : UecMpReps) (now : Nat) (hu : s.use_mql = true)
    (h : GroupingInv s) :
    GroupingInv (s.exitFrozen now) ∧ (s.exitFrozen now).use_mql = true := by
  by_cases hc : s.circular_buffer_reps.isFrozenMode = true ∧
      now > s.circular_buffer_reps.can_exit_frozen_mode
  · have hg : (s.exitFrozen now).paths_by_mql_level = [] := by
      simp [exitFrozen, hc, hu]
    have hu2 : (s.exitFrozen now).use_mql = true := by
      simp [exitFrozen, hc, hu]
    refine ⟨⟨?_, ?_, ?_⟩, hu2⟩
    · rw [hg]; simp [keysSorted]
    · rw [hg]; simp [members]
    · rw [hg]; intro x hx; simp [members] at hx
  · have hs : s.exitFrozen now = s := by
      unfold exitFrozen
      rw [if_neg hc]
    rw [hs]; exact ⟨h, hu⟩

/-- Recording a GOOD path keeps the grouping invariant. -/
theorem recordGood_inv (s : UecMpReps) (p : Nat) (h : GroupingInv s) :
    GroupingInv (s.recordGood p) ∧ (s.recordGood p).use_mql = s.use_mql := by
  have h1 : GroupingInv { s with circular_buffer_reps := s.circular_buffer_reps.add p } :=
    ⟨h.sorted, h.nodup, fun x hx => by
      show x ∈ s.circular_buffer_reps.entries ++ [p]
      exact List.mem_append_left _ (h.fresh x hx)⟩
  unfold recordGood
  simp only
  split
  · exact ⟨addPathToGrouping_inv _ p _ h1, addPathToGrouping_use_mql _ p _⟩
  · exact ⟨h1, rfl⟩

/-- `processEv` keeps the grouping invariant when grouping is enabled. -/
theorem processEv_grouping_inv (s s1 : UecMpReps) (now p : Nat) (f : PathFeedback)
    (hu : s.use_mql = true) (h : GroupingInv s) (hstep : s.processEv now p f = .ok s1) :
    GroupingInv s1 ∧ s1.use_mql = true := by
  unfold processEv at hstep
  split at hstep
  · exact absurd hstep (by simp)
  · rename_i s0 h0
    obtain ⟨e1, e2, e3⟩ := enterFrozen_frame s s0 now f h0
    have hi0 : GroupingInv s0 := h.of_eq e1 e2
    have hu0 : s0.use_mql = true := by rw [e3]; exact hu
    obtain ⟨hi2, hu2⟩ := exitFrozen_inv s0 now hu0 hi0
    have hr := recordGood_inv (s0.exitFrozen now) p hi2
    simp only at hstep
    split at hstep
    · rw [← Except.ok.inj hstep]; exact ⟨hr.1, by rw [hr.2]; exact hu2⟩
    · split at hstep
      · rw [← Except.ok.inj hstep]; exact ⟨hr.1, by rw [hr.2]; exact hu2⟩
      · rw [← Except.ok.inj hstep]; exact ⟨hi2, hu2⟩

/-! ### Taking the selected path out of the buffer -/

theorem getD_cons_eraseIdx_perm (l : List Nat) :
    ∀ i : Nat, i < l.length → (l.getD i 0 :: l.eraseIdx i).Perm l := by
  induction l with
  | nil => intro i h; simp at h
  | cons a t ih =>
    intro i h
    cases i with
    | zero => simp
    | succ j =>
      have hj : j < t.length := by simpa using h
      have h1 : (a :: t).getD (j + 1) 0 = t.getD j 0 := by simp
      rw [h1, List.eraseIdx_cons_succ]
      exact (List.Perm.swap a (t.getD j 0) (t.eraseIdx j)).trans ((ih j hj).cons a)

/-- One removal from a non-empty buffer, in either mode, takes one entry out;
in Normal mode it is the oldest one. -/
theorem removal_step (policy : List Nat → Nat) (b : CircularBufferREPS)
    (hne : b.entries ≠ []) :
    ∃ y l, (if b.isFrozenMode then b.remove_frozen policy else b.remove_earliest_fresh)
        = (y, { b with entries := l }) ∧ (y :: l).Perm b.entries ∧
      (b.frozen_mode = false → y :: l = b.entries) := by
  by_cases hf : b.frozen_mode = true
  · refine ⟨b.entries.getD (policy b.entries % b.entries.length) 0,
      b.entries.eraseIdx (policy b.entries % b.entries.length), ?_, ?_, ?_⟩
    · simp [CircularBufferREPS.isFrozenMode, hf, CircularBufferREPS.remove_frozen]
    · apply getD_cons_eraseIdx_perm
      exact Nat.mod_lt _ (List.length_pos.2 hne)
    · intro h; rw [hf] at h; exact absurd h (by simp)
  · cases hent : b.entries with
    | nil => exact absurd hent hne
    | cons x rest =>
      refine ⟨x, rest, ?_, List.Perm.refl _, fun _ => rfl⟩
      simp [CircularBufferREPS.isFrozenMode, hf, CircularBufferREPS.remove_earliest_fresh, hent]

/-- The draining loop ends within one evaluation of its condition per entry
plus one; it leaves the buffer empty and collects the entries other than the
selected path, in FIFO order when the buffer is in Normal mode. -/
theorem drain_spec (policy : List Nat → Nat) (sel : Nat) :
    ∀ (fuel : Nat) (b : CircularBufferREPS) (temp : List Nat), b.entries.length < fuel →
      ∃ kept, drain policy fuel b sel temp = .ok ({ b with entries := [] }, temp ++ kept) ∧
        kept.Perm (b.entries.filter (fun x => x != sel)) ∧
        (b.frozen_mode = false → kept = b.entries.filter (fun x => x != sel)) := by
  intro fuel
  induction fuel with
  | zero => intro b temp h; omega
  | succ fuel ih =>
    intro b temp h
    by_cases hne : b.entries = []
    · refine ⟨[], ?_, ?_, ?_⟩
      · have hb : ({ b with entries := [] } : CircularBufferREPS) = b := by
          cases b
          simp only at hne
          simp [hne]
        rw [hb]
        simp [drain, CircularBufferREPS.isEmpty, hne]
      · simp [hne]
      · intro _; simp [hne]
    · obtain ⟨y, l, hr, hperm, hnorm⟩ := removal_step policy b hne
      have hlen : l.length < fuel := by
        have := hperm.length_eq
        simp only [List.length_cons] at this
        omega
      have hcond : b.isEmpty = false ∧ b.getNumberFreshEntropies > 0 :=
        ⟨by simp [CircularBufferREPS.isEmpty, hne], List.length_pos.2 hne⟩
      have hstep : drain policy (fuel + 1) b sel temp
          = drain policy fuel { b with entries := l } sel
              (if y ≠ sel then temp ++ [y] else temp) := by
        rw [drain, if_pos hcond]
        simp only [hr]
      obtain ⟨kept, hd, hp, hn⟩ :=
        ih { b with entries := l } (if y ≠ sel then temp ++ [y] else temp) hlen
      by_cases hy : y = sel
      · have hfil : (y :: l).filter (fun x => x != sel) = l.filter (fun x => x != sel) := by
          simp [hy]
        refine ⟨kept, ?_, ?_, ?_⟩
        · rw [hstep, hd]; simp [hy]
        · exact hp.trans (hfil ▸ hperm.filter _)
        · intro hf
          rw [← hnorm hf, hfil]
          exact hn hf
      · have hfil : (y :: l).filter (fun x => x != sel)
            = y :: l.filter (fun x => x != sel) := by
          simp [hy]
        refine ⟨y :: kept, ?_, ?_, ?_⟩
        · rw [hstep, hd]; simp [hy]
        · exact (hp.cons y).trans (hfil ▸ hperm.filter _)
        · intro hf
          rw [← hnorm hf, hfil, hn hf]

/-- Putting the kept entries back appends them to the buffer. -/
theorem foldl_add (temp : List Nat) :
    ∀ b : CircularBufferREPS,
      temp.foldl CircularBufferREPS.add b = { b with entries := b.entries ++ temp } := by
  induction temp with
  | nil => intro b; simp
  | cons x rest ih =>
    intro b
    rw [List.foldl_cons, ih]
    simp [CircularBufferREPS.add]

/-! ### The level scan -/

/-- A scan step that moves on to the next level with a state `s2` that has the
same buffer and the same groups at the levels still to visit. -/
theorem ScanPost.skip {level : Nat} {rest : List Nat} {s s2 : UecMpReps} {g : Rand}
    {res : Option Nat × UecMpReps × Rand} (h : ScanPost rest s2 g res)
    (hu : s2.use_mql = s.use_mql)
    (hb : s2.circular_buffer_reps = s.circular_buffer_reps)
    (hs : keysSorted s.paths_by_mql_level → keysSorted s2.paths_by_mql_level)
    (hm : (members s2.paths_by_mql_level).Sublist (members s.paths_by_mql_level))
    (hg : ∀ l ∈ rest, groupOf s2.paths_by_mql_level l = groupOf s.paths_by_mql_level l)
    (hstale : ∀ x ∈ groupOf s.paths_by_mql_level level, x ∉ s.circular_buffer_reps.entries) :
    ScanPost (level :: rest) s g res := by
  obtain ⟨h1, h2, h3, h4⟩ := h
  refine ⟨h1.trans hu, fun hk => h2 (hs hk), fun hn => ?_, fun v hv => ?_⟩
  · obtain ⟨e1, e2, e3⟩ := h3 hn
    refine ⟨e1, e2.trans hb, fun l hl x hx => ?_⟩
    rcases List.mem_cons.1 hl with hl | hl
    · rw [hl] at hx; exact hstale x hx
    · rw [← hg l hl] at hx
      rw [← hb]; exact e3 l hl x hx
  · obtain ⟨e1, ⟨lv, hlv, e2, e3⟩, e4, e5, e6, e7, e8⟩ := h4 v hv
    rw [hb] at e4 e5 e6 e7
    refine ⟨e1, ⟨lv, List.mem_cons_of_mem _ hlv, ?_, fun l hl hlt2 x hx => ?_⟩, e4, e5, e6, e7,
      e8.trans (List.Sublist.erase v hm)⟩
    · rw [← hg lv hlv]; exact e2
    · rcases List.mem_cons.1 hl with hl | hl
      · rw [hl] at hx; exact hstale x hx
      · rw [← hg l hl] at hx
        rw [← hb]; exact e3 l hl hlt2 x hx

/-- The level scan always ends, and it ends as `ScanPost` describes. -/
theorem scanLevels_spec (policy : List Nat → Nat) :
    ∀ (levels : List Nat) (s : UecMpReps) (g : Rand), levels.Pairwise (· < ·) →
      ∃ res, scanLevels policy levels s g = .ok res ∧ ScanPost levels s g res := by
  intro levels
  induction levels with
  | nil =>
    intro s g _
    exact ⟨(none, s, g), rfl, rfl, fun h => h,
      fun _ => ⟨rfl, rfl, fun l hl => absurd hl (List.not_mem_nil l)⟩,
      fun v hv => absurd hv (by simp)⟩
  | cons level rest ih =>
    intro s g hpw
    have hc := List.pairwise_cons.1 hpw
    cases hget : mapGet? s.paths_by_mql_level level with
    | none =>
      obtain ⟨res, hres, hpost⟩ := ih s g hc.2
      refine ⟨res, ?_, hpost.skip rfl rfl (fun h => h) (List.Sublist.refl _)
        (fun _ _ => rfl) ?_⟩
      · rw [scanLevels]
        simp only [hget]
        exact hres
      · intro x hx
        simp [groupOf, hget] at hx
    | some paths =>
      by_cases he : paths.isEmpty = true
      · obtain ⟨res, hres, hpost⟩ := ih s g hc.2
        refine ⟨res, ?_, hpost.skip rfl rfl (fun h => h) (List.Sublist.refl _)
          (fun _ _ => rfl) ?_⟩
        · rw [scanLevels]
          simp only [hget, he, if_true]
          exact hres
        · intro x hx
          have hnil : paths = [] := List.isEmpty_iff.1 he
          simp [groupOf, hget, hnil] at hx
      · by_cases hv : (paths.filter s.circular_buffer_reps.containsEntropy).isEmpty = true
        · obtain ⟨res, hres, hpost⟩ :=
            ih { s with paths_by_mql_level := mapSet s.paths_by_mql_level level [] } g hc.2
          refine ⟨res, ?_, hpost.skip rfl rfl (fun h => keysSorted_mapSet _ _ _ h)
            (members_mapSet_nil _ _) (fun l hl => ?_) ?_⟩
          · rw [scanLevels]
            simp only [hget, he, hv, if_true, if_false]
            exact hres
          · have hne : l ≠ level := by have := hc.1 l hl; omega
            show groupOf (mapSet s.paths_by_mql_level level []) l = _
            unfold groupOf
            rw [mapGet?_mapSet_ne _ _ _ _ hne]
          · intro x hx hmem
            have hx2 : x ∈ paths := by simpa [groupOf, hget] using hx
            have hnil := List.isEmpty_iff.1 hv
            have hin : x ∈ paths.filter s.circular_buffer_reps.containsEntropy :=
              List.mem_filter.2 ⟨hx2, by simpa [CircularBufferREPS.containsEntropy] using hmem⟩
            rw [hnil] at hin
            exact absurd hin (List.not_mem_nil x)
        · have hlen : 0 < (paths.filter s.circular_buffer_reps.containsEntropy).length := by
            apply List.length_pos.2
            intro h0
            exact hv (List.isEmpty_iff.2 h0)
          have hidx : g 0 % (paths.filter s.circular_buffer_reps.containsEntropy).length
              < (paths.filter s.circular_buffer_reps.containsEntropy).length :=
            Nat.mod_lt _ hlen
          have hsel : (paths.filter s.circular_buffer_reps.containsEntropy).getD
              (g 0 % (paths.filter s.circular_buffer_reps.containsEntropy).length) 0
              ∈ paths.filter s.circular_buffer_reps.containsEntropy := by
            rw [List.getD_eq_getElem _ _ hidx]
            exact List.getElem_mem _
          obtain ⟨hsel1, hsel2⟩ := List.mem_filter.1 hsel
          have hsel3 : (paths.filter s.circular_buffer_reps.containsEntropy).getD
              (g 0 % (paths.filter s.circular_buffer_reps.containsEntropy).length) 0
              ∈ s.circular_buffer_reps.entries := by
            simpa [CircularBufferREPS.containsEntropy] using hsel2
          obtain ⟨kept, hd, hp, hn⟩ := drain_spec policy
            ((paths.filter s.circular_buffer_reps.containsEntropy).getD
              (g 0 % (paths.filter s.circular_buffer_reps.containsEntropy).length) 0)
            (s.circular_buffer_reps.entries.length + 1) s.circular_buffer_reps []
            (Nat.lt_succ_self _)
          rw [scanLevels]
          simp only [hget, he, hv, hd, if_false, foldl_add, List.nil_append]
          refine ⟨_, rfl, rfl, fun hk => keysSorted_removeFromLevels _ _ hk,
            fun h => absurd h (by simp), fun v hv2 => ?_⟩
          have hv3 : (paths.filter s.circular_buffer_reps.containsEntropy).getD
              (g 0 % (paths.filter s.circular_buffer_reps.containsEntropy).length) 0 = v :=
            Option.some.inj hv2
          rw [← hv3]
          refine ⟨rfl, ⟨level, List.mem_cons_self _ _, ?_, fun l hl hlt => ?_⟩, hsel3, rfl, hp, hn,
            ?_⟩
          · simpa [groupOf, hget] using hsel1
          · rcases List.mem_cons.1 hl with hl | hl
            · omega
            · have := hc.1 l hl; omega
          · show (members (removeFromLevels s.paths_by_mql_level _)).Sublist _
            rw [members_removeFromLevels]

/-! ### Selections with grouping enabled -/

theorem range8_sorted : (List.range 8).Pairwise (· < ·) := List.pairwise_lt_range 8

theorem fallback_frame (policy : List Nat → Nat) (s : UecMpReps) (g : Rand) :
    (fallback policy s g).2.1.paths_by_mql_level = s.paths_by_mql_level ∧
    (fallback policy s g).2.1.use_mql = s.use_mql := by
  unfold fallback
  split
  · split <;> exact ⟨rfl, rfl⟩
  · split <;> exact ⟨rfl, rfl⟩

/-- With no exploration left, grouping enabled and a non-empty grouping,
`nextEntropy` is the level scan, followed by the fallback on the cleared
grouping when the scan selects nothing. -/
theorem nextEntropy_scan (policy : List Nat → Nat) (s : UecMpReps) (g : Rand) (a b : Nat)
    (hexp : s.circular_buffer_reps.explore_counter = 0) (hu : s.use_mql = true)
    (hne : s.paths_by_mql_level ≠ []) :
    ∃ res, ScanPost (List.range 8) s g res ∧
      (∀ v, res.1 = some v → s.nextEntropy policy g a b = .ok (v, res.2.1, res.2.2)) ∧
      (res.1 = none → ∃ r, s.nextEntropy policy g a b = .ok r ∧
        r.2.1.paths_by_mql_level = [] ∧ r.2.1.use_mql = true) := by
  obtain ⟨res, hres, hpost⟩ := scanLevels_spec policy (List.range 8)
    { s with stats := { s.stats with total_selections := u64 (s.stats.total_selections + 1) } }
    g range8_sorted
  have hguard : s.use_mql = true ∧ s.paths_by_mql_level.isEmpty = false := by
    refine ⟨hu, ?_⟩
    cases hm : s.paths_by_mql_level with
    | nil => exact absurd hm hne
    | cons _ _ => rfl
  have hexp2 : ¬ s.circular_buffer_reps.explore_counter > 0 := by omega
  obtain ⟨o, s1, g1⟩ := res
  refine ⟨(o, s1, g1), hpost, fun v hv => ?_, fun hn => ?_⟩
  · have ho : o = some v := hv
    subst ho
    unfold nextEntropy
    dsimp only
    dsimp only at hres
    rw [if_neg hexp2, if_pos hguard, hres]
  · have ho : o = none := hn
    subst ho
    unfold nextEntropy
    dsimp only
    dsimp only at hres
    rw [if_neg hexp2, if_pos hguard, hres]
    dsimp only
    rw [if_pos hguard]
    refine ⟨_, rfl, ?_, ?_⟩
    · exact (fallback_frame policy _ _).1
    · exact (fallback_frame policy _ _).2.trans (hpost.1.trans hu)

theorem inv_of_grouping_nil (s : UecMpReps) (h : s.paths_by_mql_level = []) :
    GroupingInv s := by
  refine ⟨?_, ?_, ?_⟩
  · rw [h]; simp [keysSorted]
  · rw [h]; simp [members]
  · rw [h]; intro x hx; simp [members] at hx

/-- A selection made by the level scan keeps the grouping invariant. -/
theorem ScanPost.inv {levels : List Nat} {s : UecMpReps} {g : Rand}
    {res : Option Nat × UecMpReps × Rand} (hpost : ScanPost levels s g res)
    (h : GroupingInv s) (v : Nat) (hv : res.1 = some v) : GroupingInv res.2.1 := by
  obtain ⟨_, h2, _, h4⟩ := hpost
  obtain ⟨_, _, _, _, e6, _, e8⟩ := h4 v hv
  refine ⟨h2 h.sorted, List.Nodup.sublist e8 (List.Nodup.sublist (List.erase_sublist _ _) h.nodup),
    fun x hx => ?_⟩
  have hx2 := (h.nodup.mem_erase_iff).1 (e8.subset hx)
  rw [e6.mem_iff]
  exact List.mem_filter.2 ⟨h.fresh x hx2.2, by simpa using hx2.1⟩

/-- `nextEntropy` keeps the grouping invariant when grouping is enabled. -/
theorem nextEntropy_grouping_inv (policy : List Nat → Nat) (s : UecMpReps) (g : Rand) (a b : Nat)
    (r : Nat × UecMpReps × Rand) (hu : s.use_mql = true) (h : GroupingInv s)
    (hstep : s.nextEntropy policy g a b = .ok r) :
    GroupingInv r.2.1 ∧ r.2.1.use_mql = true := by
  by_cases hexp : 0 < s.circular_buffer_reps.explore_counter
  · rw [nextEntropy_explore policy s g a b hexp] at hstep
    rw [← Except.ok.inj hstep]
    exact ⟨h.of_eq rfl rfl, hu⟩
  · have hexp0 : s.circular_buffer_reps.explore_counter = 0 := by omega
    by_cases hne : s.paths_by_mql_level = []
    · have hguard : ¬ (s.use_mql = true ∧ s.paths_by_mql_level.isEmpty = false) := by
        rw [hne]; simp
      unfold nextEntropy at hstep
      simp only [hexp, if_false, hguard] at hstep
      rw [← Except.ok.inj hstep]
      refine ⟨inv_of_grouping_nil _ ?_, ?_⟩
      · exact (fallback_frame policy _ _).1.trans hne
      · exact (fallback_frame policy _ _).2.trans hu
    · obtain ⟨res, hpost, hsome, hnone⟩ := nextEntropy_scan policy s g a b hexp0 hu hne
      cases hres : res.1 with
      | none =>
        obtain ⟨r2, hr2, hg2, hu2⟩ := hnone hres
        rw [hr2] at hstep
        rw [← Except.ok.inj hstep]
        exact ⟨inv_of_grouping_nil _ hg2, hu2⟩
      | some v =>
        rw [hsome v hres] at hstep
        rw [← Except.ok.inj hstep]
        exact ⟨hpost.inv h v hres, hpost.1.trans hu⟩

/-- Every state reached with grouping enabled satisfies the grouping invariant. -/
theorem reachableMql_inv (policy : List Nat → Nat) (s : UecMpReps)
    (h : ReachableMql policy s) : GroupingInv s ∧ s.use_mql = true := by
  induction h with
  | fresh n t buf _ => exact ⟨inv_of_grouping_nil _ rfl, rfl⟩
  | processEv s s1 now p f _ hstep ih => exact processEv_grouping_inv s s1 now p f ih.2 ih.1 hstep
  | processMql s p level _ ih =>
    exact ⟨processMql_inv s p level ih.1, (processMql_use_mql s p level).trans ih.2⟩
  | nextEntropy s g a b r _ hstep ih => exact nextEntropy_grouping_inv policy s g a b r ih.2 ih.1 hstep

theorem groupOf_nil (level : Nat) : groupOf [] level = [] := rfl

/-- With grouping enabled and no exploration left, a level in 0..7 that lists
a path of the buffer makes `nextEntropy` return through the level scan. -/
theorem nextEntropy_mql_select (policy : List Nat → Nat) (s : UecMpReps) (g : Rand)
    (a b level x : Nat) (hu : s.use_mql = true)
    (hexp : s.circular_buffer_reps.explore_counter = 0) (hlevel : level ≤ 7)
    (hx : x ∈ groupOf s.paths_by_mql_level level)
    (hfresh : x ∈ s.circular_buffer_reps.entries) :
    ∃ v s1, s.nextEntropy policy g a b = .ok (v, s1, g.next) ∧
      ScanPost (List.range 8) s g (some v, s1, g.next) := by
  have hne : s.paths_by_mql_level ≠ [] := by
    intro h0
    rw [h0, groupOf_nil] at hx
    exact absurd hx (List.not_mem_nil x)
  obtain ⟨res, hpost, hsome, hnone⟩ := nextEntropy_scan policy s g a b hexp hu hne
  obtain ⟨o, s1, g1⟩ := res
  cases o with
  | none =>
    obtain ⟨_, _, hstale⟩ := hpost.2.2.1 rfl
    exact absurd hfresh (hstale level (List.mem_range.2 (by omega)) x hx)
  | some v =>
    have hg : g1 = g.next := (hpost.2.2.2 v rfl).1
    subst hg
    exact ⟨v, s1, hsome v rfl, hpost⟩

/-- The selection of the level scan comes from the lowest level that lists a
path of the buffer. -/
theorem ScanPost.lowest {s : UecMpReps} {g g1 : Rand} {v : Nat} {s1 : UecMpReps}
    (hpost : ScanPost (List.range 8) s g (some v, s1, g1)) (level x : Nat) (hlevel : level ≤ 7)
    (hx : x ∈ groupOf s.paths_by_mql_level level)
    (hfresh : x ∈ s.circular_buffer_reps.entries)
    (hlow : ∀ l < level, ∀ y ∈ groupOf s.paths_by_mql_level l,
      y ∉ s.circular_buffer_reps.entries) :
    v ∈ groupOf s.paths_by_mql_level level ∧ v ∈ s.circular_buffer_reps.entries := by
  obtain ⟨_, ⟨lv, _, hv1, hv2⟩, hv3, _⟩ := hpost.2.2.2 v rfl
  have h1 : ¬ lv < level := fun h => hlow lv h v hv1 hv3
  have h2 : ¬ level < lv := fun h =>
    hv2 level (List.mem_range.2 (by omega)) h x hx hfresh
  have h3 : lv = level := by omega
  rw [← h3]
  exact ⟨hv1, hv3⟩

/-- GOOD feedback for `p` in Normal mode on an empty grouping, followed by the
level 2 for `p`: the grouping lists `p` at level 2 and nothing else. -/
theorem good_then_level (s : UecMpReps) (now p level : Nat) (hu : s.use_mql = true)
    (hnormal : s.circular_buffer_reps.frozen_mode = false)
    (hempty : s.paths_by_mql_level = []) :
    ∃ s1, s.processEv now p .PATH_GOOD = .ok s1 ∧
      (s1.processMql p level).paths_by_mql_level = [(level, [p])] ∧
      (s1.processMql p level).use_mql = true ∧
      (s1.processMql p level).circular_buffer_reps = s.circular_buffer_reps.add p := by
  have hc : (s.circular_buffer_reps.add p).containsEntropy p = true := by
    simp [CircularBufferREPS.containsEntropy, CircularBufferREPS.add]
  cases hm : mapGet? s.path_mql_map p with
  | none =>
    refine ⟨{ s with circular_buffer_reps := s.circular_buffer_reps.add p }, ?_, ?_, ?_, ?_⟩
    · simp [processEv, enterFrozen, exitFrozen, recordGood, CircularBufferREPS.isFrozenMode,
        hnormal, hu, hm]
    · simp [processMql, hu, updateMqlGrouping, hc, addPathToGrouping, removePathFromGrouping,
        hempty, removeFromLevels, mapSet, mapGet?]
    · simp [processMql, hu, updateMqlGrouping, hc, addPathToGrouping, removePathFromGrouping]
    · simp [processMql, hu, updateMqlGrouping, hc, addPathToGrouping, removePathFromGrouping]
  | some lv =>
    refine ⟨{ s with
        circular_buffer_reps := s.circular_buffer_reps.add p
        paths_by_mql_level := [(lv, [p])] }, ?_, ?_, ?_, ?_⟩
    · simp [processEv, enterFrozen, exitFrozen, recordGood, CircularBufferREPS.isFrozenMode,
        hnormal, hu, hm, hc, addPathToGrouping, removePathFromGrouping, hempty,
        removeFromLevels, mapSet, mapGet?_nil]
    · simp [processMql, hu, updateMqlGrouping, hc, addPathToGrouping, removePathFromGrouping,
        removeFromLevels, mapSet, mapGet?]
    · simp [processMql, hu, updateMqlGrouping, hc, addPathToGrouping, removePathFromGrouping]
    · simp [processMql, hu, updateMqlGrouping, hc, addPathToGrouping, removePathFromGrouping]

end UecMpReps

/-! ## Reps: selection by MQL level -/

/-- C12: on a Reps selector with MQL grouping enabled and `explore_counter = 0`,
let `level` be the lowest level in 0..7 whose group lists a path that is in the
buffer (`x` is such a path, and no lower level lists a path of the buffer).
Then `nextEntropy` returns, after one random draw, a path that is listed in the
group of `level` and is in the buffer: never a path of a higher level only, and
never a stale member. In particular, from a selector `s0` in Normal mode with
an empty grouping, GOOD feedback for `p` followed by MQL level 2 for `p` makes
the next `nextEntropy` call return `p`. -/
theorem reps_mql_lowest_level (policy : List Nat → Nat) (s : UecMpReps) (g : Rand)
    (a b level x : Nat) (s0 : UecMpReps) (now p : Nat)
    (hu : s.use_mql = true) (hexp : s.circular_buffer_reps.explore_counter = 0)
    (hlevel : level ≤ 7)
    (hx : x ∈ UecMpReps.groupOf s.paths_by_mql_level level)
    (hfresh : x ∈ s.circular_buffer_reps.entries)
    (hlow : ∀ l < level, ∀ y ∈ UecMpReps.groupOf s.paths_by_mql_level l,
      y ∉ s.circular_buffer_reps.entries)
    (hu0 : s0.use_mql = true) (hexp0 : s0.circular_buffer_reps.explore_counter = 0)
    (hnormal0 : s0.circular_buffer_reps.frozen_mode = false)
    (hempty0 : s0.paths_by_mql_level = []) :
    (∃ v s1, s.nextEntropy policy g a b = .ok (v, s1, g.next) ∧
      v ∈ UecMpReps.groupOf s.paths_by_mql_level level ∧
      v ∈ s.circular_buffer_reps.entries) ∧
    (∃ s2, UecMpReps.run policy s0 g
        [.processEv now p .PATH_GOOD, .processMql p 2, .nextEntropy a b]
      = .ok ([p], s2, g.next)) := by
  constructor
  · obtain ⟨v, s1, hstep, hpost⟩ :=
      UecMpReps.nextEntropy_mql_select policy s g a b level x hu hexp hlevel hx hfresh
    exact ⟨v, s1, hstep, hpost.lowest level x hlevel hx hfresh hlow⟩
  · obtain ⟨t1, h1, hg, hu2, hb⟩ := UecMpReps.good_then_level s0 now p 2 hu0 hnormal0 hempty0
    have hp2 : p ∈ UecMpReps.groupOf (t1.processMql p 2).paths_by_mql_level 2 := by
      rw [hg]; simp [UecMpReps.groupOf, mapGet?_cons]
    have hp3 : p ∈ (t1.processMql p 2).circular_buffer_reps.entries := by
      rw [hb]; simp [CircularBufferREPS.add]
    have hexp2 : (t1.processMql p 2).circular_buffer_reps.explore_counter = 0 := by
      rw [hb]; exact hexp0
    obtain ⟨v, s2, hstep, hpost⟩ := UecMpReps.nextEntropy_mql_select policy
      (t1.processMql p 2) g a b 2 p hu2 hexp2 (by omega) hp2 hp3
    have hv := (hpost.lowest 2 p (by omega) hp2 hp3 (fun l hl y hy => by
      have hl2 : ¬ 2 = l := by omega
      rw [hg] at hy
      simp [UecMpReps.groupOf, mapGet?_cons, hl2, mapGet?] at hy)).1
    have hvp : v = p := by
      rw [hg] at hv
      simpa [UecMpReps.groupOf, mapGet?_cons] using hv
    rw [hvp] at hstep
    exact ⟨s2, by simp [UecMpReps.run, h1, hstep]⟩

/-- C12 at a concrete selector: level 0 lists only the stale path 7, level 1
lists the buffered paths 2 and 3, and the draw 0 picks path 2; and on a fresh
selector, GOOD for path 5 and then level 2 for path 5 make path 5 the next
selection. -/
theorem reps_mql_lowest_level_witness :
    (∃ v s1, UecMpReps.nextEntropy (fun _ => 0)
        ⟨4, ⟨[3, 1, 2], false, 0, 0, 20⟩, 0, true, [], true, [(0, [7]), (1, [2, 3])],
          ⟨0, 0, 0, [], []⟩⟩ (fun i => i) 0 8 = .ok (v, s1, Rand.next (fun i => i)) ∧
      v ∈ UecMpReps.groupOf [(0, [7]), (1, [2, 3])] 1 ∧ v ∈ [3, 1, 2]) ∧
    (∃ s2, UecMpReps.run (fun _ => 0)
        ((UecMpReps.create 4 true ⟨[], false, 0, 0, 20⟩).setUseMql true) (fun i => i)
        [.processEv 10 5 .PATH_GOOD, .processMql 5 2, .nextEntropy 0 8]
      = .ok ([5], s2, Rand.next (fun i => i))) :=
  reps_mql_lowest_level (fun _ => 0)
    ⟨4, ⟨[3, 1, 2], false, 0, 0, 20⟩, 0, true, [], true, [(0, [7]), (1, [2, 3])],
      ⟨0, 0, 0, [], []⟩⟩ (fun i => i) 0 8 1 2
    ((UecMpReps.create 4 true ⟨[], false, 0, 0, 20⟩).setUseMql true) 10 5
    rfl rfl (by decide) (by decide) (by decide)
    (by
      intro l hl y hy
      have hl0 : l = 0 := by omega
      subst hl0
      have hy7 : y = 7 := by simpa [UecMpReps.groupOf, mapGet?] using hy
      subst hy7
      decide)
    rfl rfl rfl rfl

/-- C13: `nextEntropy` returns through the MQL-grouping step when grouping is
enabled, `explore_counter = 0` and some level in 0..7 lists a path of the
buffer. On a selector whose grouping lists no path twice (the invariant of the
grouping), the returned path `v` is then absent from the buffer: the buffer
holds the old entries other than `v` (every occurrence of `v` is gone), in
their old FIFO order when the selector is in Normal mode, with the mode flag,
`explore_counter` and the deadline unchanged; and `v` is absent from the
grouping, that is from the group of every level. -/
theorem reps_mql_selection_removed (policy : List Nat → Nat) (s : UecMpReps) (g : Rand)
    (a b level x : Nat) (hu : s.use_mql = true)
    (hexp : s.circular_buffer_reps.explore_counter = 0) (hlevel : level ≤ 7)
    (hx : x ∈ UecMpReps.groupOf s.paths_by_mql_level level)
    (hfresh : x ∈ s.circular_buffer_reps.entries)
    (hnodup : (UecMpReps.members s.paths_by_mql_level).Nodup) :
    ∃ v s1, s.nextEntropy policy g a b = .ok (v, s1, g.next) ∧
      v ∈ s.circular_buffer_reps.entries ∧
      v ∉ s1.circular_buffer_reps.entries ∧
      s1.circular_buffer_reps.entries.Perm
        (s.circular_buffer_reps.entries.filter (fun y => y != v)) ∧
      (s.circular_buffer_reps.frozen_mode = false →
        s1.circular_buffer_reps.entries
          = s.circular_buffer_reps.entries.filter (fun y => y != v)) ∧
      s1.circular_buffer_reps
        = { s.circular_buffer_reps with entries := s1.circular_buffer_reps.entries } ∧
      v ∉ UecMpReps.members s1.paths_by_mql_level ∧
      ∀ l, v ∉ UecMpReps.groupOf s1.paths_by_mql_level l := by
  obtain ⟨v, s1, hstep, hpost⟩ :=
    UecMpReps.nextEntropy_mql_select policy s g a b level x hu hexp hlevel hx hfresh
  obtain ⟨_, _, e4, e5, e6, e7, e8⟩ := hpost.2.2.2 v rfl
  have hm : v ∉ UecMpReps.members s1.paths_by_mql_level :=
    fun h => hnodup.not_mem_erase (e8.subset h)
  refine ⟨v, s1, hstep, e4, fun h => ?_, e6, e7, e5, hm,
    fun l h => hm (UecMpReps.mem_members_of_group _ l v h)⟩
  have h2 := List.mem_filter.1 (e6.mem_iff.1 h)
  simp at h2

/-- C13 at a concrete selector in Normal mode: path 2 is selected out of the
buffer 3, 2, 1, 2, which becomes 3, 1. -/
theorem reps_mql_selection_removed_witness :
    ∃ v s1, UecMpReps.nextEntropy (fun _ => 0)
        ⟨4, ⟨[3, 2, 1, 2], false, 0, 0, 20⟩, 0, true, [], true, [(0, [7]), (1, [2, 3])],
          ⟨0, 0, 0, [], []⟩⟩ (fun i => i) 0 8 = .ok (v, s1, Rand.next (fun i => i)) ∧
      v ∈ [3, 2, 1, 2] ∧
      v ∉ s1.circular_buffer_reps.entries ∧
      s1.circular_buffer_reps.entries.Perm ([3, 2, 1, 2].filter (fun y => y != v)) ∧
      (false = false →
        s1.circular_buffer_reps.entries = [3, 2, 1, 2].filter (fun y => y != v)) ∧
      s1.circular_buffer_reps
        = { (⟨[3, 2, 1, 2], false, 0, 0, 20⟩ : CircularBufferREPS) with
            entries := s1.circular_buffer_reps.entries } ∧
      v ∉ UecMpReps.members s1.paths_by_mql_level ∧
      ∀ l, v ∉ UecMpReps.groupOf s1.paths_by_mql_level l :=
  reps_mql_selection_removed (fun _ => 0)
    ⟨4, ⟨[3, 2, 1, 2], false, 0, 0, 20⟩, 0, true, [], true, [(0, [7]), (1, [2, 3])],
      ⟨0, 0, 0, [], []⟩⟩ (fun i => i) 0 8 1 2 rfl rfl (by decide) (by decide) (by decide)
    (by decide)

/-! ## Reps: the invariant of the grouping -/

namespace UecMpReps

theorem groupOf_cons (k1 : Nat) (v1 : List Nat) (rest : List (Nat × List Nat)) (level : Nat) :
    groupOf ((k1, v1) :: rest) level = if k1 = level then v1 else groupOf rest level := by
  by_cases h : k1 = level <;> simp [groupOf, mapGet?_cons, h]

/-- In a grouping that lists no path twice, no path is in the groups of two
levels. -/
theorem groups_disjoint (m : List (Nat × List Nat)) (h : (members m).Nodup) (p l1 l2 : Nat)
    (h1 : p ∈ groupOf m l1) (h2 : p ∈ groupOf m l2) : l1 = l2 := by
  induction m with
  | nil => rw [groupOf_nil] at h1; exact absurd h1 (List.not_mem_nil p)
  | cons e rest ih =>
    obtain ⟨k1, v1⟩ := e
    rw [members_cons] at h
    have hd := List.nodup_append.1 h
    rw [groupOf_cons] at h1 h2
    by_cases e1 : k1 = l1
    · by_cases e2 : k1 = l2
      · exact e1.symm.trans e2
      · rw [if_pos e1] at h1
        rw [if_neg e2] at h2
        exact absurd (mem_members_of_group rest l2 p h2) (fun hm => hd.2.2 h1 hm)
    · by_cases e2 : k1 = l2
      · rw [if_neg e1] at h1
        rw [if_pos e2] at h2
        exact absurd (mem_members_of_group rest l1 p h1) (fun hm => hd.2.2 h2 hm)
      · rw [if_neg e1] at h1
        rw [if_neg e2] at h2
        exact ih hd.2.1 h1 h2

/-- In a grouping that lists no path twice, no group lists a path twice. -/
theorem group_nodup (m : List (Nat × List Nat)) (h : (members m).Nodup) (level : Nat) :
    (groupOf m level).Nodup := by
  induction m with
  | nil => rw [groupOf_nil]; exact List.nodup_nil
  | cons e rest ih =>
    obtain ⟨k1, v1⟩ := e
    rw [members_cons] at h
    have hd := List.nodup_append.1 h
    rw [groupOf_cons]
    by_cases e1 : k1 = level
    · rw [if_pos e1]; exact hd.1
    · rw [if_neg e1]; exact ih hd.2.1

end UecMpReps

/-- C14: in every state that a Reps selector with MQL grouping enabled reaches
from its construction by `processEv`, `processMql` and `nextEntropy` calls that
end normally, no path id is in the groups of two levels, no group lists a path
id twice, and every path id of a group is in the buffer. The grouping map has
one binding per level and the concatenation of its groups has no duplicate. -/
theorem reps_grouping_invariant (policy : List Nat → Nat) (s : UecMpReps)
    (h : UecMpReps.ReachableMql policy s) :
    (∀ p l1 l2, p ∈ UecMpReps.groupOf s.paths_by_mql_level l1 →
      p ∈ UecMpReps.groupOf s.paths_by_mql_level l2 → l1 = l2) ∧
    (∀ l, (UecMpReps.groupOf s.paths_by_mql_level l).Nodup) ∧
    (∀ p l, p ∈ UecMpReps.groupOf s.paths_by_mql_level l →
      p ∈ s.circular_buffer_reps.entries) ∧
    UecMpReps.keysSorted s.paths_by_mql_level ∧
    (UecMpReps.members s.paths_by_mql_level).Nodup ∧
    (∀ p ∈ UecMpReps.members s.paths_by_mql_level, p ∈ s.circular_buffer_reps.entries) ∧
    s.use_mql = true := by
  obtain ⟨hinv, hu⟩ := UecMpReps.reachableMql_inv policy s h
  exact ⟨UecMpReps.groups_disjoint _ hinv.nodup, UecMpReps.group_nodup _ hinv.nodup,
    fun p l hp => hinv.fresh p (UecMpReps.mem_members_of_group _ l p hp),
    hinv.sorted, hinv.nodup, hinv.fresh, hu⟩

/-- C14 at a concrete reachable state: a selector of four paths learns level 2
for path 5, receives GOOD for paths 5 and 6, and then learns level 1 for
path 6. -/
theorem reps_grouping_invariant_witness :
    (∀ p l1 l2, p ∈ UecMpReps.groupOf [(1, [6]), (2, [5])] l1 →
      p ∈ UecMpReps.groupOf [(1, [6]), (2, [5])] l2 → l1 = l2) ∧
    (∀ l, (UecMpReps.groupOf [(1, [6]), (2, [5])] l).Nodup) ∧
    (∀ p l, p ∈ UecMpReps.groupOf [(1, [6]), (2, [5])] l → p ∈ [5, 6]) ∧
    UecMpReps.keysSorted [(1, [6]), (2, [5])] ∧
    (UecMpReps.members [(1, [6]), (2, [5])]).Nodup ∧
    (∀ p ∈ UecMpReps.members [(1, [6]), (2, [5])], p ∈ [5, 6]) ∧
    true = true :=
  reps_grouping_invariant (fun _ => 0)
    ⟨4, ⟨[5, 6], false, 0, 0, 20⟩, 0, true, [(5, 2), (6, 1)], true, [(1, [6]), (2, [5])],
      ⟨0, 0, 2, [], [(1, 1), (2, 1)]⟩⟩
    (UecMpReps.ReachableMql.processMql
      ⟨4, ⟨[5, 6], false, 0, 0, 20⟩, 0, true, [(5, 2)], true, [(2, [5])],
        ⟨0, 0, 1, [], [(2, 1)]⟩⟩ 6 1
      (UecMpReps.ReachableMql.processEv
        ⟨4, ⟨[5], false, 0, 0, 20⟩, 0, true, [(5, 2)], true, [(2, [5])],
          ⟨0, 0, 1, [], [(2, 1)]⟩⟩ _ 11 6 .PATH_GOOD
        (UecMpReps.ReachableMql.processEv
          ⟨4, ⟨[], false, 0, 0, 20⟩, 0, true, [(5, 2)], true, [], ⟨0, 0, 1, [], [(2, 1)]⟩⟩
          _ 10 5 .PATH_GOOD
          (UecMpReps.ReachableMql.processMql
            ((UecMpReps.create 4 true ⟨[], false, 0, 0, 20⟩).setUseMql true) 5 2
            (UecMpReps.ReachableMql.fresh 4 true ⟨[], false, 0, 0, 20⟩ rfl))
          rfl)
        rfl))

/-! ## Reps: MQL updates -/

/-- C15: `processMql(p, level)` on a Reps selector records `level` as the MQL
level of `p` and keeps the levels of the other paths; it changes nothing in
the buffer object (entries, mode flag, `explore_counter`, deadline) and does
not switch grouping on or off. With grouping disabled the grouping is
unchanged; with grouping enabled and `p` not in the buffer the grouping is
unchanged; with grouping enabled and `p` in the buffer, `p` is afterwards in
the group of `level`, and in the group of no other level when the grouping
listed no path twice before the call (the invariant of the grouping). -/
theorem reps_processMql_effect (s : UecMpReps) (p level : Nat) :
    mapGet? (s.processMql p level).path_mql_map p = some level ∧
    (∀ q, q ≠ p → mapGet? (s.processMql p level).path_mql_map q = mapGet? s.path_mql_map q) ∧
    (s.processMql p level).circular_buffer_reps = s.circular_buffer_reps ∧
    (s.processMql p level).use_mql = s.use_mql ∧
    (s.use_mql = false → (s.processMql p level).paths_by_mql_level = s.paths_by_mql_level) ∧
    (s.use_mql = true → p ∉ s.circular_buffer_reps.entries →
      (s.processMql p level).paths_by_mql_level = s.paths_by_mql_level) ∧
    (s.use_mql = true → p ∈ s.circular_buffer_reps.entries →
      p ∈ UecMpReps.groupOf (s.processMql p level).paths_by_mql_level level ∧
      ((UecMpReps.members s.paths_by_mql_level).Nodup →
        ∀ l, l ≠ level → p ∉ UecMpReps.groupOf (s.processMql p level).paths_by_mql_level l)) := by
  have hmap : (s.processMql p level).path_mql_map = mapSet s.path_mql_map p level := by
    by_cases hu : s.use_mql = true
    · by_cases hc : s.circular_buffer_reps.containsEntropy p = true
      · simp [UecMpReps.processMql, hu, UecMpReps.updateMqlGrouping, hc,
          UecMpReps.addPathToGrouping, UecMpReps.removePathFromGrouping]
      · simp [UecMpReps.processMql, hu, UecMpReps.updateMqlGrouping, hc]
    · simp [UecMpReps.processMql, hu]
  have hbuf : (s.processMql p level).circular_buffer_reps = s.circular_buffer_reps := by
    by_cases hu : s.use_mql = true
    · by_cases hc : s.circular_buffer_reps.containsEntropy p = true
      · simp [UecMpReps.processMql, hu, UecMpReps.updateMqlGrouping, hc,
          UecMpReps.addPathToGrouping, UecMpReps.removePathFromGrouping]
      · simp [UecMpReps.processMql, hu, UecMpReps.updateMqlGrouping, hc]
    · simp [UecMpReps.processMql, hu]
  refine ⟨?_, fun q hq => ?_, hbuf, UecMpReps.processMql_use_mql s p level, fun hu => ?_,
    fun hu hp => ?_, fun hu hp => ?_⟩
  · rw [hmap]; exact mapGet?_mapSet_self _ _ _
  · rw [hmap]; exact mapGet?_mapSet_ne _ _ _ _ hq
  · simp [UecMpReps.processMql, hu]
  · have hc : s.circular_buffer_reps.containsEntropy p = false := by
      simpa [CircularBufferREPS.containsEntropy] using hp
    simp [UecMpReps.processMql, hu, UecMpReps.updateMqlGrouping, hc]
  · have hc : s.circular_buffer_reps.containsEntropy p = true := by
      simpa [CircularBufferREPS.containsEntropy] using hp
    have hg : (s.processMql p level).paths_by_mql_level
        = mapSet
            (UecMpReps.removeFromLevels (UecMpReps.removeFromLevels s.paths_by_mql_level p) p)
            level
            (UecMpReps.groupOf
              (UecMpReps.removeFromLevels (UecMpReps.removeFromLevels s.paths_by_mql_level p) p)
              level ++ [p]) := by
      simp [UecMpReps.processMql, hu, UecMpReps.updateMqlGrouping, hc,
        UecMpReps.addPathToGrouping, UecMpReps.removePathFromGrouping, UecMpReps.groupOf]
    rw [hg]
    refine ⟨?_, fun hn l hl hmem => ?_⟩
    · unfold UecMpReps.groupOf
      rw [mapGet?_mapSet_self]
      simp
    · have h1 : p ∈ UecMpReps.groupOf
          (UecMpReps.removeFromLevels (UecMpReps.removeFromLevels s.paths_by_mql_level p) p)
          l := by
        unfold UecMpReps.groupOf at hmem ⊢
        rw [mapGet?_mapSet_ne _ _ _ _ hl] at hmem
        exact hmem
      have h2 := UecMpReps.mem_members_of_group _ l p h1
      rw [UecMpReps.members_removeFromLevels, UecMpReps.members_removeFromLevels] at h2
      exact hn.not_mem_erase (List.mem_of_mem_erase h2)

/-- C15 at a concrete selector: path 5 is in the buffer and listed at level 2;
the update to level 0 moves it. -/
theorem reps_processMql_effect_witness :
    mapGet? (UecMpReps.processMql
        ⟨4, ⟨[5, 6], false, 0, 0, 20⟩, 0, true, [(5, 2), (6, 1)], true, [(1, [6]), (2, [5])],
          ⟨0, 0, 2, [], [(1, 1), (2, 1)]⟩⟩ 5 0).path_mql_map 5 = some 0 ∧
    (UecMpReps.processMql
        ⟨4, ⟨[5, 6], false, 0, 0, 20⟩, 0, true, [(5, 2), (6, 1)], true, [(1, [6]), (2, [5])],
          ⟨0, 0, 2, [], [(1, 1), (2, 1)]⟩⟩ 5 0).circular_buffer_reps
      = ⟨[5, 6], false, 0, 0, 20⟩ ∧
    5 ∈ UecMpReps.groupOf (UecMpReps.processMql
        ⟨4, ⟨[5, 6], false, 0, 0, 20⟩, 0, true, [(5, 2), (6, 1)], true, [(1, [6]), (2, [5])],
          ⟨0, 0, 2, [], [(1, 1), (2, 1)]⟩⟩ 5 0).paths_by_mql_level 0 ∧
    5 ∉ UecMpReps.groupOf (UecMpReps.processMql
        ⟨4, ⟨[5, 6], false, 0, 0, 20⟩, 0, true, [(5, 2), (6, 1)], true, [(1, [6]), (2, [5])],
          ⟨0, 0, 2, [], [(1, 1), (2, 1)]⟩⟩ 5 0).paths_by_mql_level 2 :=
  ⟨(reps_processMql_effect
      ⟨4, ⟨[5, 6], false, 0, 0, 20⟩, 0, true, [(5, 2), (6, 1)], true, [(1, [6]), (2, [5])],
        ⟨0, 0, 2, [], [(1, 1), (2, 1)]⟩⟩ 5 0).1,
    (reps_processMql_effect
      ⟨4, ⟨[5, 6], false, 0, 0, 20⟩, 0, true, [(5, 2), (6, 1)], true, [(1, [6]), (2, [5])],
        ⟨0, 0, 2, [], [(1, 1), (2, 1)]⟩⟩ 5 0).2.2.1,
    ((reps_processMql_effect
      ⟨4, ⟨[5, 6], false, 0, 0, 20⟩, 0, true, [(5, 2), (6, 1)], true, [(1, [6]), (2, [5])],
        ⟨0, 0, 2, [], [(1, 1), (2, 1)]⟩⟩ 5 0).2.2.2.2.2.2 rfl (by decide)).1,
    ((reps_processMql_effect
      ⟨4, ⟨[5, 6], false, 0, 0, 20⟩, 0, true, [(5, 2), (6, 1)], true, [(1, [6]), (2, [5])],
        ⟨0, 0, 2, [], [(1, 1), (2, 1)]⟩⟩ 5 0).2.2.2.2.2.2 rfl (by decide)).2 (by decide) 2
      (by decide)⟩

/-! ## Bitmap: path ids out of range -/

/-- C21: on a Bitmap selector of `n = 2 ^ k` paths (`k ≤ 15`, so that `n` is a
`uint16_t`; the penalty array has `n` entries) `processEv` returns normally for
every path id, those of `n` and above included, and every feedback kind: the
index `path_id & (n - 1)` that it uses is below `n`. The state that it
produces is the one that `processEv(path_id & (n - 1), f)` produces. -/
theorem bitmap_processEv_masks (k : Nat) (hk : k ≤ 15) (s : UecMpBitmap)
    (hn : s.no_of_paths = 2 ^ k) (hlen : s.ev_skip_bitmap.length = s.no_of_paths)
    (p : Nat) (f : PathFeedback) :
    p &&& (s.no_of_paths - 1) < s.ev_skip_bitmap.length ∧
    ∃ s1, s.processEv p f = .ok s1 ∧ s.processEv (p &&& (s.no_of_paths - 1)) f = .ok s1 := by
  have hmask : maskOf s.no_of_paths = s.no_of_paths - 1 := by
    rw [hn]; exact maskOf_two_pow k hk
  have hpos : 0 < 2 ^ k := Nat.two_pow_pos k
  have h16 : s.no_of_paths < 65536 := by
    rw [hn]
    calc 2 ^ k ≤ 2 ^ 15 := Nat.pow_le_pow_right (by decide) hk
      _ < 65536 := by decide
  have hlt : p &&& (s.no_of_paths - 1) < s.ev_skip_bitmap.length := by
    rw [hlen, ← hmask]
    exact and_maskOf_lt _ _ (by omega) h16
  have hidem : (p &&& (s.no_of_paths - 1)) &&& (s.no_of_paths - 1) = p &&& (s.no_of_paths - 1) := by
    rw [Nat.and_assoc, Nat.and_self]
  have hget := List.getElem?_eq_getElem hlt
  refine ⟨hlt, ?_⟩
  have hsame : s.processEv (p &&& (s.no_of_paths - 1)) f = s.processEv p f := by
    simp only [UecMpBitmap.processEv, hmask, hidem]
  rw [hsame]
  simp only [UecMpBitmap.processEv, hmask, hget]
  exact ⟨_, rfl, rfl⟩

/-- C21 at a concrete selector of four paths: the path id 65534 is taken as
path 2. -/
theorem bitmap_processEv_masks_witness :
    65534 &&& (4 - 1) < [0, 0, 3, 0].length ∧
    ∃ s1, UecMpBitmap.processEv ⟨4, 0xabcd, 2, 1, [0, 0, 3, 0], 1, 15⟩ 65534 .PATH_NACK = .ok s1 ∧
      UecMpBitmap.processEv ⟨4, 0xabcd, 2, 1, [0, 0, 3, 0], 1, 15⟩ (65534 &&& (4 - 1)) .PATH_NACK
        = .ok s1 :=
  bitmap_processEv_masks 2 (by decide) ⟨4, 0xabcd, 2, 1, [0, 0, 3, 0], 1, 15⟩ rfl rfl 65534
    .PATH_NACK

/-! ## RepsLegacy: the range of the returned values -/

namespace UecMpRepsLegacy

/-- One selection on a selector whose current path and recycled ids are below
the path count: it returns a value below the path count and keeps that state
of affairs. -/
theorem nextEntropy_valid (s : UecMpRepsLegacy) (g : Rand) (a b : Nat)
    (h1 : 1 ≤ s.no_of_paths) (hcrt : s.crt_path < s.no_of_paths)
    (hq : ∀ x ∈ s.next_pathid, x < s.no_of_paths) :
    ∃ r, s.nextEntropy g a b = .ok r ∧ r.1 < s.no_of_paths ∧
      r.2.1.no_of_paths = s.no_of_paths ∧ r.2.1.crt_path < s.no_of_paths ∧
      ∀ x ∈ r.2.1.next_pathid, x < s.no_of_paths := by
  by_cases hw : a < min b s.no_of_paths
  · have hle : u16 (s.crt_path + 1) ≤ s.crt_path + 1 := Nat.mod_le _ _
    have hv : (if u16 (s.crt_path + 1) = s.no_of_paths then 0 else u16 (s.crt_path + 1))
        < s.no_of_paths := by
      split
      · omega
      · omega
    refine ⟨_, by simp only [nextEntropy, hw, if_true]; rfl, hv, rfl, hv, hq⟩
  · cases hl : s.next_pathid with
    | nil =>
      have hpos : s.no_of_paths > 0 := by omega
      have hv : u16 (g 0 % s.no_of_paths) < s.no_of_paths :=
        Nat.lt_of_le_of_lt (Nat.mod_le _ _) (Nat.mod_lt _ hpos)
      refine ⟨_, by simp only [nextEntropy, hw, if_false, hl, hpos, if_true]; rfl, hv, rfl, hv,
        ?_⟩
      intro x hx
      exact absurd hx (List.not_mem_nil x)
    | cons front rest =>
      have hf : front < s.no_of_paths := hq front (by rw [hl]; exact List.mem_cons_self _ _)
      refine ⟨_, by simp only [nextEntropy, hw, if_false, hl]; rfl, hf, rfl, hf, ?_⟩
      intro x hx
      exact hq x (by rw [hl]; exact List.mem_cons_of_mem _ hx)

/-- A run of calls in which every path id reported GOOD is below the path
count returns values below the path count only. -/
theorem run_valid (n : Nat) (h1 : 1 ≤ n) (ops : List Op) :
    ∀ (s : UecMpRepsLegacy) (g : Rand), s.no_of_paths = n → s.crt_path < n →
      (∀ x ∈ s.next_pathid, x < n) →
      (∀ p, Op.processEv p .PATH_GOOD ∈ ops → p < n) →
      ∃ vals s1 g1, s.run g ops = .ok (vals, s1, g1) ∧ ∀ v ∈ vals, v < n := by
  induction ops with
  | nil =>
    intro s g _ _ _ _
    exact ⟨[], s, g, rfl, fun v hv => absurd hv (List.not_mem_nil v)⟩
  | cons o ops ih =>
    intro s g hn hcrt hq hops
    have hrest : ∀ p, Op.processEv p .PATH_GOOD ∈ ops → p < n :=
      fun p hp => hops p (List.mem_cons_of_mem _ hp)
    cases o with
    | processEv p f =>
      have hq2 : ∀ x ∈ (s.processEv p f).next_pathid, x < n := by
        intro x hx
        by_cases hf : f = .PATH_GOOD
        · subst hf
          simp only [processEv, if_true, List.mem_append, List.mem_singleton] at hx
          rcases hx with hx | hx
          · exact hq x hx
          · rw [hx]; exact hops p (List.mem_cons_self _ _)
        · simp only [processEv, hf, if_false] at hx
          exact hq x hx
      have hn2 : (s.processEv p f).no_of_paths = n := by
        by_cases hf : f = .PATH_GOOD <;> simp [processEv, hf, hn]
      have hc2 : (s.processEv p f).crt_path < n := by
        by_cases hf : f = .PATH_GOOD <;> simp [processEv, hf, hcrt]
      obtain ⟨vals, s1, g1, hrun, hv⟩ := ih (s.processEv p f) g hn2 hc2 hq2 hrest
      exact ⟨vals, s1, g1, by rw [run]; exact hrun, hv⟩
    | nextEntropy a b =>
      obtain ⟨r, hr, hv1, hn2, hc2, hq2⟩ := nextEntropy_valid s g a b (by omega)
        (by rw [hn]; exact hcrt) (by rw [hn]; exact hq)
      rw [hn] at hv1 hn2 hc2 hq2
      obtain ⟨vals, s1, g1, hrun, hv⟩ := ih r.2.1 r.2.2 hn2 hc2 hq2 hrest
      refine ⟨r.1 :: vals, s1, g1, ?_, ?_⟩
      · rw [run]
        simp only [hr, hrun]
      · intro v hv2
        rcases List.mem_cons.1 hv2 with h | h
        · rw [h]; exact hv1
        · exact hv v h

end UecMpRepsLegacy

/-- C22, the claim as stated fails: a selector of four paths receives GOOD
feedback for the 16-bit path id 9 and then makes a selection past the first
window; the value returned is 9, which is not in `[0, 4)`. -/
theorem repsLegacy_out_of_range_counterexample :
    UecMpRepsLegacy.run (UecMpRepsLegacy.create 4) (fun _ => 0)
        [.processEv 9 .PATH_GOOD, .nextEntropy 4 4]
      = .ok ([9], ⟨4, 9, []⟩, fun _ => 0) ∧
    9 < 65536 ∧ ¬ (∀ v ∈ [9], v < (UecMpRepsLegacy.create 4).no_of_paths) :=
  ⟨rfl, by decide, by decide⟩

/-- C22 as amended: on a RepsLegacy selector of `n ≥ 1` paths (current path
and recycled ids below `n`, as after construction), for every sequence of
`processEv` and `nextEntropy` calls in which the path ids reported with GOOD
feedback are below `n` (the path ids of the other feedback kinds are
arbitrary), every `nextEntropy` call returns and every value returned lies in
`[0, n)`. -/
theorem repsLegacy_values_in_range (n : Nat) (h1 : 1 ≤ n) (s : UecMpRepsLegacy) (g : Rand)
    (ops : List Op) (hn : s.no_of_paths = n) (hcrt : s.crt_path < n)
    (hq : ∀ x ∈ s.next_pathid, x < n)
    (hops : ∀ p, Op.processEv p .PATH_GOOD ∈ ops → p < n) :
    ∃ vals s1 g1, s.run g ops = .ok (vals, s1, g1) ∧
      vals.length = (ops.filter Op.isNext).length ∧ ∀ v ∈ vals, v < n := by
  obtain ⟨vals, s1, g1, hrun, hv⟩ := UecMpRepsLegacy.run_valid n h1 ops s g hn hcrt hq hops
  refine ⟨vals, s1, g1, hrun, ?_, hv⟩
  clear hv hops hq hcrt hn
  induction ops generalizing s g vals s1 g1 with
  | nil =>
    have h := Except.ok.inj hrun
    simp only [Prod.mk.injEq] at h
    rw [← h.1]; rfl
  | cons o ops ih =>
    cases o with
    | processEv p f =>
      rw [UecMpRepsLegacy.run] at hrun
      simpa [Op.isNext] using ih _ _ _ _ _ hrun
    | nextEntropy a b =>
      rw [UecMpRepsLegacy.run] at hrun
      cases hr : s.nextEntropy g a b with
      | error e => rw [hr] at hrun; exact absurd hrun (by simp)
      | ok r =>
        rw [hr] at hrun
        simp only at hrun
        cases hrest : UecMpRepsLegacy.run r.2.1 r.2.2 ops with
        | error e => rw [hrest] at hrun; exact absurd hrun (by simp)
        | ok rest =>
          rw [hrest] at hrun
          simp only at hrun
          have h := Except.ok.inj hrun
          simp only [Prod.mk.injEq] at h
          have hl := ih r.2.1 r.2.2 rest.1 rest.2.1 rest.2.2 hrest
          rw [← h.1]
          simp [Op.isNext, hl]

/-- C22 as amended, on a fresh selector of four paths: the GOOD reports are in
range, a TIMEOUT report for the path id 9 is not, and the three selections
return values below 4. -/
theorem repsLegacy_values_in_range_witness :
    ∃ vals s1 g1, UecMpRepsLegacy.run (UecMpRepsLegacy.create 4) (fun i => i)
        [.nextEntropy 0 4, .processEv 3 .PATH_GOOD, .processEv 9 .PATH_TIMEOUT,
          .nextEntropy 4 4, .nextEntropy 5 4] = .ok (vals, s1, g1) ∧
      vals.length = ([Op.nextEntropy 0 4, .processEv 3 .PATH_GOOD, .processEv 9 .PATH_TIMEOUT,
          .nextEntropy 4 4, .nextEntropy 5 4].filter Op.isNext).length ∧
      ∀ v ∈ vals, v < 4 :=
  repsLegacy_values_in_range 4 (by decide) (UecMpRepsLegacy.create 4) (fun i => i)
    [.nextEntropy 0 4, .processEv 3 .PATH_GOOD, .processEv 9 .PATH_TIMEOUT,
      .nextEntropy 4 4, .nextEntropy 5 4] rfl (by decide) (by simp [UecMpRepsLegacy.create])
    (by
      intro p hp
      simp at hp
      omega)

/-! ## Bitmap: which penalties a selection lowers -/

namespace UecMpBitmap

/-- The pay-down of a penalized candidate on a selector whose skip count is
consistent: the assertion holds, the penalty goes down by one (as a `uint8_t`)
and the skip count goes down when the penalty reaches zero. -/
theorem payDown_ok (s : UecMpBitmap) (e pen : Nat) (hlt : e < s.ev_skip_bitmap.length)
    (hget : s.ev_skip_bitmap[e]? = some pen) (hpen : 0 < pen)
    (hcount : s.ev_skip_count = s.penalized) :
    payDown s e pen = .ok
      { s with
        ev_skip_bitmap := s.ev_skip_bitmap.set e (u8 (pen + 255))
        ev_skip_count :=
          if u8 (pen + 255) = 0 then s.ev_skip_count - 1 else s.ev_skip_count } := by
  by_cases h0 : u8 (pen + 255) = 0
  · have hc := countP_set_nonZero s.ev_skip_bitmap e (u8 (pen + 255)) hlt
    have hx : s.ev_skip_bitmap[e] = pen := by
      rw [List.getElem?_eq_getElem hlt] at hget
      exact Option.some.inj hget
    rw [hx] at hc
    have hne : pen ≠ 0 := by omega
    simp only [ne_eq, hne, not_false_eq_true, if_true, h0, not_true_eq_false, if_false] at hc
    have hpos : s.ev_skip_count > 0 := by
      rw [hcount]
      simp only [penalized]
      omega
    simp only [payDown, h0, if_true, hpos]
  · simp only [payDown, h0, if_false]

/-- The loop of `nextEntropy` from its entry state when the first candidate is
penalized: the loop ends normally, the first candidate has paid once, and
nothing else in the penalty array or the skip count has changed, however many
candidates the loop went on to skip. -/
theorem skipWalk_start_paid (fuel : Nat) (s : UecMpBitmap) (g : Rand)
    (h1 : 1 ≤ s.no_of_paths) (h16 : s.no_of_paths < 65536)
    (hlen : s.ev_skip_bitmap.length = s.no_of_paths)
    (hcount : s.ev_skip_count = s.penalized) (hfuel : s.no_of_paths + 1 ≤ fuel) (pen : Nat)
    (hget : s.ev_skip_bitmap[cand s.current_ev_index s.path_xor (maskOf s.no_of_paths)]?
      = some pen) (hpen : 0 < pen) :
    ∃ w, skipWalk fuel (startWalk s g) = .ok w ∧
      w.sel.ev_skip_bitmap = s.ev_skip_bitmap.set
        (cand s.current_ev_index s.path_xor (maskOf s.no_of_paths)) (u8 (pen + 255)) ∧
      w.sel.ev_skip_count
        = (if u8 (pen + 255) = 0 then s.ev_skip_count - 1 else s.ev_skip_count) := by
  obtain ⟨fuel, rfl⟩ : ∃ f, fuel = f + 1 := ⟨fuel - 1, by omega⟩
  have hlt : cand s.current_ev_index s.path_xor (maskOf s.no_of_paths)
      < s.ev_skip_bitmap.length := by
    rw [hlen]; exact cand_maskOf_lt _ _ _ h1 h16
  obtain ⟨s1, hpay, b1, c1, n1⟩ : ∃ s1,
      payDown s (cand s.current_ev_index s.path_xor (maskOf s.no_of_paths)) pen = .ok s1 ∧
      s1.ev_skip_bitmap = s.ev_skip_bitmap.set
        (cand s.current_ev_index s.path_xor (maskOf s.no_of_paths)) (u8 (pen + 255)) ∧
      s1.ev_skip_count
        = (if u8 (pen + 255) = 0 then s.ev_skip_count - 1 else s.ev_skip_count) ∧
      s1.no_of_paths = s.no_of_paths :=
    ⟨_, payDown_ok s _ pen hlt hget hpen hcount, rfl, rfl, rfl⟩
  have hstep : skipWalk (fuel + 1) (startWalk s g) = skipWalk fuel
      { sel := (advanceIndex s1 g).1
        g := (advanceIndex s1 g).2
        entropy := cand (advanceIndex s1 g).1.current_ev_index
          (advanceIndex s1 g).1.path_xor (maskOf s1.no_of_paths)
        flag := true
        counter := 1
        advances := 1 } :=
    skipWalk_first fuel (startWalk s g) pen s1 hget hpen rfl hpay
      (by simp only [startWalk, n1]; omega)
  rw [hstep]
  obtain ⟨fn, fr, fb, fc, fm⟩ := advanceIndex_frame s1 g
  have hlen1 : s1.ev_skip_bitmap.length = s.no_of_paths := by
    rw [b1, List.length_set]; exact hlen
  obtain ⟨w1, hw1, e1, e2, _⟩ :=
    skipWalk_later fuel
      { sel := (advanceIndex s1 g).1
        g := (advanceIndex s1 g).2
        entropy := cand (advanceIndex s1 g).1.current_ev_index
          (advanceIndex s1 g).1.path_xor (maskOf s1.no_of_paths)
        flag := true
        counter := 1
        advances := 1 } rfl
      (by simp only [fn, n1]; exact h1) (by simp only [fn, n1]; exact h16)
      (by simp only [fn, fb, n1]; exact hlen1)
      (by simp only [fn, n1]; exact cand_maskOf_lt _ _ _ h1 h16)
      (by simp only [fn, n1]; omega) (by simp only [fn, n1]; omega)
  simp only [fb, fc] at e1 e2
  exact ⟨w1, hw1, by rw [e1, b1], by rw [e2, c1]⟩

end UecMpBitmap

/-- C23, the claim as stated fails: on four paths with penalties 2, 3, 0, 0,
index 0 and xor value 0, one `nextEntropy` call examines and skips the
penalized paths 0 and 1 (two advances of the index inside the loop) and
returns path 2. The penalty of path 0 goes from 2 to 1, but the penalty of
path 1, skipped in the same call, is 3 before and after: it is not one
lower. -/
theorem bitmap_later_skip_unpaid_counterexample :
    (∃ w, UecMpBitmap.skipWalk (4 + 1)
        (UecMpBitmap.startWalk ⟨4, 0, 0, 0, [2, 3, 0, 0], 2, 15⟩ (fun _ => 0)) = .ok w ∧
      w.advances = 2 ∧ w.entropy = 2) ∧
    UecMpBitmap.nextEntropy ⟨4, 0, 0, 0, [2, 3, 0, 0], 2, 15⟩ (fun _ => 0) 0 0
      = .ok (2, ⟨4, 0, 0, 3, [1, 3, 0, 0], 2, 15⟩, fun _ => 0) ∧
    ([2, 3, 0, 0] : List Nat)[1]? = some 3 ∧
    ¬ (([1, 3, 0, 0] : List Nat)[1]? = some (3 - 1)) :=
  ⟨⟨_, rfl, rfl, rfl⟩, rfl, rfl, by decide⟩

/-- C23 as amended: in `nextEntropy` on a Bitmap selector (at least one path,
a penalty array of that size with `uint8_t` entries, a skip count equal to the
number of penalized paths) only the first candidate examined, the one at the
starting index, pays: when its penalty `pen` is non-zero it goes down by
exactly one, and the skip count goes down by one when it reaches zero. The
penalty of every other path is unchanged, whether or not the walk examined and
skipped it; with `pen = 0` nothing changes. -/
theorem bitmap_first_candidate_pays (s : UecMpBitmap) (g : Rand) (a b : Nat)
    (h1 : 1 ≤ s.no_of_paths) (h16 : s.no_of_paths < 65536)
    (hlen : s.ev_skip_bitmap.length = s.no_of_paths)
    (hcount : s.ev_skip_count = s.penalized)
    (hu8 : ∀ x ∈ s.ev_skip_bitmap, x < 256) :
    ∃ pen r,
      s.ev_skip_bitmap[cand s.current_ev_index s.path_xor (maskOf s.no_of_paths)]? = some pen ∧
      s.nextEntropy g a b = .ok r ∧
      r.2.1.ev_skip_bitmap
        = (if pen = 0 then s.ev_skip_bitmap
           else s.ev_skip_bitmap.set
             (cand s.current_ev_index s.path_xor (maskOf s.no_of_paths)) (pen - 1)) ∧
      r.2.1.ev_skip_count = (if pen = 1 then s.ev_skip_count - 1 else s.ev_skip_count) ∧
      ∀ j, j ≠ cand s.current_ev_index s.path_xor (maskOf s.no_of_paths) →
        r.2.1.ev_skip_bitmap[j]? = s.ev_skip_bitmap[j]? := by
  have hlt : cand s.current_ev_index s.path_xor (maskOf s.no_of_paths)
      < s.ev_skip_bitmap.length := by
    rw [hlen]; exact cand_maskOf_lt _ _ _ h1 h16
  have hget := List.getElem?_eq_getElem hlt
  have hmem := List.getElem_mem hlt
  have hpen8 := hu8 _ hmem
  generalize s.ev_skip_bitmap[cand s.current_ev_index s.path_xor (maskOf s.no_of_paths)]
    = pen at hget hpen8
  rcases Nat.eq_zero_or_pos pen with h0 | hpos
  · subst h0
    have hw := UecMpBitmap.skipWalk_exit s.no_of_paths (s.startWalk g) hget
    refine ⟨0, UecMpBitmap.finish (s.startWalk g), hget,
      by simp only [UecMpBitmap.nextEntropy, UecMpBitmap.nextEntropyFuel, hw], ?_, ?_, ?_⟩
    · simp only [UecMpBitmap.finish, (UecMpBitmap.advanceIndex_frame _ _).2.2.1, if_true]
      rfl
    · simp only [UecMpBitmap.finish, (UecMpBitmap.advanceIndex_frame _ _).2.2.2.1]
      rfl
    · intro j _
      simp only [UecMpBitmap.finish, (UecMpBitmap.advanceIndex_frame _ _).2.2.1]
      rfl
  · obtain ⟨w, hw, hb, hc⟩ := UecMpBitmap.skipWalk_start_paid (s.no_of_paths + 1) s g h1 h16
      hlen hcount (Nat.le_refl _) pen hget hpos
    have hlow : u8 (pen + 255) = pen - 1 := by unfold u8; omega
    have hne : ¬ pen = 0 := by omega
    rw [hlow] at hb hc
    refine ⟨pen, UecMpBitmap.finish w, hget,
      by simp only [UecMpBitmap.nextEntropy, UecMpBitmap.nextEntropyFuel, hw], ?_, ?_, ?_⟩
    · simp only [UecMpBitmap.finish, (UecMpBitmap.advanceIndex_frame _ _).2.2.1, hb, hne,
        if_false]
    · simp only [UecMpBitmap.finish, (UecMpBitmap.advanceIndex_frame _ _).2.2.2.1, hc]
      by_cases h : pen = 1
      · simp [h]
      · have h2 : ¬ pen - 1 = 0 := by omega
        simp [h, h2]
    · intro j hj
      simp only [UecMpBitmap.finish, (UecMpBitmap.advanceIndex_frame _ _).2.2.1, hb]
      exact List.getElem?_set_ne (fun e => hj e.symm)

/-- C23 as amended, at the selector of the counterexample: path 0 pays, path 1
does not. -/
theorem bitmap_first_candidate_pays_witness :
    ∃ pen r,
      ([2, 3, 0, 0] : List Nat)[cand 0 0 (maskOf 4)]? = some pen ∧
      UecMpBitmap.nextEntropy ⟨4, 0, 0, 0, [2, 3, 0, 0], 2, 15⟩ (fun _ => 0) 0 0 = .ok r ∧
      r.2.1.ev_skip_bitmap
        = (if pen = 0 then [2, 3, 0, 0]
           else ([2, 3, 0, 0] : List Nat).set (cand 0 0 (maskOf 4)) (pen - 1)) ∧
      r.2.1.ev_skip_count = (if pen = 1 then 2 - 1 else 2) ∧
      ∀ j, j ≠ cand 0 0 (maskOf 4) →
        r.2.1.ev_skip_bitmap[j]? = ([2, 3, 0, 0] : List Nat)[j]? :=
  bitmap_first_candidate_pays ⟨4, 0, 0, 0, [2, 3, 0, 0], 2, 15⟩ (fun _ => 0) 0 0
    (by decide) (by decide) rfl (by decide) (by decide)

/-! ## Bitmap without penalties and Oblivious -/

theorem set_same (l : List Nat) : ∀ (i v : Nat), l[i]? = some v → l.set i v = l := by
  induction l with
  | nil => intro i v h; simp at h
  | cons x t ih =>
    intro i v h
    cases i with
    | zero =>
      have hx : x = v := by simpa using h
      simp [hx]
    | succ j =>
      have hj : t[j]? = some v := by simpa using h
      simp [ih j v hj]

namespace UecMpBitmap

/-- With no penalty anywhere the loop of `nextEntropy` is not entered, and the
call does what the Oblivious selector of the same fields does. -/
theorem nextEntropy_zero (s : UecMpBitmap) (g : Rand) (a b : Nat)
    (h1 : 1 ≤ s.no_of_paths) (h16 : s.no_of_paths < 65536)
    (hlen : s.ev_skip_bitmap.length = s.no_of_paths)
    (hzero : ∀ x ∈ s.ev_skip_bitmap, x = 0) :
    s.nextEntropy g a b = .ok ((s.toOblivious.nextEntropy g a b).1,
      { s with
        current_ev_index := (s.toOblivious.nextEntropy g a b).2.1.current_ev_index
        path_xor := (s.toOblivious.nextEntropy g a b).2.1.path_xor },
      (s.toOblivious.nextEntropy g a b).2.2) := by
  have hlt : cand s.current_ev_index s.path_xor (maskOf s.no_of_paths)
      < s.ev_skip_bitmap.length := by
    rw [hlen]; exact cand_maskOf_lt _ _ _ h1 h16
  have hget : s.ev_skip_bitmap[cand s.current_ev_index s.path_xor (maskOf s.no_of_paths)]?
      = some 0 := by
    rw [List.getElem?_eq_getElem hlt, hzero _ (List.getElem_mem hlt)]
  have hw := skipWalk_exit s.no_of_paths (s.startWalk g) hget
  simp only [nextEntropy, nextEntropyFuel, hw]
  by_cases h : u16 (s.current_ev_index + 1) = s.no_of_paths
  · simp [finish, startWalk, advanceIndex, UecMpOblivious.nextEntropy, toOblivious, h]
  · simp [finish, startWalk, advanceIndex, UecMpOblivious.nextEntropy, toOblivious, h]

/-- GOOD feedback on a selector with no penalty anywhere changes nothing. -/
theorem processEv_good_zero (s : UecMpBitmap) (p : Nat)
    (h1 : 1 ≤ s.no_of_paths) (h16 : s.no_of_paths < 65536)
    (hlen : s.ev_skip_bitmap.length = s.no_of_paths)
    (hzero : ∀ x ∈ s.ev_skip_bitmap, x = 0) :
    s.processEv p .PATH_GOOD = .ok s := by
  have hlt : p &&& maskOf s.no_of_paths < s.ev_skip_bitmap.length := by
    rw [hlen]; exact and_maskOf_lt _ _ h1 h16
  have hx : s.ev_skip_bitmap[p &&& maskOf s.no_of_paths] = 0 := hzero _ (List.getElem_mem hlt)
  have hget : s.ev_skip_bitmap[p &&& maskOf s.no_of_paths]? = some 0 := by
    rw [List.getElem?_eq_getElem hlt, hx]
  have hset : s.ev_skip_bitmap.set (p &&& maskOf s.no_of_paths) 0 = s.ev_skip_bitmap :=
    set_same _ _ _ hget
  simp only [processEv, hget, penaltyOf, u8]
  simp [hset]

/-- A run of selections and GOOD reports on a selector with no penalty
anywhere returns the values that the Oblivious selector of the same fields
returns, and ends in the same index and xor value with the same draws left. -/
theorem run_good_only (ops : List Op) :
    ∀ (s : UecMpBitmap) (g : Rand), 1 ≤ s.no_of_paths → s.no_of_paths < 65536 →
      s.ev_skip_bitmap.length = s.no_of_paths → (∀ x ∈ s.ev_skip_bitmap, x = 0) →
      (∀ p f, Op.processEv p f ∈ ops → f = .PATH_GOOD) →
      ∃ s1, s.run g ops
          = .ok ((s.toOblivious.run g ops).1, s1, (s.toOblivious.run g ops).2.2) ∧
        s1.toOblivious = (s.toOblivious.run g ops).2.1 ∧
        s1.ev_skip_bitmap = s.ev_skip_bitmap ∧ s1.ev_skip_count = s.ev_skip_count := by
  induction ops with
  | nil =>
    intro s g _ _ _ _ _
    exact ⟨s, rfl, rfl, rfl, rfl⟩
  | cons o ops ih =>
    intro s g h1 h16 hlen hzero hgood
    have hrest : ∀ p f, Op.processEv p f ∈ ops → f = .PATH_GOOD :=
      fun p f hp => hgood p f (List.mem_cons_of_mem _ hp)
    cases o with
    | processEv p f =>
      have hf : f = .PATH_GOOD := hgood p f (List.mem_cons_self _ _)
      subst hf
      obtain ⟨s1, hrun, e1, e2, e3⟩ := ih s g h1 h16 hlen hzero hrest
      refine ⟨s1, ?_, ?_, e2, e3⟩
      · rw [run]
        simp only [processEv_good_zero s p h1 h16 hlen hzero]
        rw [hrun]
        simp [UecMpOblivious.run, UecMpOblivious.processEv]
      · rw [e1]
        simp [UecMpOblivious.run, UecMpOblivious.processEv]
    | nextEntropy a b =>
      have hstep := nextEntropy_zero s g a b h1 h16 hlen hzero
      obtain ⟨s1, hrun, e1, e2, e3⟩ := ih
        { s with
          current_ev_index := (s.toOblivious.nextEntropy g a b).2.1.current_ev_index
          path_xor := (s.toOblivious.nextEntropy g a b).2.1.path_xor }
        (s.toOblivious.nextEntropy g a b).2.2 h1 h16 hlen hzero hrest
      have hto : toOblivious
          { s with
            current_ev_index := (s.toOblivious.nextEntropy g a b).2.1.current_ev_index
            path_xor := (s.toOblivious.nextEntropy g a b).2.1.path_xor }
          = (s.toOblivious.nextEntropy g a b).2.1 := by
        by_cases h : u16 (s.current_ev_index + 1) = s.no_of_paths <;>
          simp [toOblivious, UecMpOblivious.nextEntropy, h]
      rw [hto] at hrun e1
      refine ⟨s1, ?_, ?_, e2, e3⟩
      · rw [run]
        simp only [hstep, hrun]
        simp [UecMpOblivious.run]
      · rw [e1]
        simp [UecMpOblivious.run]

end UecMpBitmap

/-- C24: take a Bitmap selector with no penalty anywhere (a `uint16_t` path
count of at least one, the powers of two among them, and a penalty array of
that size) and the Oblivious selector `s.toOblivious` with the same path
count, salt, xor value and round-robin index, on the same random draws. One
`nextEntropy` call returns the same value on both, leaves the same index and
xor value and the same draws, and leaves the penalties at zero. Hence over any
sequence of `nextEntropy` calls and GOOD reports the Bitmap selector returns
the sequence of values that the Oblivious selector returns. The two
constructors build such a pair from the same draws. -/
theorem bitmap_refines_oblivious (s : UecMpBitmap) (g : Rand) (a b : Nat) (ops : List Op)
    (h1 : 1 ≤ s.no_of_paths) (h16 : s.no_of_paths < 65536)
    (hlen : s.ev_skip_bitmap.length = s.no_of_paths)
    (hzero : ∀ x ∈ s.ev_skip_bitmap, x = 0)
    (hgood : ∀ p f, Op.processEv p f ∈ ops → f = .PATH_GOOD) :
    (∃ s1, s.nextEntropy g a b
        = .ok ((s.toOblivious.nextEntropy g a b).1, s1, (s.toOblivious.nextEntropy g a b).2.2) ∧
      s1.toOblivious = (s.toOblivious.nextEntropy g a b).2.1 ∧
      s1.ev_skip_bitmap = s.ev_skip_bitmap ∧ s1.ev_skip_count = s.ev_skip_count) ∧
    (∃ s2, s.run g ops
        = .ok ((s.toOblivious.run g ops).1, s2, (s.toOblivious.run g ops).2.2) ∧
      s2.toOblivious = (s.toOblivious.run g ops).2.1 ∧
      s2.ev_skip_bitmap = s.ev_skip_bitmap ∧ s2.ev_skip_count = s.ev_skip_count) ∧
    ((UecMpBitmap.create s.no_of_paths g).1.toOblivious
        = (UecMpOblivious.create s.no_of_paths g).1 ∧
      (UecMpBitmap.create s.no_of_paths g).2 = (UecMpOblivious.create s.no_of_paths g).2 ∧
      (UecMpBitmap.create s.no_of_paths g).1.ev_skip_bitmap.length = s.no_of_paths ∧
      ∀ x ∈ (UecMpBitmap.create s.no_of_paths g).1.ev_skip_bitmap, x = 0) := by
  refine ⟨?_, UecMpBitmap.run_good_only ops s g h1 h16 hlen hzero hgood, rfl, rfl, ?_, ?_⟩
  · refine ⟨_, UecMpBitmap.nextEntropy_zero s g a b h1 h16 hlen hzero, ?_, rfl, rfl⟩
    by_cases h : u16 (s.current_ev_index + 1) = s.no_of_paths <;>
      simp [UecMpBitmap.toOblivious, UecMpOblivious.nextEntropy, h]
  · simp [UecMpBitmap.create]
  · intro x hx
    simp only [UecMpBitmap.create] at hx
    exact (List.mem_replicate.1 hx).2

/-- C24 at a concrete pair of four paths, from index 3 (the first call wraps
the index and draws): three selections with a GOOD report between them. -/
theorem bitmap_refines_oblivious_witness :
    (∃ s1, UecMpBitmap.nextEntropy ⟨4, 0xabcd, 1, 3, [0, 0, 0, 0], 0, 15⟩ (fun i => i + 6) 0 0
        = .ok ((UecMpOblivious.nextEntropy ⟨4, 0xabcd, 1, 3⟩ (fun i => i + 6) 0 0).1, s1,
            (UecMpOblivious.nextEntropy ⟨4, 0xabcd, 1, 3⟩ (fun i => i + 6) 0 0).2.2) ∧
      s1.toOblivious = (UecMpOblivious.nextEntropy ⟨4, 0xabcd, 1, 3⟩ (fun i => i + 6) 0 0).2.1 ∧
      s1.ev_skip_bitmap = [0, 0, 0, 0] ∧ s1.ev_skip_count = 0) ∧
    (∃ s2, UecMpBitmap.run ⟨4, 0xabcd, 1, 3, [0, 0, 0, 0], 0, 15⟩ (fun i => i + 6)
          [.nextEntropy 0 0, .processEv 9 .PATH_GOOD, .nextEntropy 1 1, .nextEntropy 2 2]
        = .ok ((UecMpOblivious.run ⟨4, 0xabcd, 1, 3⟩ (fun i => i + 6)
              [.nextEntropy 0 0, .processEv 9 .PATH_GOOD, .nextEntropy 1 1, .nextEntropy 2 2]).1,
            s2,
            (UecMpOblivious.run ⟨4, 0xabcd, 1, 3⟩ (fun i => i + 6)
              [.nextEntropy 0 0, .processEv 9 .PATH_GOOD, .nextEntropy 1 1,
                .nextEntropy 2 2]).2.2) ∧
      s2.toOblivious = (UecMpOblivious.run ⟨4, 0xabcd, 1, 3⟩ (fun i => i + 6)
          [.nextEntropy 0 0, .processEv 9 .PATH_GOOD, .nextEntropy 1 1, .nextEntropy 2 2]).2.1 ∧
      s2.ev_skip_bitmap = [0, 0, 0, 0] ∧ s2.ev_skip_count = 0) ∧
    ((UecMpBitmap.create 4 (fun i => i + 6)).1.toOblivious
        = (UecMpOblivious.create 4 (fun i => i + 6)).1 ∧
      (UecMpBitmap.create 4 (fun i => i + 6)).2 = (UecMpOblivious.create 4 (fun i => i + 6)).2 ∧
      (UecMpBitmap.create 4 (fun i => i + 6)).1.ev_skip_bitmap.length = 4 ∧
      ∀ x ∈ (UecMpBitmap.create 4 (fun i => i + 6)).1.ev_skip_bitmap, x = 0) :=
  bitmap_refines_oblivious ⟨4, 0xabcd, 1, 3, [0, 0, 0, 0], 0, 15⟩ (fun i => i + 6) 0 0
    [.nextEntropy 0 0, .processEv 9 .PATH_GOOD, .nextEntropy 1 1, .nextEntropy 2 2]
    (by decide) (by decide) rfl (by decide)
    (by
      intro p f hp
      simp at hp
      exact hp.2)

end UecMp
